import Mathlib

/-!
Verification of calc_micro: the expression compiler and the task scheduler of
the orchestrator.

Shallow embedding of `cmd/orchestrator/main.go` and of `computeTask` from
`cmd/agent/main.go`.

* Go strings are Lean strings: sequences of Unicode code points, which is what
  `for _, char := range expr` iterates over on valid UTF-8.
* `float64` is a parameter: the program only adds, subtracts, multiplies,
  divides, compares with `0` and calls `strconv.ParseFloat`, so every theorem
  is stated for an arbitrary carrier with these operations (`Float64Ops`).
* A Go slice used as a stack is a list whose head is the top of the stack.
  An index or slice expression that is out of range makes the function
  return `none`.
* `generateID` is a parameter: the `k`-th call made by one `parseExpression`
  returns `gen k`.
* The maps `expressions` and `tasks` are association lists read with `mapGet`;
  the iteration order of `range tasks` in the claim scan is an explicit
  argument, since Go leaves it unspecified.
-/

namespace CalcMicro

/-! ## Numbers and configuration -/

/-- The operations on `float64` that the program uses. `isZero x` is the Go
test `x == 0` (so `x != 0` is its negation), `zero` is the zero value of the
type, and `parseFloat tok` is the first result of
`strconv.ParseFloat(tok, 64)`, the error being discarded by the caller. -/
structure Float64Ops (α : Type) where
  zero : α
  isZero : α → Bool
  add : α → α → α
  sub : α → α → α
  mul : α → α → α
  div : α → α → α
  parseFloat : String → α

/-- The four package-level latency variables read from the environment. -/
structure Config where
  time_addition_ms : Int
  time_subtraction_ms : Int
  time_multiplication_ms : Int
  time_division_ms : Int
deriving DecidableEq, Repr

/-- Value of an unsigned decimal integer literal, 0 on any other string. -/
def parseDecimal (tok : String) : ℚ :=
  if tok.data ≠ [] ∧ tok.data.all Char.isDigit then
    ((tok.data.foldl (fun n c => 10 * n + (c.toNat - 48)) 0 : Nat) : ℚ)
  else 0

/-- Exact rational arithmetic, used to evaluate the model on concrete inputs.
It agrees with `float64` on the small integers used below. -/
def ratOps : Float64Ops ℚ where
  zero := 0
  isZero := fun x => decide (x = 0)
  add := fun x y => x + y
  sub := fun x y => x - y
  mul := fun x y => x * y
  div := fun x y => x / y
  parseFloat := parseDecimal

/-- The documented defaults of the latency variables. -/
def defaultConfig : Config := ⟨1000, 1000, 2000, 2000⟩

/-! ## Data model -/

/-- Go `Expression`. -/
structure Expression (α : Type) where
  ID : String
  Expr : String
  Status : String
  Result : α
deriving DecidableEq, Repr

/-- Go `Task` of the orchestrator. -/
structure Task (α : Type) where
  ID : String
  ExpressionID : String
  Arg1 : α
  Arg2 : α
  Operation : String
  OperationTime : Int
  Dependencies : List String
  Result : α
  Completed : Bool
  IsProcessing : Bool
deriving DecidableEq, Repr

/-- Go `Task` of the agent: the fields that travel in the JSON body. -/
structure AgentTask (α : Type) where
  ID : String
  Arg1 : α
  Arg2 : α
  Operation : String
  OperationTime : Int
deriving DecidableEq, Repr

/-- The package-level maps `expressions` and `tasks`. -/
structure Store (α : Type) where
  expressions : List (String × Expression α)
  tasks : List (String × Task α)
deriving DecidableEq, Repr

/-! ## Maps -/

/-- Map read `m[k]`: the value and whether the key exists. -/
def mapGet {β : Type} : List (String × β) → String → Option β
  | [], _ => none
  | (k1, v1) :: m, k => if k1 = k then some v1 else mapGet m k

/-- Map write `m[k] = v`. -/
def mapSet {β : Type} : List (String × β) → String → β → List (String × β)
  | [], k, v => [(k, v)]
  | (k1, v1) :: m, k, v => if k1 = k then (k, v) :: m else (k1, v1) :: mapSet m k v

/-- The keys of a map. -/
def mapKeys {β : Type} (m : List (String × β)) : List String := m.map Prod.fst

/-- A store is a pair of maps: no key occurs twice. -/
def Store.WF {α : Type} (s : Store α) : Prop :=
  (mapKeys s.expressions).Nodup ∧ (mapKeys s.tasks).Nodup

instance {α : Type} (s : Store α) : Decidable s.WF := by
  unfold Store.WF; infer_instance

/-- The state of `setupTest`: both maps empty. -/
def emptyStore {α : Type} : Store α := ⟨[], []⟩

/-! ## Tokenizer -/

/-- The test `char == '+' || ... || char == ')'` of `tokenize`. -/
def isSpecialChar (c : Char) : Bool :=
  c == '+' || c == '-' || c == '*' || c == '/' || c == '(' || c == ')'

/-- Loop state of `tokenize`: the slice `tokens` and the string `currentToken`. -/
structure TokState where
  tokens : List String
  currentToken : String
deriving DecidableEq, Repr

/-- One iteration of the `for _, char := range expr` loop of `tokenize`. -/
def tokenizeStep (st : TokState) (char : Char) : TokState :=
  if char = ' ' then st
  else if isSpecialChar char then
    if st.currentToken ≠ "" then
      ⟨(st.tokens ++ [st.currentToken]) ++ [String.singleton char], ""⟩
    else
      ⟨st.tokens ++ [String.singleton char], st.currentToken⟩
  else ⟨st.tokens, st.currentToken.push char⟩

/-- Go `tokenize`. -/
def tokenize (expr : String) : List String :=
  let st := expr.data.foldl tokenizeStep ⟨[], ""⟩
  if st.currentToken ≠ "" then st.tokens ++ [st.currentToken] else st.tokens

/-! ## Postfix converter -/

/-- The `precedence` map of `infixToPostfix`; a missing key reads as 0. -/
def precedence (tok : String) : Nat :=
  if tok = "+" then 1 else if tok = "-" then 1
  else if tok = "*" then 2 else if tok = "/" then 2 else 0

/-- The `case "+", "-", "*", "/"` test used by both switches. -/
def isOperator (tok : String) : Bool :=
  tok = "+" || tok = "-" || tok = "*" || tok = "/"

/-- Loop state of `infixToPostfix`: `output` and `stack` (top first). -/
structure PfState where
  output : List String
  stack : List String
deriving DecidableEq, Repr

/-- The loop of the operator case: pop to the output while the top of the
stack has a precedence greater than or equal to that of `token`. -/
def popWhileGE (token : String) : List String → List String → PfState
  | output, [] => ⟨output, []⟩
  | output, top :: rest =>
    if precedence top ≥ precedence token then popWhileGE token (output ++ [top]) rest
    else ⟨output, top :: rest⟩

/-- The loop of the `")"` case: pop to the output until the top is `"("`. -/
def popUntilParen : List String → List String → PfState
  | output, [] => ⟨output, []⟩
  | output, top :: rest =>
    if top ≠ "(" then popUntilParen (output ++ [top]) rest
    else ⟨output, top :: rest⟩

/-- One iteration of the token loop of `infixToPostfix`. In the `")"` case
`stack[:len(stack)-1]` is out of range when the stack is empty. -/
def postfixStep (st : PfState) (token : String) : Option PfState :=
  if isOperator token then
    let st1 := popWhileGE token st.output st.stack
    some ⟨st1.output, token :: st1.stack⟩
  else if token = "(" then
    some ⟨st.output, token :: st.stack⟩
  else if token = ")" then
    let st1 := popUntilParen st.output st.stack
    match st1.stack with
    | [] => none
    | _ :: rest => some ⟨st1.output, rest⟩
  else
    some ⟨st.output ++ [token], st.stack⟩

/-- The token loop of `infixToPostfix` followed by the final flush of the
stack to the output. -/
def postfixLoop : List String → PfState → Option (List String)
  | [], st => some (st.output ++ st.stack)
  | token :: rest, st =>
    match postfixStep st token with
    | none => none
    | some st1 => postfixLoop rest st1

/-- Go `infixToPostfix`; `none` when it panics. -/
def infixToPostfix (expr : String) : Option (List String) :=
  postfixLoop (tokenize expr) ⟨[], []⟩

/-! ## Task graph builder -/

/-- Go `getOperationTime`. -/
def getOperationTime (cfg : Config) (operation : String) : Int :=
  if operation = "+" then cfg.time_addition_ms
  else if operation = "-" then cfg.time_subtraction_ms
  else if operation = "*" then cfg.time_multiplication_ms
  else if operation = "/" then cfg.time_division_ms
  else 1000

/-- Loop state of `parseExpression`: `stack` (top first), `tasks`, and the
number of `generateID` calls made so far. -/
structure ParseState (α : Type) where
  stack : List (Task α)
  tasks : List (Task α)
  next : Nat
deriving DecidableEq, Repr

/-- One iteration of the loop of `parseExpression`. In the operator case
`stack[len(stack)-1]` and `stack[len(stack)-2]` are out of range when the
stack holds fewer than two handles. -/
def parseStep {α : Type} (A : Float64Ops α) (cfg : Config) (gen : Nat → String)
    (expressionID : String) (st : ParseState α) (token : String) : Option (ParseState α) :=
  if isOperator token then
    match st.stack with
    | arg2Task :: arg1Task :: rest =>
      let deps := (if !arg1Task.Completed then [arg1Task.ID] else [])
        ++ (if !arg2Task.Completed then [arg2Task.ID] else [])
      let task : Task α :=
        { ID := gen st.next
          ExpressionID := expressionID
          Arg1 := arg1Task.Result
          Arg2 := arg2Task.Result
          Operation := token
          OperationTime := getOperationTime cfg token
          Dependencies := deps
          Result := A.zero
          Completed := false
          IsProcessing := false }
      some ⟨task :: rest, st.tasks ++ [task], st.next + 1⟩
    | _ => none
  else
    let num := A.parseFloat token
    let task : Task α :=
      { ID := gen st.next
        ExpressionID := expressionID
        Arg1 := num
        Arg2 := A.zero
        Operation := ""
        OperationTime := 0
        Dependencies := []
        Result := num
        Completed := true
        IsProcessing := false }
    some ⟨task :: st.stack, st.tasks, st.next + 1⟩

/-- The loop of `parseExpression` over the postfix tokens. -/
def parseLoop {α : Type} (A : Float64Ops α) (cfg : Config) (gen : Nat → String)
    (expressionID : String) : List String → ParseState α → Option (ParseState α)
  | [], st => some st
  | token :: rest, st =>
    match parseStep A cfg gen expressionID st token with
    | none => none
    | some st1 => parseLoop A cfg gen expressionID rest st1

/-- Go `parseExpression`; `none` when it panics. -/
def parseExpression {α : Type} (A : Float64Ops α) (cfg : Config) (gen : Nat → String)
    (expr : String) (expressionID : String) : Option (List (Task α)) :=
  match infixToPostfix expr with
  | none => none
  | some toks =>
    match parseLoop A cfg gen expressionID toks ⟨[], [], 0⟩ with
    | none => none
    | some st => some st.tasks

/-! ## Task store and dependency resolution -/

/-- Go `updateTaskByDependency`. -/
def updateTaskByDependency {α : Type} (A : Float64Ops α) (task : Task α) (index : Nat)
    (value : α) : Task α :=
  let depsCount := task.Dependencies.length
  if depsCount = 1 then
    if A.isZero task.Arg1 && !A.isZero task.Arg2 then { task with Arg1 := value }
    else { task with Arg2 := value }
  else if depsCount = 2 then
    if index = 0 then { task with Arg1 := value }
    else if A.isZero task.Arg1 && !A.isZero task.Arg2 then { task with Arg1 := value }
    else { task with Arg2 := value }
  else task

/-- The loop of `areDependenciesCompleted` from index `idx` on: the task as
mutated so far, and the returned boolean. -/
def depsLoop {α : Type} (A : Float64Ops α) (tasks : List (String × Task α)) :
    Task α → Nat → List String → Task α × Bool
  | task, _, [] => (task, true)
  | task, idx, depID :: rest =>
    match mapGet tasks depID with
    | none => (task, false)
    | some depTask =>
      if !depTask.Completed then (task, false)
      else depsLoop A tasks (updateTaskByDependency A task idx depTask.Result) (idx + 1) rest

/-- Go `areDependenciesCompleted`: the boolean, and the task after the side
effects of `updateTaskByDependency`. -/
def areDependenciesCompleted {α : Type} (A : Float64Ops α) (tasks : List (String × Task α))
    (task : Task α) : Task α × Bool :=
  depsLoop A tasks task 0 task.Dependencies

/-- Go `isFinalTask`. -/
def isFinalTask {α : Type} (tasks : List (String × Task α)) (expressionID : String) : Bool :=
  tasks.all (fun e => !(e.2.ExpressionID = expressionID && !e.2.Completed))

/-- Go `clearExpressionTasks`. -/
def clearExpressionTasks {α : Type} (tasks : List (String × Task α)) (expressionID : String) :
    List (String × Task α) :=
  tasks.filter (fun e => !(e.2.ExpressionID = expressionID))

/-! ## Dispatcher -/

/-- The `range tasks` loop of the GET branch of `handleTask`, visiting the keys
in the order `order` (an entry of `order` that is not a key is passed over).
Returns the store after the call and the task that was encoded in the
response, if any; the encoding precedes `task.IsProcessing = true`. -/
def claimScan {α : Type} (A : Float64Ops α) : List String → Store α → Store α × Option (Task α)
  | [], s => (s, none)
  | k :: order, s =>
    match mapGet s.tasks k with
    | none => claimScan A order s
    | some task =>
      if task.IsProcessing then claimScan A order s
      else if task.Completed then claimScan A order s
      else
        let r := areDependenciesCompleted A s.tasks task
        if r.2 then
          ({ s with tasks := mapSet s.tasks k { r.1 with IsProcessing := true } }, some r.1)
        else claimScan A order { s with tasks := mapSet s.tasks k r.1 }

/-- GET branch of `handleTask` (the claim operation): the new store, the HTTP
status, and the task of the response body. -/
def handleTaskGet {α : Type} (A : Float64Ops α) (order : List String) (s : Store α) :
    Store α × Nat × Option (Task α) :=
  match claimScan A order s with
  | (s1, some task) => (s1, 200, some task)
  | (s1, none) => (s1, 404, none)

/-- POST branch of `handleTask` (the complete operation) on a decoded body:
the new store and the HTTP status. -/
def handleTaskPost {α : Type} (id : String) (result : α) (s : Store α) : Store α × Nat :=
  match mapGet s.tasks id with
  | none => (s, 404)
  | some task =>
    let task1 : Task α := { task with Result := result, Completed := true }
    let tasks1 := mapSet s.tasks id task1
    match mapGet s.expressions task1.ExpressionID with
    | none => ({ s with tasks := tasks1 }, 404)
    | some expr =>
      if isFinalTask tasks1 task1.ExpressionID then
        ({ expressions := mapSet s.expressions task1.ExpressionID
              { expr with Result := task1.Result, Status := "completed" }
           tasks := clearExpressionTasks tasks1 task1.ExpressionID }, 200)
      else ({ s with tasks := tasks1 }, 200)

/-! ## Submission -/

/-- Go `unicode.IsSpace`, modelled from the standard library documentation. -/
def isSpace (c : Char) : Bool :=
  decide (c.toNat ∈ [0x09, 0x0A, 0x0B, 0x0C, 0x0D, 0x20, 0x85, 0xA0, 0x1680, 0x2028, 0x2029,
    0x202F, 0x205F, 0x3000]) || (decide (0x2000 ≤ c.toNat) && decide (c.toNat ≤ 0x200A))

/-- Go `strings.TrimSpace`, modelled from the standard library documentation. -/
def TrimSpace (s : String) : String :=
  ⟨((s.data.dropWhile isSpace).reverse.dropWhile isSpace).reverse⟩

/-- The first critical section of `handleCalculate`: `expressions[id] = expr`. -/
def insertExpression {α : Type} (expr : Expression α) (s : Store α) : Store α :=
  { s with expressions := mapSet s.expressions expr.ID expr }

/-- One critical section of the loop of `handleCalculate`: `tasks[task.ID] = task`. -/
def insertTask {α : Type} (task : Task α) (s : Store α) : Store α :=
  { s with tasks := mapSet s.tasks task.ID task }

/-- The loop `for _, task := range tasksForExpr` of `handleCalculate`, run
without interruption. -/
def insertTasks {α : Type} : List (Task α) → Store α → Store α
  | [], s => s
  | task :: rest, s => insertTasks rest (insertTask task s)

/-- Go `handleCalculate`, run without interleaving with other requests, on a
request with method `method` and JSON body decoded to `body` (`none` when the
decoder fails). `id` is the result of the call `generateID()` of the handler
and `gen` gives those made by `parseExpression`. The status is `none` when
`parseExpression` panics. -/
def handleCalculate {α : Type} (A : Float64Ops α) (cfg : Config) (id : String)
    (gen : Nat → String) (method : String) (body : Option String) (s : Store α) :
    Store α × Option Nat :=
  if method ≠ "POST" then (s, some 500)
  else
    match body with
    | none => (s, some 422)
    | some reqExpression =>
      let expression := TrimSpace reqExpression
      if expression = "" then (s, some 422)
      else
        let s1 := insertExpression
          { ID := id, Expr := expression, Status := "pending", Result := A.zero } s
        match parseExpression A cfg gen expression id with
        | none => (s1, none)
        | some tasksForExpr => (insertTasks tasksForExpr s1, some 201)

/-! ## Worker -/

/-- The `switch task.Operation` of `computeTask`. -/
def applyOperation {α : Type} (A : Float64Ops α) (operation : String) (arg1 arg2 : α) : α :=
  if operation = "+" then A.add arg1 arg2
  else if operation = "-" then A.sub arg1 arg2
  else if operation = "*" then A.mul arg1 arg2
  else if operation = "/" then A.div arg1 arg2
  else A.zero

/-- Go `computeTask` of the agent, the sleep left out. -/
def computeTask {α : Type} (A : Float64Ops α) (task : AgentTask α) : α :=
  applyOperation A task.Operation task.Arg1 task.Arg2

/-- The task as the agent decodes it from the response of the claim operation. -/
def toAgentTask {α : Type} (task : Task α) : AgentTask α :=
  ⟨task.ID, task.Arg1, task.Arg2, task.Operation, task.OperationTime⟩

/-- One round of the loop of `worker`: `getTask`, and when a task was handed
out, `computeTask` and `sendResult`. `order` maps the keys of the task map to
the order in which this claim scan visits them. The boolean tells whether a
task was handed out. -/
def workerRound {α : Type} (A : Float64Ops α) (order : List String → List String)
    (s : Store α) : Store α × Bool :=
  match handleTaskGet A (order (mapKeys s.tasks)) s with
  | (s1, _, some task) => ((handleTaskPost task.ID (computeTask A (toAgentTask task)) s1).1, true)
  | (s1, _, none) => (s1, false)

/-- A single worker polling until no task is handed out, at most `fuel` rounds. -/
def runWorker {α : Type} (A : Float64Ops α) (order : List String → List String) :
    Nat → Store α → Store α
  | 0, s => s
  | fuel + 1, s =>
    match workerRound A order s with
    | (s1, true) => runWorker A order fuel s1
    | (s1, false) => s1

/-- Submit `expression` to the empty store, then let one worker run. -/
def submitAndRun {α : Type} (A : Float64Ops α) (cfg : Config) (id : String)
    (gen : Nat → String) (order : List String → List String) (fuel : Nat)
    (expression : String) : Store α :=
  runWorker A order fuel (handleCalculate A cfg id gen "POST" (some expression) emptyStore).1

/-- The identifiers `t0`, `t1`, ... used on concrete inputs. -/
def genT (k : Nat) : String := "t" ++ String.mk (Nat.toDigits 10 k)

/-! ## Reference semantics of expressions -/

/-- A token that `tokenize` emits when it meets an operator or a parenthesis. -/
def isSpecialToken (tok : String) : Bool :=
  tok = "+" || tok = "-" || tok = "*" || tok = "/" || tok = "(" || tok = ")"

/-- A literal token: non-empty, without operator, parenthesis or space character. -/
def isLiteralToken (tok : String) : Bool :=
  decide (tok.data ≠ []) && tok.data.all (fun c => !isSpecialChar c && decide (c ≠ ' '))

/-- Parse trees of the grammar `E ::= literal | E op E | ( E )`. -/
inductive Tree where
  | lit (tok : String)
  | bin (op : String) (l r : Tree)
  | paren (t : Tree)
deriving DecidableEq, Repr

/-- The infix token sequence that a tree is the parse of. -/
def Tree.tokens : Tree → List String
  | .lit tok => [tok]
  | .bin op l r => l.tokens ++ op :: r.tokens
  | .paren t => "(" :: (t.tokens ++ [")"])

/-- Standard rank of an arithmetic operator, as the specification gives it:
`*` and `/` bind tighter (rank 2) than `+` and `-` (rank 1). This is the rank
table of the reference parse; it is written down independently of the map
`precedence` that `infixToPostfix` consults. -/
def standardRank (op : String) : Nat :=
  if op = "*" ∨ op = "/" then 2 else if op = "+" ∨ op = "-" then 1 else 0

/-- Binding strength of the root of a tree: the standard rank of its operator,
and 3 for a literal or a parenthesised expression. -/
def Tree.level : Tree → Nat
  | .lit _ => 3
  | .bin op _ _ => standardRank op
  | .paren _ => 3

/-- The tree is the parse under standard precedence and left associativity:
the right operand of an operator binds strictly tighter than the operator and
the left operand at least as tight, by `standardRank`; literals are literal
tokens. -/
def Tree.wellFormed : Tree → Bool
  | .lit tok => isLiteralToken tok
  | .bin op l r => isOperator op && l.wellFormed && r.wellFormed
      && decide (standardRank op ≤ l.level) && decide (standardRank op < r.level)
  | .paren t => t.wellFormed

/-- The nodes of a tree in post-order, parentheses dropped. -/
def Tree.postorder : Tree → List String
  | .lit tok => [tok]
  | .bin op l r => l.postorder ++ r.postorder ++ [op]
  | .paren t => t.postorder

/-- The value of an expression: operators applied to the values of their
operands as the parse tree groups them. -/
def Tree.eval {α : Type} (A : Float64Ops α) : Tree → α
  | .lit tok => A.parseFloat tok
  | .bin op l r => applyOperation A op (l.eval A) (r.eval A)
  | .paren t => t.eval A

/-- The naive stack evaluator of a postfix sequence: push operands; on an
operator pop `b` then `a` and push `a op b`. The value is the single entry left
on the stack (top first). -/
def evalPostfix {α : Type} (A : Float64Ops α) : List String → List α → Option α
  | [], [v] => some v
  | [], _ => none
  | tok :: rest, stack =>
    if isOperator tok then
      match stack with
      | b :: a :: st => evalPostfix A rest (applyOperation A tok a b :: st)
      | _ => none
    else evalPostfix A rest (A.parseFloat tok :: stack)

/-- Number of literal and operator nodes of a tree. -/
def Tree.size : Tree → Nat
  | .lit _ => 1
  | .bin _ l r => l.size + r.size + 1
  | .paren t => t.size

/-- Number of operator nodes of a tree. -/
def Tree.opCount : Tree → Nat
  | .lit _ => 0
  | .bin _ l r => l.opCount + r.opCount + 1
  | .paren t => t.opCount

/-- The operand is a literal, possibly in parentheses. -/
def Tree.isLiteral : Tree → Bool
  | .lit _ => true
  | .bin _ _ _ => false
  | .paren t => t.isLiteral

/-- Identifier drawn for the root node of a tree whose first node is the
`n`-th node of the whole expression in post-order. -/
def Tree.rootID (gen : Nat → String) : Tree → Nat → String
  | .lit _, n => gen n
  | .bin _ l r, n => gen (n + l.size + r.size)
  | .paren t, n => t.rootID gen n

/-- Dependencies contributed by an operand: the ID of its task unless it is a
literal. -/
def Tree.childDeps (gen : Nat → String) (t : Tree) (n : Nat) : List String :=
  if t.isLiteral then [] else [t.rootID gen n]

/-- Operand slot at construction: the value of a literal operand, 0 otherwise. -/
def Tree.seed {α : Type} (A : Float64Ops α) : Tree → α
  | .lit tok => A.parseFloat tok
  | .bin _ _ _ => A.zero
  | .paren t => t.seed A

/-- The tasks of the operator nodes of a tree in post-order, as the
specification describes them; `n` is the post-order index of the first node. -/
def Tree.nodeTasks {α : Type} (A : Float64Ops α) (cfg : Config) (gen : Nat → String)
    (expressionID : String) : Tree → Nat → List (Task α)
  | .lit _, _ => []
  | .bin op l r, n =>
    l.nodeTasks A cfg gen expressionID n ++ r.nodeTasks A cfg gen expressionID (n + l.size) ++
      [{ ID := gen (n + l.size + r.size)
         ExpressionID := expressionID
         Arg1 := l.seed A
         Arg2 := r.seed A
         Operation := op
         OperationTime := getOperationTime cfg op
         Dependencies := l.childDeps gen n ++ r.childDeps gen (n + l.size)
         Result := A.zero
         Completed := false
         IsProcessing := false }]
  | .paren t, n => t.nodeTasks A cfg gen expressionID n

/-- The handle that `parseExpression` leaves on its stack for a subtree. -/
def Tree.handle {α : Type} (A : Float64Ops α) (cfg : Config) (gen : Nat → String)
    (expressionID : String) : Tree → Nat → Task α
  | .lit tok, n =>
    { ID := gen n
      ExpressionID := expressionID
      Arg1 := A.parseFloat tok
      Arg2 := A.zero
      Operation := ""
      OperationTime := 0
      Dependencies := []
      Result := A.parseFloat tok
      Completed := true
      IsProcessing := false }
  | .bin op l r, n =>
    { ID := gen (n + l.size + r.size)
      ExpressionID := expressionID
      Arg1 := l.seed A
      Arg2 := r.seed A
      Operation := op
      OperationTime := getOperationTime cfg op
      Dependencies := l.childDeps gen n ++ r.childDeps gen (n + l.size)
      Result := A.zero
      Completed := false
      IsProcessing := false }
  | .paren t, n => t.handle A cfg gen expressionID n

/-- The expression `(2 + 3) - 0`. -/
def exParenMinusZero : Tree :=
  .bin "-" (.paren (.bin "+" (.lit "2") (.lit "3"))) (.lit "0")

/-- The expression `2 + 3 * 4`. -/
def exAddMul : Tree := .bin "+" (.lit "2") (.bin "*" (.lit "3") (.lit "4"))

/-- The expression `(2 + 3) * 4`. -/
def exParenMul : Tree := .bin "*" (.paren (.bin "+" (.lit "2") (.lit "3"))) (.lit "4")

/-- No two adjacent tokens are both literals. -/
def noAdjacentLiterals : List String → Bool
  | a :: b :: rest => !(isLiteralToken a && isLiteralToken b) && noAdjacentLiterals (b :: rest)
  | _ => true

/-- Invariant of the loop of `tokenize` after the characters `pre`. -/
structure TokInv (pre : List Char) (st : TokState) : Prop where
  toks : ∀ t ∈ st.tokens, isSpecialToken t = true ∨ isLiteralToken t = true
  cur : ∀ c ∈ st.currentToken.data, isSpecialChar c = false ∧ c ≠ ' '
  last : ∀ t ∈ st.tokens.getLast?, isSpecialToken t = true
  chain : noAdjacentLiterals st.tokens = true
  concat : (st.tokens.map String.data).flatten ++ st.currentToken.data
    = pre.filter (fun c => decide (c ≠ ' '))

/-! ## Properties of the dispatcher -/

/-- The three conditions of the claim operation on a task `t` of the map
`tasks`: not claimed, not completed, and every dependency names a task that is
in the map and completed. -/
def Task.ready {α : Type} (tasks : List (String × Task α)) (t : Task α) : Prop :=
  t.IsProcessing = false ∧ t.Completed = false ∧
    ∀ d ∈ t.Dependencies, ∃ dt, mapGet tasks d = some dt ∧ dt.Completed = true

/-- The record `t1` is `t` with possibly other operand slots. -/
def Task.sameButArgs {α : Type} (t t1 : Task α) : Prop :=
  t1 = { t with Arg1 := t1.Arg1, Arg2 := t1.Arg2 }

/-- The record `t1` is `t` with possibly other operand slots and possibly
marked claimed. -/
def Task.scanned {α : Type} (t t1 : Task α) : Prop :=
  t1 = { t with Arg1 := t1.Arg1, Arg2 := t1.Arg2, IsProcessing := t1.IsProcessing } ∧
    (t.IsProcessing = true → t1.IsProcessing = true)

/-- A request to the orchestrator: a submission whose handler draws the
identifiers `id` and `gen 0, gen 1, ...`, a claim whose scan visits the keys in
`order`, or a completion. -/
inductive Request (α : Type) where
  | submit (id : String) (gen : Nat → String) (expression : String)
  | claim (order : List String)
  | complete (id : String) (result : α)

/-- One request served without interleaving: the new store, and the ID of the
task handed out when the request is a claim that returns one. -/
def step {α : Type} (A : Float64Ops α) (cfg : Config) (s : Store α) :
    Request α → Store α × Option String
  | .submit id gen expression =>
    ((handleCalculate A cfg id gen "POST" (some expression) s).1, none)
  | .claim order => ((handleTaskGet A order s).1, (handleTaskGet A order s).2.2.map Task.ID)
  | .complete id result => ((handleTaskPost id result s).1, none)

/-- A sequence of requests served one after the other: the final store and the
IDs of the tasks handed out, in order. -/
def run {α : Type} (A : Float64Ops α) (cfg : Config) :
    Store α → List (Request α) → Store α × List String
  | s, [] => (s, [])
  | s, req :: rest =>
    ((run A cfg (step A cfg s req).1 rest).1,
      (step A cfg s req).2.toList ++ (run A cfg (step A cfg s req).1 rest).2)

/-- The IDs of the tasks that a submission inserts into the task map. -/
def newTaskIDs {α : Type} (A : Float64Ops α) (cfg : Config) (id : String) (gen : Nat → String)
    (expression : String) : List String :=
  if TrimSpace expression = "" then []
  else
    match parseExpression A cfg gen (TrimSpace expression) id with
    | none => []
    | some tasksForExpr => tasksForExpr.map Task.ID

/-- Task IDs are fresh on submit: the IDs of the tasks a submission inserts
are pairwise distinct and none was drawn before (`issued`). -/
def freshIDs {α : Type} (A : Float64Ops α) (cfg : Config) :
    List String → List (Request α) → Prop
  | _, [] => True
  | issued, .submit id gen expression :: rest =>
    (newTaskIDs A cfg id gen expression).Nodup ∧
    (∀ i ∈ newTaskIDs A cfg id gen expression, i ∉ issued) ∧
    freshIDs A cfg (issued ++ newTaskIDs A cfg id gen expression) rest
  | issued, .claim _ :: rest => freshIDs A cfg issued rest
  | issued, .complete _ _ :: rest => freshIDs A cfg issued rest

/-- Invariant of the runs from the empty store: keys are the IDs of their
tasks, were issued, occur once, and a task that was handed out is marked
claimed as long as it is in the map. -/
structure RunInv {α : Type} (s : Store α) (issued claimed : List String) : Prop where
  nodup : (mapKeys s.tasks).Nodup
  key : ∀ k t, mapGet s.tasks k = some t → t.ID = k ∧ k ∈ issued
  marked : ∀ k t, mapGet s.tasks k = some t → k ∈ claimed → t.IsProcessing = true
  issuedClaimed : ∀ i ∈ claimed, i ∈ issued
  claimedNodup : claimed.Nodup

/-- The store of `TestHandleTask`: task `task1` (2 + 3) of expression `expr1`. -/
def testStore : Store ℚ :=
  { expressions := [("expr1", ⟨"expr1", "2 + 3", "pending", 0⟩)]
    tasks := [("task1", ⟨"task1", "expr1", 2, 3, "+", 1000, [], 0, false, false⟩)] }

/-- A store with two tasks of expression `e`: the product `t2` and the sum `t4`
that depends on it. -/
def twoTaskStore : Store ℚ :=
  { expressions := [("e", ⟨"e", "2 + 3 * 4", "pending", 0⟩)]
    tasks := [("t4", ⟨"t4", "e", 2, 0, "+", 1000, ["t2"], 0, false, false⟩),
      ("t2", ⟨"t2", "e", 3, 4, "*", 2000, [], 0, false, false⟩)] }

/-- Two maps have the same keys and their values are related by `R` key by key. -/
def MapRel {β : Type} (R : β → β → Prop) (m m1 : List (String × β)) : Prop :=
  (∀ k t, mapGet m k = some t → ∃ t1, mapGet m1 k = some t1 ∧ R t t1) ∧
  (∀ k t1, mapGet m1 k = some t1 → ∃ t, mapGet m k = some t ∧ R t t1)

/-- The task map after the two assignments `task.Result = req.Result` and
`task.Completed = true` of the complete operation on the task at key `id`. -/
def setResult {α : Type} (tasks : List (String × Task α)) (id : String) (task : Task α)
    (result : α) : List (String × Task α) :=
  mapSet tasks id { task with Result := result, Completed := true }

/-- The identifiers issued once a request has been served. -/
def issuedAfter {α : Type} (A : Float64Ops α) (cfg : Config) (issued : List String) :
    Request α → List String
  | .submit id gen expression => issued ++ newTaskIDs A cfg id gen expression
  | .claim _ => issued
  | .complete _ _ => issued

/-- The requests of a run on `2 + 3 * 4`: submit, three claims (the second
and third while the product is computed), completion of the product, two
claims, completion of the sum, and a last claim. -/
def exampleRun : List (Request ℚ) :=
  [.submit "e" genT "2 + 3 * 4", .claim ["t4", "t3"], .claim ["t4", "t3"],
    .claim ["t3", "t4"], .complete "t3" 12, .claim ["t3", "t4"], .claim ["t4", "t3"],
    .complete "t4" 14, .claim []]

/-- A tree of the grammar `E ::= literal | E op E | ( E )`, grouped in any way:
literals are literal tokens and operators are operator tokens. -/
def Tree.valid : Tree → Bool
  | .lit tok => isLiteralToken tok
  | .bin op l r => isOperator op && l.valid && r.valid
  | .paren t => t.valid

/-- Put the operand `r` under `op` to the right of `l`, below the operators on
the right spine of `l` that bind weaker than `op`. -/
def Tree.attach (op : String) (r : Tree) : Tree → Tree
  | .lit tok => .bin op (.lit tok) r
  | .paren t => .bin op (.paren t) r
  | .bin op1 l1 l2 =>
    if standardRank op1 < standardRank op then .bin op1 l1 (Tree.attach op r l2)
    else .bin op (.bin op1 l1 l2) r

/-- The parse of `l op r` from the parses of `l` and `r`. -/
def Tree.join (op : String) (l : Tree) : Tree → Tree
  | .lit tok => Tree.attach op (.lit tok) l
  | .paren t => Tree.attach op (.paren t) l
  | .bin op1 r1 r2 =>
    if standardRank op1 ≤ standardRank op then Tree.attach op1 r2 (Tree.join op l r1)
    else Tree.attach op (.bin op1 r1 r2) l

/-- Regroup a tree of the grammar by precedence and left associativity. -/
def Tree.normalize : Tree → Tree
  | .lit tok => .lit tok
  | .bin op l r => Tree.join op l.normalize r.normalize
  | .paren t => .paren t.normalize

/-- A store whose only task `t1` names an expression that is not in the
expression map. -/
def orphanStore : Store ℚ :=
  { expressions := []
    tasks := [("t1", ⟨"t1", "gone", 2, 3, "+", 1000, [], 0, false, false⟩)] }

/-- A submission is fresh for a store when none of the task IDs it inserts is a
key of the task map; the other requests insert nothing. -/
def freshFor {α : Type} (A : Float64Ops α) (cfg : Config) (s : Store α) : Request α → Prop
  | .submit id gen expression => ∀ i ∈ newTaskIDs A cfg id gen expression, i ∉ mapKeys s.tasks
  | .claim _ => True
  | .complete _ _ => True

/-- The requests that lead to the hand-out of the subtraction of `(2 + 3) - 0`:
submit, claim of the sum `t2`, its completion with 5. -/
def subtractionRun : List (Request ℚ) :=
  [.submit "e" genT "(2 + 3) - 0", .claim ["t2", "t4"], .complete "t2" 5]

/-- The record `t1` is `t` with possibly another result and completion flag,
and is completed when `t` is. -/
def Task.completedFrom {α : Type} (t t1 : Task α) : Prop :=
  t1 = { t with Result := t1.Result, Completed := t1.Completed } ∧
    (t.Completed = true → t1.Completed = true)

/-- The store `twoTaskStore` once the product `t2` has been handed out and
reported as 12. -/
def progressStore : Store ℚ :=
  { expressions := [("e", ⟨"e", "2 + 3 * 4", "pending", 0⟩)]
    tasks := [("t4", ⟨"t4", "e", 2, 0, "+", 1000, ["t2"], 0, false, false⟩),
      ("t2", ⟨"t2", "e", 3, 4, "*", 2000, [], 12, true, true⟩)] }

/-- The second operand slot of a task with two dependencies still holds a
zero value as long as the task has not been handed out. -/
def Task.slotFree {α : Type} (A : Float64Ops α) (t : Task α) : Prop :=
  t.Dependencies.length = 2 → t.IsProcessing = false → A.isZero t.Arg2 = true

/-- Every task of the store satisfies `Task.slotFree`. -/
def slotInv {α : Type} (A : Float64Ops α) (s : Store α) : Prop :=
  ∀ k t, mapGet s.tasks k = some t → Task.slotFree A t

/-- Invariant of the loop of `parseExpression` behind `slotInv`: a handle that
is not completed has result 0, and a task with two dependencies has its second
slot 0 and is not claimed. -/
structure ParseInv {α : Type} (A : Float64Ops α) (st : ParseState α) : Prop where
  stack : ∀ h ∈ st.stack, h.Completed = false → h.Result = A.zero
  tasks : ∀ t ∈ st.tasks, t.Dependencies.length = 2 → t.Arg2 = A.zero

/-- The requests of a run on `(1 + 2) * (3 + 4)` up to the hand-out of the
product `t6`: the product is scanned while only the first sum `t2` is reported
(as 3), then the second sum `t5` is reported (as 7). -/
def productRun : List (Request ℚ) :=
  [.submit "e" genT "(1 + 2) * (3 + 4)", .claim ["t6", "t2", "t5"], .complete "t2" 3,
    .claim ["t6", "t5"], .claim ["t6"], .complete "t5" 7]

/-- IDs are fresh on submit: the ID drawn for the expression and the IDs of the
tasks that the submission inserts were never drawn before (`issued`), and the
task IDs are pairwise distinct. -/
def freshRun {α : Type} (A : Float64Ops α) (cfg : Config) :
    List String → List (Request α) → Prop
  | _, [] => True
  | issued, .submit id gen expression :: rest =>
    id ∉ issued ∧ (newTaskIDs A cfg id gen expression).Nodup ∧
    (∀ i ∈ newTaskIDs A cfg id gen expression, i ∉ issued) ∧
    freshRun A cfg (issued ++ id :: newTaskIDs A cfg id gen expression) rest
  | issued, .claim _ :: rest => freshRun A cfg issued rest
  | issued, .complete _ _ :: rest => freshRun A cfg issued rest

/-- The identifiers drawn once a request has been served, expression IDs
included. -/
def issuedWith {α : Type} (A : Float64Ops α) (cfg : Config) (issued : List String) :
    Request α → List String
  | .submit id gen expression => issued ++ id :: newTaskIDs A cfg id gen expression
  | .claim _ => issued
  | .complete _ _ => issued

/-- Invariant of the expression map in runs with fresh IDs: expression IDs
were issued, a status is `pending` or `completed`, and every task of the store
belongs to an expression that is in the store and pending. -/
structure ExprInv {α : Type} (s : Store α) (issued : List String) : Prop where
  tasksNodup : (mapKeys s.tasks).Nodup
  exprKey : ∀ e x, mapGet s.expressions e = some x → e ∈ issued
  status : ∀ e x, mapGet s.expressions e = some x →
    x.Status = "pending" ∨ x.Status = "completed"
  owner : ∀ k t, mapGet s.tasks k = some t →
    ∃ x, mapGet s.expressions t.ExpressionID = some x ∧ x.Status = "pending"

/-- No expression record of `s` is missing from `s1`, and a record that is
completed in `s` is the same in `s1`. -/
def ExprKept {α : Type} (s s1 : Store α) : Prop :=
  ∀ e x, mapGet s.expressions e = some x →
    ∃ y, mapGet s1.expressions e = some y ∧ (x.Status = "completed" → y = x)

/-- The start of a run on two expressions: `2 + 3` is submitted, its task is
claimed and completed with 5. -/
def twoExpressionsPrefix : List (Request ℚ) :=
  [.submit "e1" genT "2 + 3", .claim ["t2"], .complete "t2" 5]

/-- The requests that follow `twoExpressionsPrefix`: a second submission, a
completion for the purged task of the first one, and claim and completion of
the task of the second. -/
def twoExpressionsSuffix : List (Request ℚ) :=
  [.submit "e2" (fun k => "u" ++ genT k) "4 * 5", .complete "t2" 99, .claim ["ut2"],
    .complete "ut2" 20]

/-- A completion is for a task that a claim has handed out before (`claimed`);
the other requests are not restricted. -/
def completesClaimed {α : Type} (claimed : List String) : Request α → Prop
  | .submit _ _ _ => True
  | .claim _ => True
  | .complete id _ => id ∈ claimed

instance {α : Type} (claimed : List String) (req : Request α) :
    Decidable (completesClaimed claimed req) := by
  cases req <;> unfold completesClaimed <;> infer_instance

/-- In the run of `reqs` from the store `s`, where the tasks `claimed` were
handed out before, `complete` is called only for tasks that the claim operation
has handed out. -/
def disciplined {α : Type} (A : Float64Ops α) (cfg : Config) :
    Store α → List String → List (Request α) → Prop
  | _, _, [] => True
  | s, claimed, req :: rest =>
    completesClaimed claimed req ∧
    disciplined A cfg (step A cfg s req).1 (claimed ++ (step A cfg s req).2.toList) rest

/-- Invariant of the runs with fresh IDs in which only handed-out tasks are
completed: `RunInv`, `ExprInv`, and a completed task is marked claimed. -/
structure DiscInv {α : Type} (s : Store α) (issued claimed : List String) : Prop where
  run : RunInv s issued claimed
  expr : ExprInv s issued
  done : ∀ k t, mapGet s.tasks k = some t → t.Completed = true → t.IsProcessing = true

/-- The tasks `T` of a pending expression `eid` in the store: each is in the
map at its ID with its dependency list, no other task names the expression,
one of them is incomplete, and the dependencies of a claimed one are in the map
and completed. -/
structure Track {α : Type} (eid : String) (T : List (Task α)) (s : Store α) : Prop where
  present : ∀ task ∈ T, ∃ st, mapGet s.tasks task.ID = some st ∧ st.ExpressionID = eid ∧
    st.Dependencies = task.Dependencies
  only : ∀ k st, mapGet s.tasks k = some st → st.ExpressionID = eid → k ∈ T.map Task.ID
  open_ : ∃ k st, mapGet s.tasks k = some st ∧ st.ExpressionID = eid ∧ st.Completed = false
  claimedDeps : ∀ k st, mapGet s.tasks k = some st → st.ExpressionID = eid →
    st.IsProcessing = true →
    ∀ d ∈ st.Dependencies, ∃ dt, mapGet s.tasks d = some dt ∧ dt.Completed = true

/-- The expression `eid` is in the store, and `Track` holds while it is
pending. -/
def PhaseInv {α : Type} (eid : String) (T : List (Task α)) (s : Store α) : Prop :=
  ∃ x, mapGet s.expressions eid = some x ∧ (x.Status = "pending" → Track eid T s)

/-- The dependencies of the tasks of `T` are IDs of tasks of `T`. -/
def depsClosed {α : Type} (T : List (Task α)) : Prop :=
  ∀ task ∈ T, ∀ d ∈ task.Dependencies, d ∈ T.map Task.ID

/-- The requests between the submission of `2 + 3 * 4` and the completion of
its root task `t4`: claim of the product `t3`, its completion, claim of the
sum. -/
def rootRunMiddle : List (Request ℚ) :=
  [.claim ["t4", "t3"], .complete "t3" 12, .claim ["t3", "t4"]]

/-- A store with one task for each of two expressions `e1` and `e2`. -/
def mixedStore : Store ℚ :=
  { expressions := [("e1", ⟨"e1", "2 + 3", "pending", 0⟩), ("e2", ⟨"e2", "4 * 5", "pending", 0⟩)]
    tasks := [("a1", ⟨"a1", "e1", 2, 3, "+", 1000, [], 0, false, true⟩),
      ("b1", ⟨"b1", "e2", 4, 5, "*", 2000, [], 0, false, false⟩)] }

/-! ## Critical sections -/

/-- What runs between one `mutex.Lock()` and the matching `mutex.Unlock()`:
the assignment `expressions[id] = expr` of `handleCalculate`, one assignment
`tasks[task.ID] = task` of its loop, the claim operation, or the complete
operation. -/
inductive CriticalSection (α : Type) where
  | insertExpression (expr : Expression α)
  | insertTask (task : Task α)
  | claim (order : List String)
  | complete (id : String) (result : α)
  deriving DecidableEq

/-- The store after one critical section. -/
def runSection {α : Type} (A : Float64Ops α) (s : Store α) : CriticalSection α → Store α
  | .insertExpression expr => insertExpression expr s
  | .insertTask task => insertTask task s
  | .claim order => (handleTaskGet A order s).1
  | .complete id result => (handleTaskPost id result s).1

/-- The store after a sequence of critical sections, in the order in which the
lock was acquired. -/
def runSections {α : Type} (A : Float64Ops α) : Store α → List (CriticalSection α) → Store α
  | s, [] => s
  | s, c :: rest => runSections A (runSection A s c) rest

/-- The critical sections of one accepted call of `handleCalculate`, in program
order: the insertion of the expression record, then one insertion per task
returned by `parseExpression` (none when it panics). -/
def submitSections {α : Type} (A : Float64Ops α) (cfg : Config) (id : String)
    (gen : Nat → String) (expression : String) : List (CriticalSection α) :=
  if TrimSpace expression = "" then []
  else
    .insertExpression ⟨id, TrimSpace expression, "pending", A.zero⟩ ::
      (match parseExpression A cfg gen (TrimSpace expression) id with
       | none => []
       | some tasksForExpr => tasksForExpr.map CriticalSection.insertTask)

/-- A schedule in which a worker's poll and report run between the two task
insertions of the submission of `2 + 3 * 4`: the expression record and the
product `t3` are inserted, `t3` is claimed and completed with 12, then the sum
`t4` is inserted. -/
def interleavedSubmission : List (CriticalSection ℚ) :=
  [.insertExpression ⟨"e", "2 + 3 * 4", "pending", 0⟩,
    .insertTask ⟨"t3", "e", 3, 4, "*", 2000, [], 0, false, false⟩,
    .claim ["t3"], .complete "t3" 12,
    .insertTask ⟨"t4", "e", 2, 0, "+", 1000, ["t3"], 0, false, false⟩]

/-! ## End-to-end evaluation -/

/-- C1, evaluated at `(2 + 3) - 0`: the expression is well formed and its value
is 5, but after submission and a full worker run (scanning the task map in
either direction) the expression record is completed with result -5. -/
theorem submitAndRun_paren_minus_zero :
    tokenize "(2 + 3) - 0" = exParenMinusZero.tokens ∧
    exParenMinusZero.wellFormed = true ∧
    exParenMinusZero.eval ratOps = 5 ∧
    (submitAndRun ratOps defaultConfig "e" genT id 10 "(2 + 3) - 0").expressions
      = [("e", ⟨"e", "(2 + 3) - 0", "completed", -5⟩)] ∧
    (submitAndRun ratOps defaultConfig "e" genT List.reverse 10 "(2 + 3) - 0").expressions
      = [("e", ⟨"e", "(2 + 3) - 0", "completed", -5⟩)] := by
  decide!

/-! ## Tokenizer -/

theorem isSpecialToken_singleton {c : Char} (h : isSpecialChar c = true) :
    isSpecialToken (String.singleton c) = true := by
  simp only [isSpecialChar, Bool.or_eq_true, beq_iff_eq] at h
  rcases h with ((((h | h) | h) | h) | h) | h <;> subst h <;> decide

theorem isLiteralToken_of_special {t : String} (h : isSpecialToken t = true) :
    isLiteralToken t = false := by
  simp only [isSpecialToken, Bool.or_eq_true, decide_eq_true_eq] at h
  rcases h with ((((h | h) | h) | h) | h) | h <;> subst h <;> decide

theorem noAdjacentLiterals_append {l : List String} {x : String}
    (h : noAdjacentLiterals l = true)
    (hx : ∀ t ∈ l.getLast?, isLiteralToken t = false ∨ isLiteralToken x = false) :
    noAdjacentLiterals (l ++ [x]) = true := by
  induction l with
  | nil => rfl
  | cons a l ih =>
    cases l with
    | nil =>
      have := hx a (by simp)
      simp only [List.nil_append, List.cons_append, noAdjacentLiterals, Bool.and_true,
        Bool.not_eq_true', Bool.and_eq_false_imp]
      rcases this with h1 | h1 <;> simp [h1]
    | cons b l =>
      simp only [noAdjacentLiterals, Bool.and_eq_true] at h
      simp only [List.cons_append, noAdjacentLiterals, Bool.and_eq_true]
      refine ⟨h.1, ?_⟩
      apply ih h.2
      intro t ht
      apply hx t
      simpa [List.getLast?_cons_cons] using ht

theorem tokInv_step {pre : List Char} {st : TokState} (c : Char) (h : TokInv pre st) :
    TokInv (pre ++ [c]) (tokenizeStep st c) := by
  unfold tokenizeStep
  by_cases hsp : c = ' '
  · simp only [hsp, if_true]
    exact ⟨h.toks, h.cur, h.last, h.chain, by simpa using h.concat⟩
  · simp only [hsp, if_false]
    by_cases hc : isSpecialChar c = true
    · simp only [hc, if_true]
      by_cases hcur : st.currentToken = ""
      · simp only [hcur, ne_eq, not_true_eq_false, if_false]
        refine ⟨?_, by simp, by simp [isSpecialToken_singleton hc], ?_, ?_⟩
        · intro t ht
          rcases List.mem_append.1 ht with ht | ht
          · exact h.toks t ht
          · left; simp only [List.mem_singleton] at ht; subst ht
            exact isSpecialToken_singleton hc
        · apply noAdjacentLiterals_append h.chain
          intro t _
          right; exact isLiteralToken_of_special (isSpecialToken_singleton hc)
        · have := h.concat
          simp only [hcur, List.append_nil] at this
          simp [this, String.singleton, hsp]
      · simp only [ne_eq, hcur, not_false_eq_true, if_true]
        have hlit : isLiteralToken st.currentToken = true := by
          have hne : st.currentToken.data ≠ [] := by
            intro h0; apply hcur; exact String.ext h0
          simp only [isLiteralToken, hne, ne_eq, not_false_eq_true, decide_True, Bool.true_and,
            List.all_eq_true, Bool.and_eq_true, Bool.not_eq_true', decide_eq_true_eq]
          exact h.cur
        refine ⟨?_, by simp, by simp [isSpecialToken_singleton hc], ?_, ?_⟩
        · intro t ht
          simp only [List.mem_append, List.mem_singleton] at ht
          rcases ht with (ht | ht) | ht
          · exact h.toks t ht
          · right; subst ht; exact hlit
          · left; subst ht; exact isSpecialToken_singleton hc
        · apply noAdjacentLiterals_append
          · apply noAdjacentLiterals_append h.chain
            intro t ht
            left; exact isLiteralToken_of_special (h.last t ht)
          · intro t _
            right; exact isLiteralToken_of_special (isSpecialToken_singleton hc)
        · have := h.concat
          simp only [ne_eq, decide_not] at this
          simp [← this, String.singleton, hsp]
    · simp only [hc, if_false]
      refine ⟨h.toks, ?_, h.last, h.chain, ?_⟩
      · intro d hd
        have hd1 : d ∈ st.currentToken.data ++ [c] := hd
        simp only [List.mem_append, List.mem_singleton] at hd1
        rcases hd1 with hd | hd
        · exact h.cur d hd
        · subst hd; exact ⟨by simpa using hc, hsp⟩
      · have := h.concat
        simp only [ne_eq, decide_not] at this
        simp [← this, hsp]

theorem tokInv_foldl (cs : List Char) : ∀ (pre : List Char) (st : TokState),
    TokInv pre st → TokInv (pre ++ cs) (cs.foldl tokenizeStep st) := by
  induction cs with
  | nil => intro pre st h; simpa using h
  | cons c cs ih =>
    intro pre st h
    have := ih (pre ++ [c]) (tokenizeStep st c) (tokInv_step c h)
    simpa using this

theorem tokInv_init : TokInv [] ⟨[], ""⟩ :=
  ⟨by simp, by simp, by simp, rfl, by simp⟩

/-- C5: every token of `tokenize s` is one of the six single-character tokens
or a non-empty string without operator, parenthesis or space character; no two
adjacent tokens are both literals; the concatenation of the tokens is `s` with
its spaces removed; and `tokenize "2 + 3 * 4" = ["2","+","3","*","4"]`. -/
theorem tokenize_spec (s : String) :
    (∀ t ∈ tokenize s, isSpecialToken t = true ∨ isLiteralToken t = true) ∧
    noAdjacentLiterals (tokenize s) = true ∧
    String.join (tokenize s) = ⟨s.data.filter (fun c => decide (c ≠ ' '))⟩ ∧
    tokenize "2 + 3 * 4" = ["2", "+", "3", "*", "4"] := by
  have h := tokInv_foldl s.data [] ⟨[], ""⟩ tokInv_init
  simp only [List.nil_append] at h
  refine ⟨?_, ?_, ?_, by decide⟩
  all_goals unfold tokenize
  all_goals simp only []
  all_goals by_cases hcur : (s.data.foldl tokenizeStep ⟨[], ""⟩).currentToken = ""
  all_goals simp only [hcur, ne_eq, not_true_eq_false, not_false_eq_true, if_true, if_false]
  · exact h.toks
  · have hlit : isLiteralToken (s.data.foldl tokenizeStep ⟨[], ""⟩).currentToken = true := by
      have hne : (s.data.foldl tokenizeStep ⟨[], ""⟩).currentToken.data ≠ [] := by
        intro h0; apply hcur; exact String.ext h0
      simp only [isLiteralToken, hne, ne_eq, not_false_eq_true, decide_True, Bool.true_and,
        List.all_eq_true, Bool.and_eq_true, Bool.not_eq_true', decide_eq_true_eq]
      exact h.cur
    intro t ht
    simp only [List.mem_append, List.mem_singleton] at ht
    rcases ht with ht | ht
    · exact h.toks t ht
    · right; subst ht; exact hlit
  · exact h.chain
  · apply noAdjacentLiterals_append h.chain
    intro t ht
    left; exact isLiteralToken_of_special (h.last t ht)
  · apply String.ext
    have := h.concat
    simp only [hcur] at this
    simpa using this
  · apply String.ext
    have := h.concat
    simpa using this

theorem foldl_tokenizeStep_literal (cs : List Char)
    (h : ∀ c ∈ cs, isSpecialChar c = false ∧ c ≠ ' ') : ∀ (toks : List String) (cur : String),
    cs.foldl tokenizeStep ⟨toks, cur⟩ = ⟨toks, ⟨cur.data ++ cs⟩⟩ := by
  induction cs with
  | nil => intro toks cur; simp
  | cons c cs ih =>
    intro toks cur
    have hc := h c (by simp)
    have hstep : tokenizeStep ⟨toks, cur⟩ c = ⟨toks, cur.push c⟩ := by
      simp [tokenizeStep, hc.1, hc.2]
    rw [List.foldl_cons, hstep, ih (fun d hd => h d (by simp [hd]))]
    simp

theorem isLiteralToken_chars {t : String} (h : isLiteralToken t = true) :
    t.data ≠ [] ∧ ∀ c ∈ t.data, isSpecialChar c = false ∧ c ≠ ' ' := by
  simpa [isLiteralToken] using h

/-- C6, refuted at `a = "2"`, `b = "3"`: both are literal tokens, and
`tokenize "2 3"` is the single token `"23"`, not `["2", "3"]`. -/
theorem tokenize_space_not_separator :
    isLiteralToken "2" = true ∧ isLiteralToken "3" = true ∧
    tokenize ("2" ++ " " ++ "3") = ["23"] ∧ tokenize ("2" ++ " " ++ "3") ≠ ["2", "3"] := by
  decide

/-- C6, amended: for literal tokens `a` and `b` (non-empty, without space,
operator or parenthesis character) the space between them is discarded without
separating them: `tokenize (a ++ " " ++ b) = [a ++ b]`. -/
theorem tokenize_space_joins (a b : String) (ha : isLiteralToken a = true)
    (hb : isLiteralToken b = true) : tokenize (a ++ " " ++ b) = [a ++ b] := by
  obtain ⟨ha0, ha1⟩ := isLiteralToken_chars ha
  obtain ⟨_, hb1⟩ := isLiteralToken_chars hb
  have hdata : (a ++ " " ++ b).data = a.data ++ ' ' :: b.data := by
    simp [String.data_append]
  have hfold : (a ++ " " ++ b).data.foldl tokenizeStep ⟨[], ""⟩ = ⟨[], a ++ b⟩ := by
    rw [hdata, List.foldl_append, foldl_tokenizeStep_literal a.data ha1, List.foldl_cons]
    have hsp : tokenizeStep ⟨[], ⟨"".data ++ a.data⟩⟩ ' ' = ⟨[], ⟨"".data ++ a.data⟩⟩ := by
      simp [tokenizeStep]
    rw [hsp, foldl_tokenizeStep_literal b.data hb1]
    simp only [TokState.mk.injEq, true_and]
    apply String.ext
    simp [String.data_append]
  have hne : a ++ b ≠ "" := by
    intro h0
    have : (a ++ b).data = [] := by rw [h0]
    simp only [String.data_append, List.append_eq_nil] at this
    exact ha0 this.1
  unfold tokenize
  simp only [hfold, ne_eq, hne, not_false_eq_true, if_true, List.nil_append]

theorem tokenize_space_joins_witness :
    isLiteralToken "12" = true ∧ isLiteralToken "5" = true ∧
    tokenize ("12" ++ " " ++ "5") = ["12" ++ "5"] :=
  ⟨by decide, by decide, tokenize_space_joins "12" "5" (by decide) (by decide)⟩

/-! ## Postfix converter -/

theorem isOperator_cases {op : String} (h : isOperator op = true) :
    op = "+" ∨ op = "-" ∨ op = "*" ∨ op = "/" := by
  simpa [isOperator, or_assoc] using h

theorem precedence_pos {op : String} (h : isOperator op = true) : 1 ≤ precedence op := by
  rcases isOperator_cases h with h | h | h | h <;> subst h <;> decide

theorem isOperator_of_precedence {x : String} (h : 1 ≤ precedence x) : isOperator x = true := by
  unfold precedence at h
  unfold isOperator
  by_cases h1 : x = "+"
  · simp [h1]
  · by_cases h2 : x = "-"
    · simp [h2]
    · by_cases h3 : x = "*"
      · simp [h3]
      · by_cases h4 : x = "/"
        · simp [h4]
        · simp [h1, h2, h3, h4] at h

theorem isOperator_ne_paren {op : String} (h : isOperator op = true) : op ≠ "(" ∧ op ≠ ")" := by
  rcases isOperator_cases h with h | h | h | h <;> subst h <;> decide

theorem isLiteralToken_not_special {tok : String} (h : isLiteralToken tok = true) :
    isOperator tok = false ∧ tok ≠ "(" ∧ tok ≠ ")" := by
  refine ⟨?_, ?_, ?_⟩
  · cases hop : isOperator tok with
    | false => rfl
    | true =>
      rcases isOperator_cases hop with h1 | h1 | h1 | h1 <;> subst h1 <;> revert h <;> decide
  · intro h1; subst h1; revert h; decide
  · intro h1; subst h1; revert h; decide

theorem popWhileGE_append (token : String) (ops st : List String)
    (hops : ∀ o ∈ ops, precedence token ≤ precedence o)
    (hst : ∀ x ∈ st.head?, precedence x < precedence token) :
    ∀ out : List String, popWhileGE token out (ops ++ st) = ⟨out ++ ops, st⟩ := by
  induction ops with
  | nil =>
    intro out
    cases st with
    | nil => simp [popWhileGE]
    | cons x st =>
      have := hst x (by simp)
      simp [popWhileGE, Nat.not_le.2 this]
  | cons o ops ih =>
    intro out
    have ho := hops o (by simp)
    have h1 := ih (fun p hp => hops p (by simp [hp])) (out ++ [o])
    simp only [List.cons_append, popWhileGE, ge_iff_le, ho, if_true]
    exact h1.trans (by simp)

theorem popUntilParen_append (ops st : List String) (hops : ∀ o ∈ ops, o ≠ "(") :
    ∀ out : List String, popUntilParen out (ops ++ "(" :: st) = ⟨out ++ ops, "(" :: st⟩ := by
  induction ops with
  | nil => intro out; simp [popUntilParen]
  | cons o ops ih =>
    intro out
    have ho := hops o (by simp)
    have h1 := ih (fun p hp => hops p (by simp [hp])) (out ++ [o])
    simp only [List.cons_append, popUntilParen, ne_eq, ho, not_false_eq_true, if_true]
    exact h1.trans (by simp)

/-- The map `precedence` of `infixToPostfix` is the standard rank table: the
code ranks every token as the reference parse does. -/
theorem precedence_eq_standardRank (tok : String) : precedence tok = standardRank tok := by
  unfold precedence standardRank
  by_cases h1 : tok = "+"
  · subst h1; decide
  by_cases h2 : tok = "-"
  · subst h2; decide
  by_cases h3 : tok = "*"
  · subst h3; decide
  by_cases h4 : tok = "/"
  · subst h4; decide
  simp [h1, h2, h3, h4]

theorem standardRank_pos {tok : String} (h : isOperator tok = true) : 1 ≤ standardRank tok := by
  simp only [isOperator, Bool.or_eq_true, decide_eq_true_eq] at h
  rcases h with ((h | h) | h) | h <;> subst h <;> decide

theorem standardRank_le_two (tok : String) : standardRank tok ≤ 2 := by
  unfold standardRank
  split
  · exact Nat.le_refl 2
  · split <;> decide

theorem Tree.level_pos {t : Tree} (h : t.wellFormed = true) : 1 ≤ t.level := by
  cases t with
  | lit tok => simp [Tree.level]
  | paren t => simp [Tree.level]
  | bin op l r =>
    simp only [Tree.wellFormed, Bool.and_eq_true] at h
    exact standardRank_pos h.1.1.1.1

/-- Shunting-yard on the tokens of a well-formed tree, started with a stack
whose top binds weaker than the tree: the tokens are consumed, the pending
operators `ops` all bind at least as tight as the tree, and the output followed
by `ops` is the old output followed by the post-order of the tree. -/
theorem postfixLoop_tree (t : Tree) (hwf : t.wellFormed = true) :
    ∀ (st out rest : List String), (∀ x ∈ st.head?, precedence x < t.level) →
    ∃ ops out1, (∀ o ∈ ops, t.level ≤ precedence o) ∧
      postfixLoop (t.tokens ++ rest) ⟨out, st⟩ = postfixLoop rest ⟨out1, ops ++ st⟩ ∧
      out1 ++ ops = out ++ t.postorder := by
  induction t with
  | lit tok =>
    intro st out rest _
    obtain ⟨h1, h2, h3⟩ := isLiteralToken_not_special hwf
    refine ⟨[], out ++ [tok], by simp, ?_, by simp [Tree.postorder]⟩
    simp [Tree.tokens, postfixLoop, postfixStep, h1, h2, h3]
  | paren t ih =>
    intro st out rest _
    have hwf1 : t.wellFormed = true := hwf
    obtain ⟨ops, out1, hops, hrun, hout⟩ := ih hwf1 ("(" :: st) out (")" :: rest)
      (by
        intro x hx
        simp only [List.head?_cons, Option.mem_def, Option.some.injEq] at hx
        subst hx
        exact Nat.lt_of_lt_of_le (by decide) (Tree.level_pos hwf1))
    refine ⟨[], out1 ++ ops, by simp, ?_, by simp [Tree.postorder, hout]⟩
    have hne : ∀ o ∈ ops, o ≠ "(" := fun o ho =>
      (isOperator_ne_paren (isOperator_of_precedence
        (Nat.le_trans (Tree.level_pos hwf1) (hops o ho)))).1
    have hstep1 : postfixStep ⟨out, st⟩ "(" = some ⟨out, "(" :: st⟩ := by
      simp [postfixStep, show isOperator "(" = false by decide]
    have hstep2 : postfixStep ⟨out1, ops ++ "(" :: st⟩ ")" = some ⟨out1 ++ ops, st⟩ := by
      simp [postfixStep, show isOperator ")" = false by decide,
        popUntilParen_append ops st hne out1]
    have htoks : (Tree.paren t).tokens ++ rest = "(" :: (t.tokens ++ ")" :: rest) := by
      simp [Tree.tokens]
    rw [htoks, postfixLoop, hstep1]
    simp only []
    rw [hrun, postfixLoop, hstep2]
    simp
  | bin op l r ihl ihr =>
    intro st out rest hst
    simp only [Tree.wellFormed, Bool.and_eq_true, decide_eq_true_eq] at hwf
    obtain ⟨⟨⟨⟨hop, hwl⟩, hwr⟩, hll⟩, hrl⟩ := hwf
    rw [← precedence_eq_standardRank] at hll hrl
    simp only [Tree.level, ← precedence_eq_standardRank] at hst
    obtain ⟨opsL, outL, hopsL, hrunL, houtL⟩ := ihl hwl st out (op :: (r.tokens ++ rest))
      (fun x hx => Nat.lt_of_lt_of_le (hst x hx) hll)
    have hstep : postfixStep ⟨outL, opsL ++ st⟩ op = some ⟨outL ++ opsL, op :: st⟩ := by
      simp [postfixStep, hop, popWhileGE_append op opsL st
        (fun o ho => Nat.le_trans hll (hopsL o ho)) hst outL]
    obtain ⟨opsR, outR, hopsR, hrunR, houtR⟩ := ihr hwr (op :: st) (outL ++ opsL) rest
      (by
        intro x hx
        simp only [List.head?_cons, Option.mem_def, Option.some.injEq] at hx
        subst hx
        exact hrl)
    refine ⟨opsR ++ [op], outR, ?_, ?_, ?_⟩
    · intro o ho
      simp only [List.mem_append, List.mem_singleton] at ho
      simp only [Tree.level, ← precedence_eq_standardRank]
      rcases ho with ho | ho
      · exact Nat.le_of_lt (Nat.lt_of_lt_of_le hrl (hopsR o ho))
      · subst ho; exact Nat.le_refl _
    · have htoks : (Tree.bin op l r).tokens ++ rest = l.tokens ++ op :: (r.tokens ++ rest) := by
        simp [Tree.tokens]
      rw [htoks, hrunL, postfixLoop, hstep]
      simp only []
      rw [hrunR]
      simp
    · simp only [Tree.postorder]
      rw [← List.append_assoc, houtR, houtL]
      simp

/-- On the tokens of a well-formed tree `infixToPostfix` returns the post-order
of the tree. -/
theorem infixToPostfix_tree (expr : String) (t : Tree) (hwf : t.wellFormed = true)
    (htok : tokenize expr = t.tokens) : infixToPostfix expr = some t.postorder := by
  obtain ⟨ops, out1, _, hrun, hout⟩ := postfixLoop_tree t hwf [] [] [] (by simp)
  unfold infixToPostfix
  rw [htok]
  simp only [List.append_nil, List.nil_append] at hrun hout
  rw [hrun, postfixLoop]
  simp [hout]

/-! ## Every expression of the grammar has a well-formed parse -/

theorem precedence_le_two (op : String) : precedence op ≤ 2 := by
  unfold precedence
  split_ifs <;> omega

theorem Tree.attach_tokens (op : String) (r l : Tree) :
    (Tree.attach op r l).tokens = l.tokens ++ op :: r.tokens := by
  induction l with
  | lit tok => rfl
  | paren t _ => rfl
  | bin op1 l1 l2 _ ih2 =>
    unfold Tree.attach
    split
    · simp [Tree.tokens, ih2]
    · simp [Tree.tokens]

theorem Tree.attach_level (op : String) (r l : Tree) :
    standardRank op ≤ (Tree.attach op r l).level ∨ l.level ≤ (Tree.attach op r l).level := by
  cases l with
  | lit tok => left; simp [Tree.attach, Tree.level]
  | paren t => left; simp [Tree.attach, Tree.level]
  | bin op1 l1 l2 =>
    unfold Tree.attach
    split
    · right; simp [Tree.level]
    · left; simp [Tree.level]

theorem Tree.attach_wellFormed (op : String) (r : Tree) (hop : isOperator op = true)
    (hr : r.wellFormed = true) (hlevel : standardRank op < r.level) :
    ∀ l : Tree, l.wellFormed = true → (Tree.attach op r l).wellFormed = true := by
  intro l
  induction l with
  | lit tok =>
    intro hl
    have h2 := standardRank_le_two op
    simp only [Tree.attach, Tree.wellFormed, Tree.level, Bool.and_eq_true, decide_eq_true_eq]
    exact ⟨⟨⟨⟨hop, hl⟩, hr⟩, by omega⟩, hlevel⟩
  | paren t _ =>
    intro hl
    have h2 := standardRank_le_two op
    simp only [Tree.attach, Tree.wellFormed, Tree.level, Bool.and_eq_true, decide_eq_true_eq]
    exact ⟨⟨⟨⟨hop, hl⟩, hr⟩, by omega⟩, hlevel⟩
  | bin op1 l1 l2 _ ih2 =>
    intro hl
    have hl0 := hl
    simp only [Tree.wellFormed, Bool.and_eq_true, decide_eq_true_eq] at hl
    obtain ⟨⟨⟨⟨hop1, hw1⟩, hw2⟩, hlev1⟩, hlev2⟩ := hl
    unfold Tree.attach
    split
    · rename_i hlt
      simp only [Tree.wellFormed, Bool.and_eq_true, decide_eq_true_eq]
      refine ⟨⟨⟨⟨hop1, hw1⟩, ih2 hw2⟩, hlev1⟩, ?_⟩
      rcases Tree.attach_level op r l2 with h | h <;> omega
    · rename_i hge
      simp only [Tree.wellFormed, Tree.level, Bool.and_eq_true, decide_eq_true_eq]
      simp only [Tree.wellFormed, Bool.and_eq_true, decide_eq_true_eq] at hl0
      exact ⟨⟨⟨⟨hop, hl0⟩, hr⟩, by omega⟩, hlevel⟩

theorem Tree.join_tokens (op : String) (l r : Tree) :
    (Tree.join op l r).tokens = l.tokens ++ op :: r.tokens := by
  induction r with
  | lit tok => simp [Tree.join, Tree.attach_tokens]
  | paren t _ => simp [Tree.join, Tree.attach_tokens]
  | bin op1 r1 r2 ih1 _ =>
    unfold Tree.join
    split
    · simp [Tree.attach_tokens, ih1, Tree.tokens]
    · simp [Tree.attach_tokens]

theorem Tree.join_wellFormed (op : String) (l : Tree) (hop : isOperator op = true)
    (hl : l.wellFormed = true) :
    ∀ r : Tree, r.wellFormed = true → (Tree.join op l r).wellFormed = true := by
  intro r
  induction r with
  | lit tok =>
    intro hr
    have h2 := standardRank_le_two op
    exact Tree.attach_wellFormed op _ hop hr (by simp only [Tree.level]; omega) l hl
  | paren t _ =>
    intro hr
    have h2 := standardRank_le_two op
    exact Tree.attach_wellFormed op _ hop hr (by simp only [Tree.level]; omega) l hl
  | bin op1 r1 r2 ih1 _ =>
    intro hr
    have hr0 := hr
    simp only [Tree.wellFormed, Bool.and_eq_true, decide_eq_true_eq] at hr
    obtain ⟨⟨⟨⟨hop1, hw1⟩, hw2⟩, _⟩, hlev2⟩ := hr
    unfold Tree.join
    split
    · exact Tree.attach_wellFormed op1 r2 hop1 hw2 hlev2 _ (ih1 hw1)
    · rename_i hgt
      exact Tree.attach_wellFormed op _ hop hr0 (by simp only [Tree.level]; omega) l hl

/-- Every tree of the grammar `E ::= literal | E op E | ( E )` has the same
tokens as a well-formed tree: well-formed trees cover all expressions. -/
theorem Tree.normalize_spec (t : Tree) (h : t.valid = true) :
    t.normalize.wellFormed = true ∧ t.normalize.tokens = t.tokens := by
  induction t with
  | lit tok => exact ⟨h, rfl⟩
  | paren t ih =>
    obtain ⟨h1, h2⟩ := ih h
    exact ⟨h1, by simp [Tree.normalize, Tree.tokens, h2]⟩
  | bin op l r ihl ihr =>
    simp only [Tree.valid, Bool.and_eq_true] at h
    obtain ⟨⟨hop, hl⟩, hr⟩ := h
    obtain ⟨hl1, hl2⟩ := ihl hl
    obtain ⟨hr1, hr2⟩ := ihr hr
    exact ⟨Tree.join_wellFormed op _ hop hl1 _ hr1,
      by simp [Tree.normalize, Tree.join_tokens, Tree.tokens, hl2, hr2]⟩

theorem evalPostfix_tree {α : Type} (A : Float64Ops α) (t : Tree) (hwf : t.wellFormed = true) :
    ∀ (rest : List String) (stack : List α),
    evalPostfix A (t.postorder ++ rest) stack = evalPostfix A rest (t.eval A :: stack) := by
  induction t with
  | lit tok =>
    intro rest stack
    obtain ⟨h1, _, _⟩ := isLiteralToken_not_special hwf
    simp [Tree.postorder, evalPostfix, h1, Tree.eval]
  | paren t ih =>
    intro rest stack
    exact ih hwf rest stack
  | bin op l r ihl ihr =>
    intro rest stack
    simp only [Tree.wellFormed, Bool.and_eq_true, decide_eq_true_eq] at hwf
    obtain ⟨⟨⟨⟨hop, hwl⟩, hwr⟩, _⟩, _⟩ := hwf
    have htoks : (Tree.bin op l r).postorder ++ rest
        = l.postorder ++ (r.postorder ++ op :: rest) := by
      simp [Tree.postorder]
    rw [htoks, ihl hwl, ihr hwr, evalPostfix]
    simp [hop, Tree.eval]

/-- C3: when the tokens of `expr` are those of a well-formed parse tree `t`
(`*` and `/` bind tighter than `+` and `-`, equal precedence groups to the
left; the ranks are those of `standardRank`, not those of the map of
`infixToPostfix`), `infixToPostfix` returns a sequence on which the naive stack evaluator
yields the value of `t`. -/
theorem infixToPostfix_evalPostfix {α : Type} (A : Float64Ops α) (expr : String) (t : Tree)
    (hwf : t.wellFormed = true) (htok : tokenize expr = t.tokens) :
    ∃ toks, infixToPostfix expr = some toks ∧ evalPostfix A toks [] = some (t.eval A) := by
  refine ⟨t.postorder, infixToPostfix_tree expr t hwf htok, ?_⟩
  have := evalPostfix_tree A t hwf [] []
  simp only [List.append_nil] at this
  rw [this]
  simp [evalPostfix]

theorem infixToPostfix_evalPostfix_witness :
    exAddMul.wellFormed = true ∧ tokenize "2 + 3 * 4" = exAddMul.tokens ∧
    exAddMul.eval ratOps = 14 ∧
    (Tree.bin "-" (.bin "-" (.lit "8") (.lit "3")) (.lit "2")).wellFormed = true ∧
    (Tree.bin "-" (.lit "8") (.bin "-" (.lit "3") (.lit "2"))).wellFormed = false ∧
    (Tree.bin "+" (.lit "2") (.bin "/" (.lit "6") (.lit "3"))).wellFormed = true ∧
    (Tree.bin "/" (.bin "+" (.lit "2") (.lit "6")) (.lit "3")).wellFormed = false ∧
    ∃ toks, infixToPostfix "2 + 3 * 4" = some toks ∧
      evalPostfix ratOps toks [] = some (exAddMul.eval ratOps) :=
  ⟨by decide, by decide, by decide!, by decide, by decide, by decide, by decide,
    infixToPostfix_evalPostfix ratOps "2 + 3 * 4" exAddMul (by decide) (by decide)⟩

/-! ## Task graph builder -/

theorem Tree.handle_Completed {α : Type} (A : Float64Ops α) (cfg : Config) (gen : Nat → String)
    (eid : String) (t : Tree) : ∀ n, (t.handle A cfg gen eid n).Completed = t.isLiteral := by
  induction t with
  | lit tok => intro n; rfl
  | bin op l r _ _ => intro n; rfl
  | paren t ih => intro n; exact ih n

theorem Tree.handle_ID {α : Type} (A : Float64Ops α) (cfg : Config) (gen : Nat → String)
    (eid : String) (t : Tree) : ∀ n, (t.handle A cfg gen eid n).ID = t.rootID gen n := by
  induction t with
  | lit tok => intro n; rfl
  | bin op l r _ _ => intro n; rfl
  | paren t ih => intro n; exact ih n

theorem Tree.handle_Result {α : Type} (A : Float64Ops α) (cfg : Config) (gen : Nat → String)
    (eid : String) (t : Tree) : ∀ n, (t.handle A cfg gen eid n).Result = t.seed A := by
  induction t with
  | lit tok => intro n; rfl
  | bin op l r _ _ => intro n; rfl
  | paren t ih => intro n; exact ih n

/-- The loop of `parseExpression` on the post-order of a well-formed tree
pushes the handle of the tree, appends the tasks of its operator nodes and
draws one identifier per node. -/
theorem parseLoop_tree {α : Type} (A : Float64Ops α) (cfg : Config) (gen : Nat → String)
    (eid : String) (t : Tree) (hwf : t.wellFormed = true) :
    ∀ (rest : List String) (stack tasks : List (Task α)) (n : Nat),
    parseLoop A cfg gen eid (t.postorder ++ rest) ⟨stack, tasks, n⟩
      = parseLoop A cfg gen eid rest
          ⟨t.handle A cfg gen eid n :: stack, tasks ++ t.nodeTasks A cfg gen eid n, n + t.size⟩ := by
  induction t with
  | lit tok =>
    intro rest stack tasks n
    obtain ⟨h1, _, _⟩ := isLiteralToken_not_special hwf
    simp [Tree.postorder, parseLoop, parseStep, h1, Tree.handle, Tree.nodeTasks, Tree.size]
  | paren t ih =>
    intro rest stack tasks n
    exact ih hwf rest stack tasks n
  | bin op l r ihl ihr =>
    intro rest stack tasks n
    simp only [Tree.wellFormed, Bool.and_eq_true, decide_eq_true_eq] at hwf
    obtain ⟨⟨⟨⟨hop, hwl⟩, hwr⟩, _⟩, _⟩ := hwf
    have htoks : (Tree.bin op l r).postorder ++ rest
        = l.postorder ++ (r.postorder ++ op :: rest) := by
      simp [Tree.postorder]
    rw [htoks, ihl hwl, ihr hwr, parseLoop]
    have hstep : parseStep A cfg gen eid
        ⟨r.handle A cfg gen eid (n + l.size) :: l.handle A cfg gen eid n :: stack,
          tasks ++ l.nodeTasks A cfg gen eid n ++ r.nodeTasks A cfg gen eid (n + l.size),
          n + l.size + r.size⟩ op
        = some ⟨(Tree.bin op l r).handle A cfg gen eid n :: stack,
          tasks ++ (Tree.bin op l r).nodeTasks A cfg gen eid n, n + (Tree.bin op l r).size⟩ := by
      simp only [parseStep, hop, if_true, Tree.handle_Completed, Tree.handle_ID,
        Tree.handle_Result, Tree.handle, Tree.nodeTasks, Tree.childDeps, Tree.size]
      simp only [Nat.add_assoc, List.append_assoc]
      cases l.isLiteral <;> cases r.isLiteral <;> simp
    rw [hstep]

/-- C2: when the tokens of `expr` are those of a well-formed parse tree `t`
(grouped by standard precedence and left associativity, with the ranks of
`standardRank`, not those of the map of `infixToPostfix`),
`parseExpression` returns exactly the tasks of the operator nodes of `t` in
post-order: the operation of each is its operator, its dependencies are the IDs
of the tasks of its non-literal operands, left first (`Tree.nodeTasks`). There
is one task per operator node, every task is an uncompleted operator task with
at most two dependencies, and when `t` has an operator the last task is the one
of the root. -/
theorem parseExpression_tree {α : Type} (A : Float64Ops α) (cfg : Config) (gen : Nat → String)
    (expr eid : String) (t : Tree) (hwf : t.wellFormed = true)
    (htok : tokenize expr = t.tokens) :
    ∃ tasks : List (Task α), parseExpression A cfg gen expr eid = some tasks ∧
      tasks = t.nodeTasks A cfg gen eid 0 ∧
      tasks.length = t.opCount ∧
      (∀ task ∈ tasks, isOperator task.Operation = true ∧ task.Completed = false ∧
        task.Dependencies.length ≤ 2) ∧
      (t.isLiteral = false → (tasks.getLast?).map Task.ID = some (t.rootID gen 0)) := by
  refine ⟨t.nodeTasks A cfg gen eid 0, ?_, rfl, ?_, ?_, ?_⟩
  · have h := parseLoop_tree A cfg gen eid t hwf [] [] [] 0
    simp only [List.append_nil, List.nil_append, parseLoop] at h
    unfold parseExpression
    rw [infixToPostfix_tree expr t hwf htok]
    simp only [h]
  · clear htok
    generalize 0 = n
    induction t generalizing n with
    | lit tok => rfl
    | paren t ih => exact ih hwf n
    | bin op l r ihl ihr =>
      simp only [Tree.wellFormed, Bool.and_eq_true, decide_eq_true_eq] at hwf
      obtain ⟨⟨⟨⟨_, hwl⟩, hwr⟩, _⟩, _⟩ := hwf
      simp [Tree.nodeTasks, Tree.opCount, ihl hwl, ihr hwr, Nat.add_assoc]
  · clear htok
    generalize 0 = n
    induction t generalizing n with
    | lit tok => intro task h; simp [Tree.nodeTasks] at h
    | paren t ih => exact ih hwf n
    | bin op l r ihl ihr =>
      simp only [Tree.wellFormed, Bool.and_eq_true, decide_eq_true_eq] at hwf
      obtain ⟨⟨⟨⟨hop, hwl⟩, hwr⟩, _⟩, _⟩ := hwf
      intro task h
      simp only [Tree.nodeTasks, List.mem_append, List.mem_singleton] at h
      rcases h with (h | h) | h
      · exact ihl hwl n task h
      · exact ihr hwr _ task h
      · subst h
        refine ⟨hop, rfl, ?_⟩
        simp only [Tree.childDeps, List.length_append]
        split <;> split <;> simp
  · clear htok
    generalize 0 = n
    induction t generalizing n with
    | lit tok => intro h; simp [Tree.isLiteral] at h
    | paren t ih => intro h; exact ih hwf n h
    | bin op l r _ _ => intro _; simp [Tree.nodeTasks, Tree.rootID]

theorem parseExpression_tree_witness :
    exParenMul.wellFormed = true ∧ tokenize "(2 + 3) * 4" = exParenMul.tokens ∧
    (Tree.bin "-" (.bin "+" (.lit "2") (.lit "3")) (.lit "4")).wellFormed = true ∧
    (Tree.bin "+" (.lit "2") (.bin "-" (.lit "3") (.lit "4"))).wellFormed = false ∧
    (Tree.bin "+" (.lit "2") (.bin "/" (.lit "6") (.lit "3"))).wellFormed = true ∧
    (Tree.bin "/" (.bin "+" (.lit "2") (.lit "6")) (.lit "3")).wellFormed = false ∧
    ∃ tasks : List (Task ℚ),
      parseExpression ratOps defaultConfig genT "(2 + 3) * 4" "e" = some tasks ∧
      tasks = exParenMul.nodeTasks ratOps defaultConfig genT "e" 0 ∧
      tasks.length = exParenMul.opCount ∧
      (∀ task ∈ tasks, isOperator task.Operation = true ∧ task.Completed = false ∧
        task.Dependencies.length ≤ 2) ∧
      (exParenMul.isLiteral = false →
        (tasks.getLast?).map Task.ID = some (exParenMul.rootID genT 0)) :=
  ⟨by decide, by decide, by decide, by decide, by decide, by decide,
    parseExpression_tree ratOps defaultConfig genT "(2 + 3) * 4" "e" exParenMul
      (by decide) (by decide)⟩

theorem popWhileGE_count (token : String) (stack : List String) : ∀ out : List String,
    (popWhileGE token out stack).output.countP isOperator
      + (popWhileGE token out stack).stack.countP isOperator
      = out.countP isOperator + stack.countP isOperator := by
  induction stack with
  | nil => intro out; simp [popWhileGE]
  | cons top rest ih =>
    intro out
    unfold popWhileGE
    split
    · rw [ih]
      simp only [List.countP_append, List.countP_cons, List.countP_nil]
      omega
    · rfl

theorem popUntilParen_count (stack : List String) : ∀ out : List String,
    (popUntilParen out stack).output.countP isOperator
      + (popUntilParen out stack).stack.countP isOperator
      = out.countP isOperator + stack.countP isOperator := by
  induction stack with
  | nil => intro out; simp [popUntilParen]
  | cons top rest ih =>
    intro out
    unfold popUntilParen
    split
    · rw [ih]
      simp only [List.countP_append, List.countP_cons, List.countP_nil]
      omega
    · rfl

theorem popUntilParen_head (stack : List String) : ∀ out : List String,
    ∀ x ∈ (popUntilParen out stack).stack.head?, x = "(" := by
  induction stack with
  | nil => intro out; simp [popUntilParen]
  | cons top rest ih =>
    intro out
    unfold popUntilParen
    split
    · exact ih _
    · rename_i h
      intro x hx
      simp only [List.head?_cons, Option.mem_def, Option.some.injEq] at hx
      subst hx
      simpa using h

theorem postfixStep_count {st st1 : PfState} {token : String}
    (h : postfixStep st token = some st1) :
    st1.output.countP isOperator + st1.stack.countP isOperator
      = st.output.countP isOperator + st.stack.countP isOperator
        + [token].countP isOperator := by
  unfold postfixStep at h
  by_cases hop : isOperator token = true
  · simp only [hop, if_true, Option.some.injEq] at h
    subst h
    have := popWhileGE_count token st.stack st.output
    simp only [List.countP_cons, hop, if_true, List.countP_nil]
    omega
  · simp only [hop, Bool.false_eq_true, if_false] at h
    by_cases h1 : token = "("
    · subst h1
      simp only [if_true, Option.some.injEq] at h
      subst h
      simp only [List.countP_cons, List.countP_nil]
      omega
    · simp only [h1, if_false] at h
      by_cases h2 : token = ")"
      · subst h2
        simp only [if_true] at h
        have hc := popUntilParen_count st.stack st.output
        have hh := popUntilParen_head st.stack st.output
        cases hs : (popUntilParen st.output st.stack).stack with
        | nil => rw [hs] at h; simp at h
        | cons x rest =>
          rw [hs] at h hc hh
          simp only [Option.some.injEq] at h
          subst h
          have hx := hh x (by simp)
          subst hx
          simp only [List.countP_cons, show isOperator "(" = false by decide,
            show isOperator ")" = false by decide, Bool.false_eq_true, if_false,
            List.countP_nil] at hc ⊢
          omega
      · simp only [h2, if_false, Option.some.injEq] at h
        subst h
        simp [List.countP_cons, hop]

theorem postfixLoop_count (toks : List String) : ∀ (st : PfState) (res : List String),
    postfixLoop toks st = some res →
    res.countP isOperator
      = st.output.countP isOperator + st.stack.countP isOperator + toks.countP isOperator := by
  induction toks with
  | nil =>
    intro st res h
    simp only [postfixLoop, Option.some.injEq] at h
    subst h
    simp
  | cons tok rest ih =>
    intro st res h
    unfold postfixLoop at h
    cases hs : postfixStep st tok with
    | none => rw [hs] at h; simp at h
    | some st1 =>
      rw [hs] at h
      have h1 := ih st1 res h
      have h2 := postfixStep_count hs
      rw [h1, h2]
      simp only [List.countP_cons, List.countP_nil]
      omega

theorem parseStep_length {α : Type} (A : Float64Ops α) (cfg : Config) (gen : Nat → String)
    (eid : String) {st st1 : ParseState α} {token : String}
    (h : parseStep A cfg gen eid st token = some st1) :
    st1.tasks.length = st.tasks.length + [token].countP isOperator := by
  unfold parseStep at h
  by_cases hop : isOperator token = true
  · simp only [hop, if_true] at h
    split at h
    · simp only [Option.some.injEq] at h
      subst h
      simp [hop]
    · simp at h
  · simp only [hop, Bool.false_eq_true, if_false, Option.some.injEq] at h
    subst h
    simp [hop]

theorem parseLoop_length {α : Type} (A : Float64Ops α) (cfg : Config) (gen : Nat → String)
    (eid : String) (toks : List String) : ∀ (st st1 : ParseState α),
    parseLoop A cfg gen eid toks st = some st1 →
    st1.tasks.length = st.tasks.length + toks.countP isOperator := by
  induction toks with
  | nil =>
    intro st st1 h
    simp only [parseLoop, Option.some.injEq] at h
    subst h
    simp
  | cons tok rest ih =>
    intro st st1 h
    unfold parseLoop at h
    cases hs : parseStep A cfg gen eid st tok with
    | none => rw [hs] at h; simp at h
    | some st2 =>
      rw [hs] at h
      rw [ih st2 st1 h, parseStep_length A cfg gen eid hs]
      simp only [List.countP_cons, List.countP_nil]
      omega

/-- C4: whenever `parseExpression` returns, the number of tasks it returns is
the number of operator tokens (`+`, `-`, `*`, `/`) of `tokenize expr`. -/
theorem parseExpression_length {α : Type} (A : Float64Ops α) (cfg : Config)
    (gen : Nat → String) (expr eid : String) (tasks : List (Task α))
    (h : parseExpression A cfg gen expr eid = some tasks) :
    tasks.length = (tokenize expr).countP isOperator := by
  unfold parseExpression at h
  cases hp : infixToPostfix expr with
  | none => rw [hp] at h; simp at h
  | some toks =>
    rw [hp] at h
    simp only [] at h
    cases hl : parseLoop A cfg gen eid toks ⟨[], [], 0⟩ with
    | none => rw [hl] at h; simp at h
    | some st =>
      rw [hl] at h
      simp only [Option.some.injEq] at h
      subst h
      have h1 := parseLoop_length A cfg gen eid toks _ _ hl
      have h2 := postfixLoop_count (tokenize expr) ⟨[], []⟩ toks hp
      simp only [List.length_nil, Nat.zero_add, List.countP_nil] at h1 h2
      rw [h1, h2]

theorem parseExpression_length_witness :
    (parseExpression ratOps defaultConfig genT "2 + 3" "test-expr-id").map List.length = some 1 ∧
    (parseExpression ratOps defaultConfig genT "2 + 3 * 4" "test-expr-id").map List.length
      = some 2 ∧
    (parseExpression ratOps defaultConfig genT "(2 + 3) * 4" "test-expr-id").map List.length
      = some 2 ∧
    (exParenMul.nodeTasks ratOps defaultConfig genT "test-expr-id" 0).length
      = (tokenize "(2 + 3) * 4").countP isOperator :=
  ⟨by decide!, by decide!, by decide!,
    parseExpression_length ratOps defaultConfig genT "(2 + 3) * 4" "test-expr-id"
      (exParenMul.nodeTasks ratOps defaultConfig genT "test-expr-id" 0) (by decide!)⟩

/-! ## Maps -/

theorem mapGet_mapSet {β : Type} (m : List (String × β)) (k k1 : String) (v : β) :
    mapGet (mapSet m k v) k1 = if k = k1 then some v else mapGet m k1 := by
  induction m with
  | nil => simp [mapSet, mapGet]
  | cons e m ih =>
    obtain ⟨k2, v2⟩ := e
    unfold mapSet
    by_cases h : k2 = k
    · subst h
      by_cases h1 : k2 = k1 <;> simp [mapGet, h1]
    · simp only [h, if_false, mapGet, ih]
      by_cases h1 : k2 = k1
      · subst h1
        simp [Ne.symm h]
      · simp [h1]

theorem mapGet_mem {β : Type} {m : List (String × β)} {k : String} {v : β}
    (h : mapGet m k = some v) : (k, v) ∈ m := by
  induction m with
  | nil => simp [mapGet] at h
  | cons e m ih =>
    obtain ⟨k2, v2⟩ := e
    unfold mapGet at h
    by_cases h1 : k2 = k
    · simp only [h1, if_true, Option.some.injEq] at h
      simp [h1, h]
    · simp only [h1, if_false] at h
      exact List.mem_cons_of_mem _ (ih h)

theorem mapGet_of_mem {β : Type} {m : List (String × β)} {k : String} {v : β}
    (hnd : (mapKeys m).Nodup) (h : (k, v) ∈ m) : mapGet m k = some v := by
  induction m with
  | nil => simp at h
  | cons e m ih =>
    obtain ⟨k2, v2⟩ := e
    simp only [mapKeys, List.map_cons, List.nodup_cons, List.mem_map, not_exists, not_and] at hnd
    rcases List.mem_cons.1 h with h1 | h1
    · simp only [Prod.mk.injEq] at h1
      simp [mapGet, h1.1, h1.2]
    · have hne : k2 ≠ k := fun h2 => hnd.1 (k, v) h1 h2.symm
      simp only [mapGet, hne, if_false]
      exact ih hnd.2 h1

theorem mapKeys_mapSet {β : Type} (m : List (String × β)) (k : String) (v : β) :
    mapKeys (mapSet m k v) = if k ∈ mapKeys m then mapKeys m else mapKeys m ++ [k] := by
  induction m with
  | nil => simp [mapSet, mapKeys]
  | cons e m ih =>
    obtain ⟨k2, v2⟩ := e
    unfold mapSet
    by_cases h : k2 = k
    · subst h
      simp [mapKeys]
    · have h1 : ¬ k = k2 := fun h2 => h h2.symm
      simp only [mapKeys, List.map_cons, List.mem_cons, h1, false_or, h, if_false] at ih ⊢
      rw [ih]
      split <;> simp

theorem nodup_mapSet {β : Type} {m : List (String × β)} (k : String) (v : β)
    (h : (mapKeys m).Nodup) : (mapKeys (mapSet m k v)).Nodup := by
  rw [mapKeys_mapSet]
  split
  · exact h
  · rename_i hk
    exact List.Nodup.append h (by simp) (by simpa using hk)

theorem mapGet_isSome_iff {β : Type} (m : List (String × β)) (k : String) :
    (mapGet m k).isSome = true ↔ k ∈ mapKeys m := by
  induction m with
  | nil => simp [mapGet, mapKeys]
  | cons e m ih =>
    obtain ⟨k2, v2⟩ := e
    by_cases h : k2 = k
    · simp [mapGet, mapKeys, h]
    · have h1 : ¬ k = k2 := fun h2 => h h2.symm
      simp only [mapGet, h, if_false, ih, mapKeys, List.map_cons, List.mem_cons, h1, false_or]

theorem nodup_filter {β : Type} {m : List (String × β)} (p : String × β → Bool)
    (h : (mapKeys m).Nodup) : (mapKeys (m.filter p)).Nodup := by
  unfold mapKeys at *
  exact List.Nodup.sublist (List.Sublist.map _ (List.filter_sublist m)) h

theorem mapGet_filter {β : Type} {m : List (String × β)} (p : String × β → Bool)
    (hnd : (mapKeys m).Nodup) (k : String) (v : β) :
    mapGet (m.filter p) k = some v ↔ mapGet m k = some v ∧ p (k, v) = true := by
  constructor
  · intro h
    have h1 := mapGet_mem h
    simp only [List.mem_filter] at h1
    exact ⟨mapGet_of_mem hnd h1.1, h1.2⟩
  · intro h
    apply mapGet_of_mem (nodup_filter p hnd)
    simp only [List.mem_filter]
    exact ⟨mapGet_mem h.1, h.2⟩

theorem MapRel.refl {β : Type} {R : β → β → Prop} (hR : ∀ a, R a a) (m : List (String × β)) :
    MapRel R m m :=
  ⟨fun _ t h => ⟨t, h, hR t⟩, fun _ t h => ⟨t, h, hR t⟩⟩

theorem MapRel.trans {β : Type} {R : β → β → Prop} (hR : ∀ a b c, R a b → R b c → R a c)
    {m m1 m2 : List (String × β)} (h1 : MapRel R m m1) (h2 : MapRel R m1 m2) :
    MapRel R m m2 := by
  constructor
  · intro k t h
    obtain ⟨t1, ht1, r1⟩ := h1.1 k t h
    obtain ⟨t2, ht2, r2⟩ := h2.1 k t1 ht1
    exact ⟨t2, ht2, hR _ _ _ r1 r2⟩
  · intro k t2 h
    obtain ⟨t1, ht1, r2⟩ := h2.2 k t2 h
    obtain ⟨t, ht, r1⟩ := h1.2 k t1 ht1
    exact ⟨t, ht, hR _ _ _ r1 r2⟩

theorem MapRel.mono {β : Type} {R S : β → β → Prop} (hRS : ∀ a b, R a b → S a b)
    {m m1 : List (String × β)} (h : MapRel R m m1) : MapRel S m m1 := by
  constructor
  · intro k t hk
    obtain ⟨t1, ht1, r⟩ := h.1 k t hk
    exact ⟨t1, ht1, hRS _ _ r⟩
  · intro k t1 hk
    obtain ⟨t, ht, r⟩ := h.2 k t1 hk
    exact ⟨t, ht, hRS _ _ r⟩

theorem MapRel.mapSet {β : Type} {R : β → β → Prop} (hR : ∀ a, R a a)
    {m : List (String × β)} {k : String} {t v : β} (hk : mapGet m k = some t) (hv : R t v) :
    MapRel R m (mapSet m k v) := by
  constructor
  · intro k1 t1 h
    rw [mapGet_mapSet]
    by_cases hkk : k = k1
    · subst hkk
      rw [hk] at h
      simp only [Option.some.injEq] at h
      subst h
      exact ⟨v, by simp, hv⟩
    · exact ⟨t1, by simp [hkk, h], hR t1⟩
  · intro k1 t1 h
    rw [mapGet_mapSet] at h
    by_cases hkk : k = k1
    · subst hkk
      simp only [if_true, Option.some.injEq] at h
      subst h
      exact ⟨t, hk, hv⟩
    · simp only [hkk, if_false] at h
      exact ⟨t1, h, hR t1⟩

/-! ## Dependency resolution -/

theorem Task.sameButArgs_refl {α : Type} (t : Task α) : Task.sameButArgs t t := by
  cases t; rfl

theorem Task.sameButArgs_trans {α : Type} (a b c : Task α) (h1 : Task.sameButArgs a b)
    (h2 : Task.sameButArgs b c) : Task.sameButArgs a c := by
  unfold Task.sameButArgs at *
  rw [h2, h1]

theorem Task.scanned_refl {α : Type} (t : Task α) : Task.scanned t t := by
  cases t; exact ⟨rfl, fun h => h⟩

theorem Task.scanned_trans {α : Type} (a b c : Task α) (h1 : Task.scanned a b)
    (h2 : Task.scanned b c) : Task.scanned a c := by
  unfold Task.scanned at *
  refine ⟨?_, fun h => h2.2 (h1.2 h)⟩
  rw [h2.1, h1.1]

theorem Task.scanned_of_sameButArgs {α : Type} (a b : Task α) (h : Task.sameButArgs a b) :
    Task.scanned a b := by
  unfold Task.sameButArgs at h
  unfold Task.scanned
  constructor
  · rw [h]
  · intro h1; rw [h]; exact h1

theorem updateTaskByDependency_same {α : Type} (A : Float64Ops α) (task : Task α) (index : Nat)
    (value : α) : Task.sameButArgs task (updateTaskByDependency A task index value) := by
  unfold updateTaskByDependency Task.sameButArgs
  simp only []
  split_ifs <;> rfl

theorem depsLoop_same {α : Type} (A : Float64Ops α) (tasks : List (String × Task α))
    (deps : List String) : ∀ (task : Task α) (idx : Nat),
    Task.sameButArgs task (depsLoop A tasks task idx deps).1 := by
  induction deps with
  | nil => intro task idx; exact Task.sameButArgs_refl task
  | cons d deps ih =>
    intro task idx
    unfold depsLoop
    cases hd : mapGet tasks d with
    | none => exact Task.sameButArgs_refl task
    | some depTask =>
      simp only []
      cases hc : depTask.Completed with
      | false => exact Task.sameButArgs_refl task
      | true =>
        simp only [Bool.not_true, Bool.false_eq_true, if_false]
        exact Task.sameButArgs_trans _ _ _ (updateTaskByDependency_same A task idx _) (ih _ _)

theorem depsLoop_ready {α : Type} (A : Float64Ops α) (tasks : List (String × Task α))
    (deps : List String) : ∀ (task : Task α) (idx : Nat),
    (depsLoop A tasks task idx deps).2 = true ↔
      ∀ d ∈ deps, ∃ dt, mapGet tasks d = some dt ∧ dt.Completed = true := by
  induction deps with
  | nil => intro task idx; simp [depsLoop]
  | cons d deps ih =>
    intro task idx
    unfold depsLoop
    cases hd : mapGet tasks d with
    | none => simp [hd]
    | some depTask =>
      simp only []
      cases hc : depTask.Completed with
      | false => simp [hd, hc]
      | true =>
        simp only [Bool.not_true, Bool.false_eq_true, if_false, ih, List.mem_cons,
          forall_eq_or_imp, hd, Option.some.injEq, exists_eq_left', hc, true_and]

theorem areDependenciesCompleted_same {α : Type} (A : Float64Ops α)
    (tasks : List (String × Task α)) (task : Task α) :
    Task.sameButArgs task (areDependenciesCompleted A tasks task).1 :=
  depsLoop_same A tasks task.Dependencies task 0

theorem areDependenciesCompleted_ready {α : Type} (A : Float64Ops α)
    (tasks : List (String × Task α)) (task : Task α) :
    (areDependenciesCompleted A tasks task).2 = true ↔
      ∀ d ∈ task.Dependencies, ∃ dt, mapGet tasks d = some dt ∧ dt.Completed = true :=
  depsLoop_ready A tasks task.Dependencies task 0

theorem Task.ready_congr {α : Type} {m m1 : List (String × Task α)} {t t1 : Task α}
    (hm : MapRel Task.sameButArgs m m1) (ht : Task.sameButArgs t t1) :
    Task.ready m t ↔ Task.ready m1 t1 := by
  unfold Task.sameButArgs at ht
  unfold Task.ready
  rw [ht]
  simp only []
  constructor
  · rintro ⟨h1, h2, h3⟩
    refine ⟨h1, h2, fun d hd => ?_⟩
    obtain ⟨dt, hdt, hc⟩ := h3 d hd
    obtain ⟨dt1, hdt1, hr⟩ := hm.1 d dt hdt
    refine ⟨dt1, hdt1, ?_⟩
    unfold Task.sameButArgs at hr
    rw [hr]; exact hc
  · rintro ⟨h1, h2, h3⟩
    refine ⟨h1, h2, fun d hd => ?_⟩
    obtain ⟨dt1, hdt1, hc⟩ := h3 d hd
    obtain ⟨dt, hdt, hr⟩ := hm.2 d dt1 hdt1
    refine ⟨dt, hdt, ?_⟩
    unfold Task.sameButArgs at hr
    rw [hr] at hc; exact hc

/-! ## Claim operation -/

theorem claimScan_skip {α : Type} (A : Float64Ops α) (k : String) (order : List String)
    (s : Store α)
    (h : mapGet s.tasks k = none ∨
      ∃ t, mapGet s.tasks k = some t ∧ (t.IsProcessing = true ∨ t.Completed = true)) :
    claimScan A (k :: order) s = claimScan A order s := by
  rw [claimScan]
  rcases h with h | ⟨t, h, h1 | h1⟩
  · simp [h]
  · simp [h, h1]
  · simp [h, h1]

theorem claimScan_ready {α : Type} (A : Float64Ops α) (k : String) (order : List String)
    (s : Store α) (t : Task α) (h : mapGet s.tasks k = some t) (hp : t.IsProcessing = false)
    (hc : t.Completed = false) (hr : (areDependenciesCompleted A s.tasks t).2 = true) :
    claimScan A (k :: order) s =
      ({ s with tasks := (mapSet s.tasks k
          { Prod.fst (areDependenciesCompleted A s.tasks t) with IsProcessing := true }) },
        some (areDependenciesCompleted A s.tasks t).1) := by
  rw [claimScan]
  simp [h, hp, hc, hr]

theorem claimScan_blocked {α : Type} (A : Float64Ops α) (k : String) (order : List String)
    (s : Store α) (t : Task α) (h : mapGet s.tasks k = some t) (hp : t.IsProcessing = false)
    (hc : t.Completed = false) (hr : (areDependenciesCompleted A s.tasks t).2 = false) :
    claimScan A (k :: order) s =
      claimScan A order
        { s with tasks := mapSet s.tasks k (areDependenciesCompleted A s.tasks t).1 } := by
  rw [claimScan]
  simp [h, hp, hc, hr]

theorem claimScan_cases {α : Type} (k : String) (s : Store α) :
    (mapGet s.tasks k = none ∨
      ∃ t, mapGet s.tasks k = some t ∧ (t.IsProcessing = true ∨ t.Completed = true)) ∨
    ∃ t, mapGet s.tasks k = some t ∧ t.IsProcessing = false ∧ t.Completed = false := by
  cases h : mapGet s.tasks k with
  | none => exact Or.inl (Or.inl rfl)
  | some t =>
    cases hp : t.IsProcessing with
    | true => exact Or.inl (Or.inr ⟨t, rfl, Or.inl hp⟩)
    | false =>
      cases hc : t.Completed with
      | true => exact Or.inl (Or.inr ⟨t, rfl, Or.inr hc⟩)
      | false => exact Or.inr ⟨t, rfl, hp, hc⟩

theorem blocked_mapRel {α : Type} (A : Float64Ops α) (k : String) (s : Store α) (t : Task α)
    (h : mapGet s.tasks k = some t) :
    MapRel Task.sameButArgs s.tasks
      (mapSet s.tasks k (areDependenciesCompleted A s.tasks t).1) :=
  MapRel.mapSet Task.sameButArgs_refl h (areDependenciesCompleted_same A s.tasks t)

theorem claimScan_some {α : Type} (A : Float64Ops α) (order : List String) :
    ∀ (s s1 : Store α) (t : Task α), claimScan A order s = (s1, some t) →
    ∃ k t0, k ∈ order ∧ mapGet s.tasks k = some t0 ∧ Task.ready s.tasks t0 ∧
      Task.sameButArgs t0 t ∧ mapGet s1.tasks k = some { t with IsProcessing := true } := by
  induction order with
  | nil => intro s s1 t h; simp [claimScan] at h
  | cons k order ih =>
    intro s s1 t h
    rcases claimScan_cases k s with hskip | ⟨t0, hget, hp, hc⟩
    · rw [claimScan_skip A k order s hskip] at h
      obtain ⟨k1, t1, hk1, rest⟩ := ih s s1 t h
      exact ⟨k1, t1, List.mem_cons_of_mem _ hk1, rest⟩
    · cases hr : (areDependenciesCompleted A s.tasks t0).2 with
      | true =>
        rw [claimScan_ready A k order s t0 hget hp hc hr] at h
        simp only [Prod.mk.injEq, Option.some.injEq] at h
        obtain ⟨hs1, ht⟩ := h
        subst ht
        refine ⟨k, t0, by simp, hget, ⟨hp, hc, ?_⟩, areDependenciesCompleted_same A s.tasks t0, ?_⟩
        · exact (areDependenciesCompleted_ready A s.tasks t0).1 hr
        · rw [← hs1]
          simp [mapGet_mapSet]
      | false =>
        rw [claimScan_blocked A k order s t0 hget hp hc hr] at h
        obtain ⟨k1, t1, hk1, hget1, hready1, hsame1, hset1⟩ := ih _ s1 t h
        have hrel := blocked_mapRel A k s t0 hget
        obtain ⟨t2, hget2, hsame2⟩ := hrel.2 k1 t1 hget1
        exact ⟨k1, t2, List.mem_cons_of_mem _ hk1, hget2,
          (Task.ready_congr hrel hsame2).2 hready1,
          Task.sameButArgs_trans _ _ _ hsame2 hsame1, hset1⟩

theorem claimScan_none {α : Type} (A : Float64Ops α) (order : List String) :
    ∀ (s s1 : Store α), claimScan A order s = (s1, none) →
    ∀ k ∈ order, ∀ t0, mapGet s.tasks k = some t0 → ¬ Task.ready s.tasks t0 := by
  induction order with
  | nil => intro s s1 _ k hk; simp at hk
  | cons k order ih =>
    intro s s1 h k1 hk1 t1 hget1 hready
    rcases claimScan_cases k s with hskip | ⟨t0, hget, hp, hc⟩
    · rw [claimScan_skip A k order s hskip] at h
      rcases List.mem_cons.1 hk1 with hk | hk
      · subst hk
        rcases hskip with h0 | ⟨t2, h2, h3⟩
        · rw [h0] at hget1; simp at hget1
        · rw [h2] at hget1
          simp only [Option.some.injEq] at hget1
          subst hget1
          rcases h3 with h3 | h3
          · rw [hready.1] at h3; simp at h3
          · rw [hready.2.1] at h3; simp at h3
      · exact ih s s1 h k1 hk t1 hget1 hready
    · cases hr : (areDependenciesCompleted A s.tasks t0).2 with
      | true =>
        rw [claimScan_ready A k order s t0 hget hp hc hr] at h
        simp at h
      | false =>
        rw [claimScan_blocked A k order s t0 hget hp hc hr] at h
        rcases List.mem_cons.1 hk1 with hk | hk
        · subst hk
          rw [hget] at hget1
          simp only [Option.some.injEq] at hget1
          subst hget1
          have := (areDependenciesCompleted_ready A s.tasks t0).2 hready.2.2
          rw [hr] at this
          simp at this
        · have hrel := blocked_mapRel A k s t0 hget
          obtain ⟨t2, hget2, hsame2⟩ := hrel.1 k1 t1 hget1
          exact ih _ s1 h k1 hk t2 hget2 ((Task.ready_congr hrel hsame2).1 hready)

theorem claimScan_none_of_no_ready {α : Type} (A : Float64Ops α) (order : List String) :
    ∀ (s : Store α), (∀ k t0, mapGet s.tasks k = some t0 → ¬ Task.ready s.tasks t0) →
    (claimScan A order s).2 = none := by
  induction order with
  | nil => intro s _; rfl
  | cons k order ih =>
    intro s hno
    rcases claimScan_cases k s with hskip | ⟨t0, hget, hp, hc⟩
    · rw [claimScan_skip A k order s hskip]
      exact ih s hno
    · cases hr : (areDependenciesCompleted A s.tasks t0).2 with
      | true =>
        exact absurd ⟨hp, hc, (areDependenciesCompleted_ready A s.tasks t0).1 hr⟩ (hno k t0 hget)
      | false =>
        rw [claimScan_blocked A k order s t0 hget hp hc hr]
        apply ih
        intro k1 t1 hget1 hready1
        have hrel := blocked_mapRel A k s t0 hget
        obtain ⟨t2, hget2, hsame2⟩ := hrel.2 k1 t1 hget1
        exact hno k1 t2 hget2 ((Task.ready_congr hrel hsame2).2 hready1)

/-- C7: the claim operation returns a task only if it was, before the call,
in the store, not claimed, not completed, and with every dependency present and
completed; the returned record is that task up to its operand slots and is
marked claimed in the new store; the status is 200 with a task and 404
without; and when the scan visits every key, no task is returned exactly when
no task of the store satisfies the three conditions. -/
theorem handleTaskGet_spec {α : Type} (A : Float64Ops α) (order : List String) (s : Store α)
    (hord : ∀ k, k ∈ mapKeys s.tasks → k ∈ order) :
    (∀ s1 status t, handleTaskGet A order s = (s1, status, some t) →
      status = 200 ∧ ∃ k t0, mapGet s.tasks k = some t0 ∧ Task.ready s.tasks t0 ∧
        Task.sameButArgs t0 t ∧ mapGet s1.tasks k = some { t with IsProcessing := true }) ∧
    (∀ s1 status, handleTaskGet A order s = (s1, status, none) → status = 404) ∧
    ((handleTaskGet A order s).2.2 = none ↔
      ∀ k t0, mapGet s.tasks k = some t0 → ¬ Task.ready s.tasks t0) := by
  unfold handleTaskGet
  cases hscan : claimScan A order s with
  | mk s2 res =>
    cases res with
    | none =>
      refine ⟨?_, ?_, ?_⟩
      · intro s1 status t h
        simp at h
      · intro s1 status h
        simp only [Prod.mk.injEq] at h
        exact h.2.1.symm
      · simp only [true_iff]
        intro k t0 hget
        exact claimScan_none A order s s2 hscan k
          (hord k ((mapGet_isSome_iff s.tasks k).1 (by simp [hget]))) t0 hget
    | some t =>
      obtain ⟨k, t0, _, h1, h2, h3, h4⟩ := claimScan_some A order s s2 t hscan
      refine ⟨?_, ?_, ?_⟩
      · intro s1 status t1 h
        simp only [Prod.mk.injEq, Option.some.injEq] at h
        obtain ⟨hs1, hst, ht⟩ := h
        subst hs1 ht
        exact ⟨hst.symm, k, t0, h1, h2, h3, h4⟩
      · intro s1 status h
        simp at h
      · simp only [reduceCtorEq, false_iff, not_forall]
        exact ⟨k, t0, h1, fun h => h h2⟩

theorem handleTaskGet_spec_witness :
    (∀ k, k ∈ mapKeys twoTaskStore.tasks → k ∈ ["t4", "t2"]) ∧
    (handleTaskGet ratOps ["t4", "t2"] twoTaskStore).2
      = (200, some ⟨"t2", "e", 3, 4, "*", 2000, [], 0, false, false⟩) ∧
    ((handleTaskGet ratOps ["t4", "t2"] twoTaskStore).2.2 = none ↔
      ∀ k t0, mapGet twoTaskStore.tasks k = some t0 → ¬ Task.ready twoTaskStore.tasks t0) :=
  ⟨by decide, by decide!,
    (handleTaskGet_spec ratOps ["t4", "t2"] twoTaskStore (by decide)).2.2⟩

/-! ## Complete operation -/

theorem isFinalTask_iff {α : Type} {m : List (String × Task α)} (hnd : (mapKeys m).Nodup)
    (e : String) :
    isFinalTask m e = true ↔
      ∀ k t, mapGet m k = some t → t.ExpressionID = e → t.Completed = true := by
  unfold isFinalTask
  simp only [List.all_eq_true, Bool.not_eq_true', Bool.and_eq_false_imp, decide_eq_true_eq,
    Bool.not_eq_false', Prod.forall]
  constructor
  · intro h k t hget
    exact h k t (mapGet_mem hget)
  · intro h k t hmem
    exact h k t (mapGet_of_mem hnd hmem)

/-- C9: completing a task that is in the store, with its expression in the
store, answers 200. With `setResult` the task map in which the task has result
`r` and is completed: if no task of the owning expression is incomplete in it,
the expression record becomes completed with result `r`, the other expression
records are unchanged, and the task map is `setResult` without the tasks of
that expression; otherwise the store is the old one with `setResult` as task
map (expression records unchanged, no task removed). -/
theorem handleTaskPost_spec {α : Type} (id : String) (r : α) (s : Store α) (task : Task α)
    (expr : Expression α) (hwf : s.WF) (ht : mapGet s.tasks id = some task)
    (he : mapGet s.expressions task.ExpressionID = some expr) :
    ∃ s1, handleTaskPost id r s = (s1, 200) ∧
      mapGet (setResult s.tasks id task r) id
        = some { task with Result := r, Completed := true } ∧
      (∀ k, k ≠ id → mapGet (setResult s.tasks id task r) k = mapGet s.tasks k) ∧
      ((∀ k t, mapGet (setResult s.tasks id task r) k = some t →
          t.ExpressionID = task.ExpressionID → t.Completed = true) →
        mapGet s1.expressions task.ExpressionID
          = some { expr with Result := r, Status := "completed" } ∧
        (∀ e, e ≠ task.ExpressionID → mapGet s1.expressions e = mapGet s.expressions e) ∧
        (∀ k t, mapGet s1.tasks k = some t ↔
          (mapGet (setResult s.tasks id task r) k = some t ∧
            t.ExpressionID ≠ task.ExpressionID))) ∧
      (¬ (∀ k t, mapGet (setResult s.tasks id task r) k = some t →
          t.ExpressionID = task.ExpressionID → t.Completed = true) →
        s1 = { s with tasks := setResult s.tasks id task r }) := by
  have hnd : (mapKeys (setResult s.tasks id task r)).Nodup := nodup_mapSet _ _ hwf.2
  have hfin := isFinalTask_iff hnd task.ExpressionID
  have hget1 : mapGet (setResult s.tasks id task r) id
      = some { task with Result := r, Completed := true } := by
    simp [setResult, mapGet_mapSet]
  have hget2 : ∀ k, k ≠ id → mapGet (setResult s.tasks id task r) k = mapGet s.tasks k := by
    intro k hk
    simp [setResult, mapGet_mapSet, Ne.symm hk]
  cases hf : isFinalTask (setResult s.tasks id task r) task.ExpressionID with
  | true =>
    refine ⟨{ expressions := mapSet s.expressions task.ExpressionID
                { expr with Result := r, Status := "completed" }
              tasks := clearExpressionTasks (setResult s.tasks id task r) task.ExpressionID },
      ?_, hget1, hget2, ?_, ?_⟩
    · unfold handleTaskPost
      simp only [ht, he]
      unfold setResult at hf
      simp only [hf, if_true]
      rfl
    · intro _
      refine ⟨by simp [mapGet_mapSet], ?_, ?_⟩
      · intro e hne
        simp [mapGet_mapSet, Ne.symm hne]
      · intro k t
        unfold clearExpressionTasks
        rw [mapGet_filter _ hnd]
        simp
    · intro hno
      exact absurd (hfin.1 hf) hno
  | false =>
    refine ⟨{ s with tasks := setResult s.tasks id task r }, ?_, hget1, hget2, ?_, ?_⟩
    · unfold handleTaskPost
      simp only [ht, he]
      unfold setResult at hf
      simp only [hf, Bool.false_eq_true, if_false]
      rfl
    · intro hall
      rw [hfin.2 hall] at hf
      simp at hf
    · intro _
      rfl

theorem handleTaskPost_spec_witness :
    testStore.WF ∧
    handleTaskPost "task1" 5 testStore
      = (⟨[("expr1", ⟨"expr1", "2 + 3", "completed", 5⟩)], []⟩, 200) ∧
    ∃ s1, handleTaskPost "task1" (5 : ℚ) testStore = (s1, 200) ∧
      mapGet (setResult testStore.tasks "task1"
          ⟨"task1", "expr1", 2, 3, "+", 1000, [], 0, false, false⟩ 5) "task1"
        = some ⟨"task1", "expr1", 2, 3, "+", 1000, [], 5, true, false⟩ ∧
      (∀ k, k ≠ "task1" → mapGet (setResult testStore.tasks "task1"
          ⟨"task1", "expr1", 2, 3, "+", 1000, [], 0, false, false⟩ 5) k
        = mapGet testStore.tasks k) ∧
      ((∀ k t, mapGet (setResult testStore.tasks "task1"
            ⟨"task1", "expr1", 2, 3, "+", 1000, [], 0, false, false⟩ 5) k = some t →
          t.ExpressionID = "expr1" → t.Completed = true) →
        mapGet s1.expressions "expr1" = some ⟨"expr1", "2 + 3", "completed", 5⟩ ∧
        (∀ e, e ≠ "expr1" → mapGet s1.expressions e = mapGet testStore.expressions e) ∧
        (∀ k t, mapGet s1.tasks k = some t ↔
          (mapGet (setResult testStore.tasks "task1"
              ⟨"task1", "expr1", 2, 3, "+", 1000, [], 0, false, false⟩ 5) k = some t ∧
            t.ExpressionID ≠ "expr1"))) ∧
      (¬ (∀ k t, mapGet (setResult testStore.tasks "task1"
            ⟨"task1", "expr1", 2, 3, "+", 1000, [], 0, false, false⟩ 5) k = some t →
          t.ExpressionID = "expr1" → t.Completed = true) →
        s1 = { testStore with tasks := (setResult testStore.tasks "task1"
          ⟨"task1", "expr1", 2, 3, "+", 1000, [], 0, false, false⟩ 5) }) :=
  ⟨by decide, by decide!,
    handleTaskPost_spec "task1" 5 testStore
      ⟨"task1", "expr1", 2, 3, "+", 1000, [], 0, false, false⟩
      ⟨"expr1", "2 + 3", "pending", 0⟩ (by decide) (by decide!) (by decide!)⟩

/-- C10: completing a task id that is not a key of the task map answers 404
(not found) and returns the store unchanged. -/
theorem handleTaskPost_unknown {α : Type} (id : String) (r : α) (s : Store α)
    (h : id ∉ mapKeys s.tasks) : handleTaskPost id r s = (s, 404) := by
  have hnone : mapGet s.tasks id = none := by
    cases hg : mapGet s.tasks id with
    | none => rfl
    | some t => exact absurd ((mapGet_isSome_iff s.tasks id).1 (by simp [hg])) h
  unfold handleTaskPost
  simp [hnone]

theorem handleTaskPost_unknown_witness :
    "nonexistent" ∉ mapKeys testStore.tasks ∧
    handleTaskPost "nonexistent" (5 : ℚ) testStore = (testStore, 404) :=
  ⟨by decide, handleTaskPost_unknown "nonexistent" 5 testStore (by decide)⟩

/-! ## Runs of requests -/

theorem Task.scanned_ID {α : Type} {t t1 : Task α} (h : Task.scanned t t1) : t1.ID = t.ID := by
  rw [h.1]

theorem Task.sameButArgs_ID {α : Type} {t t1 : Task α} (h : Task.sameButArgs t t1) :
    t1.ID = t.ID := by
  unfold Task.sameButArgs at h
  rw [h]

theorem claimScan_frame {α : Type} (A : Float64Ops α) (order : List String) :
    ∀ (s : Store α), (claimScan A order s).1.expressions = s.expressions ∧
      mapKeys (claimScan A order s).1.tasks = mapKeys s.tasks ∧
      MapRel Task.scanned s.tasks (claimScan A order s).1.tasks := by
  induction order with
  | nil => intro s; exact ⟨rfl, rfl, MapRel.refl Task.scanned_refl _⟩
  | cons k order ih =>
    intro s
    rcases claimScan_cases k s with hskip | ⟨t0, hget, hp, hc⟩
    · rw [claimScan_skip A k order s hskip]
      exact ih s
    · have hk : k ∈ mapKeys s.tasks := (mapGet_isSome_iff s.tasks k).1 (by simp [hget])
      cases hr : (areDependenciesCompleted A s.tasks t0).2 with
      | true =>
        rw [claimScan_ready A k order s t0 hget hp hc hr]
        refine ⟨rfl, by simp [mapKeys_mapSet, hk], ?_⟩
        apply MapRel.mapSet Task.scanned_refl hget
        have hsame := areDependenciesCompleted_same A s.tasks t0
        unfold Task.sameButArgs at hsame
        constructor
        · simp only []
          rw [hsame]
        · intro _; rfl
      | false =>
        rw [claimScan_blocked A k order s t0 hget hp hc hr]
        obtain ⟨h1, h2, h3⟩ := ih
          { s with tasks := (mapSet s.tasks k (areDependenciesCompleted A s.tasks t0).1) }
        refine ⟨h1, by rw [h2]; simp [mapKeys_mapSet, hk], ?_⟩
        exact MapRel.trans Task.scanned_trans
          (MapRel.mono Task.scanned_of_sameButArgs (blocked_mapRel A k s t0 hget)) h3

theorem handleTaskPost_tasks {α : Type} (id : String) (r : α) (s : Store α)
    (hnd : (mapKeys s.tasks).Nodup) :
    (mapKeys (handleTaskPost id r s).1.tasks).Nodup ∧
    ∀ k t1, mapGet (handleTaskPost id r s).1.tasks k = some t1 →
      ∃ t, mapGet s.tasks k = some t ∧ t1.ID = t.ID ∧ t1.IsProcessing = t.IsProcessing := by
  have hmid : ∀ task, mapGet s.tasks id = some task → ∀ k t1,
      mapGet (mapSet s.tasks id { task with Result := r, Completed := true }) k = some t1 →
      ∃ t, mapGet s.tasks k = some t ∧ t1.ID = t.ID ∧ t1.IsProcessing = t.IsProcessing := by
    intro task ht k t1 h
    rw [mapGet_mapSet] at h
    by_cases hk : id = k
    · subst hk
      simp only [if_true, Option.some.injEq] at h
      subst h
      exact ⟨task, ht, rfl, rfl⟩
    · simp only [hk, if_false] at h
      exact ⟨t1, h, rfl, rfl⟩
  unfold handleTaskPost
  cases ht : mapGet s.tasks id with
  | none => exact ⟨hnd, fun k t1 h => ⟨t1, h, rfl, rfl⟩⟩
  | some task =>
    simp only []
    cases he : mapGet s.expressions task.ExpressionID with
    | none => exact ⟨nodup_mapSet _ _ hnd, hmid task ht⟩
    | some expr =>
      simp only []
      split
      · refine ⟨nodup_filter _ (nodup_mapSet _ _ hnd), ?_⟩
        intro k t1 h
        unfold clearExpressionTasks at h
        exact hmid task ht k t1 ((mapGet_filter _ (nodup_mapSet _ _ hnd) k t1).1 h).1
      · exact ⟨nodup_mapSet _ _ hnd, hmid task ht⟩

theorem insertTasks_tasks {α : Type} (ts : List (Task α)) : ∀ (s : Store α),
    (mapKeys s.tasks).Nodup →
    (mapKeys (insertTasks ts s).tasks).Nodup ∧
    (insertTasks ts s).expressions = s.expressions ∧
    ∀ k t1, mapGet (insertTasks ts s).tasks k = some t1 →
      (t1 ∈ ts ∧ t1.ID = k) ∨ mapGet s.tasks k = some t1 := by
  induction ts with
  | nil => intro s hnd; exact ⟨hnd, rfl, fun k t1 h => Or.inr h⟩
  | cons t ts ih =>
    intro s hnd
    obtain ⟨h1, h2, h3⟩ := ih (insertTask t s) (nodup_mapSet _ _ hnd)
    refine ⟨h1, h2, ?_⟩
    intro k t1 h
    rcases h3 k t1 h with ⟨hm, hid⟩ | hold
    · exact Or.inl ⟨List.mem_cons_of_mem _ hm, hid⟩
    · simp only [insertTask, mapGet_mapSet] at hold
      by_cases hk : t.ID = k
      · simp only [hk, if_true, Option.some.injEq] at hold
        subst hold
        exact Or.inl ⟨by simp, hk⟩
      · simp only [hk, if_false] at hold
        exact Or.inr hold

theorem handleCalculate_tasks {α : Type} (A : Float64Ops α) (cfg : Config) (id : String)
    (gen : Nat → String) (expression : String) (s : Store α) (hnd : (mapKeys s.tasks).Nodup) :
    (mapKeys (handleCalculate A cfg id gen "POST" (some expression) s).1.tasks).Nodup ∧
    ∀ k t1, mapGet (handleCalculate A cfg id gen "POST" (some expression) s).1.tasks k = some t1 →
      (t1.ID = k ∧ k ∈ newTaskIDs A cfg id gen expression) ∨ mapGet s.tasks k = some t1 := by
  unfold handleCalculate newTaskIDs
  simp only [ne_eq, not_true_eq_false, if_false]
  by_cases hempty : TrimSpace expression = ""
  · simp only [hempty, if_true]
    exact ⟨hnd, fun k t1 h => Or.inr h⟩
  · simp only [hempty, if_false]
    cases hp : parseExpression A cfg gen (TrimSpace expression) id with
    | none => exact ⟨hnd, fun k t1 h => Or.inr h⟩
    | some ts =>
      simp only []
      obtain ⟨h1, _, h3⟩ := insertTasks_tasks ts
        (insertExpression
          { ID := id, Expr := TrimSpace expression, Status := "pending", Result := A.zero } s) hnd
      refine ⟨h1, ?_⟩
      intro k t1 h
      rcases h3 k t1 h with ⟨hm, hid⟩ | hold
      · left
        refine ⟨hid, ?_⟩
        rw [← hid]
        exact List.mem_map_of_mem _ hm
      · exact Or.inr hold

theorem freshIDs_tail {α : Type} (A : Float64Ops α) (cfg : Config) (issued : List String)
    (req : Request α) (rest : List (Request α)) (h : freshIDs A cfg issued (req :: rest)) :
    freshIDs A cfg (issuedAfter A cfg issued req) rest := by
  cases req with
  | submit id gen expression => exact h.2.2
  | claim order => exact h
  | complete id result => exact h

theorem runInv_step {α : Type} (A : Float64Ops α) (cfg : Config) (s : Store α)
    (issued claimed : List String) (req : Request α) (rest : List (Request α))
    (hinv : RunInv s issued claimed) (hfresh : freshIDs A cfg issued (req :: rest)) :
    RunInv (step A cfg s req).1 (issuedAfter A cfg issued req)
      (claimed ++ (step A cfg s req).2.toList) := by
  cases req with
  | submit id gen expression =>
    obtain ⟨_, hnew, _⟩ := hfresh
    obtain ⟨h1, h2⟩ := handleCalculate_tasks A cfg id gen expression s hinv.nodup
    simp only [step, issuedAfter, Option.toList, List.append_nil]
    refine ⟨h1, ?_, ?_, ?_, hinv.claimedNodup⟩
    · intro k t hget
      rcases h2 k t hget with ⟨hid, hk⟩ | hold
      · exact ⟨hid, List.mem_append_right _ hk⟩
      · exact ⟨(hinv.key k t hold).1, List.mem_append_left _ (hinv.key k t hold).2⟩
    · intro k t hget hk
      rcases h2 k t hget with ⟨_, hk1⟩ | hold
      · exact absurd (hinv.issuedClaimed k hk) (hnew k hk1)
      · exact hinv.marked k t hold hk
    · intro i hi
      exact List.mem_append_left _ (hinv.issuedClaimed i hi)
  | complete id result =>
    obtain ⟨h1, h2⟩ := handleTaskPost_tasks id result s hinv.nodup
    simp only [step, issuedAfter, Option.toList, List.append_nil]
    refine ⟨h1, ?_, ?_, hinv.issuedClaimed, hinv.claimedNodup⟩
    · intro k t hget
      obtain ⟨t0, hget0, hid, _⟩ := h2 k t hget
      rw [hid]
      exact hinv.key k t0 hget0
    · intro k t hget hk
      obtain ⟨t0, hget0, _, hp⟩ := h2 k t hget
      rw [hp]
      exact hinv.marked k t0 hget0 hk
  | claim order =>
    obtain ⟨_, hkeys, hrel⟩ := claimScan_frame A order s
    have hstep1 : (step A cfg s (.claim order)).1 = (claimScan A order s).1 := by
      simp only [step, handleTaskGet]
      cases claimScan A order s with
      | mk s2 res => cases res <;> rfl
    have hstep2 : (step A cfg s (.claim order)).2 = (claimScan A order s).2.map Task.ID := by
      simp only [step, handleTaskGet]
      cases claimScan A order s with
      | mk s2 res => cases res <;> rfl
    rw [hstep1, hstep2]
    simp only [issuedAfter]
    have hkey : ∀ k t, mapGet (claimScan A order s).1.tasks k = some t → t.ID = k ∧ k ∈ issued := by
      intro k t hget
      obtain ⟨t0, hget0, hsc⟩ := hrel.2 k t hget
      rw [Task.scanned_ID hsc]
      exact hinv.key k t0 hget0
    have hmarked : ∀ k t, mapGet (claimScan A order s).1.tasks k = some t → k ∈ claimed →
        t.IsProcessing = true := by
      intro k t hget hk
      obtain ⟨t0, hget0, hsc⟩ := hrel.2 k t hget
      exact hsc.2 (hinv.marked k t0 hget0 hk)
    cases hscan : claimScan A order s with
    | mk s2 res =>
      rw [hscan] at hkeys hkey hmarked
      simp only [] at hkeys hkey hmarked
      cases res with
      | none =>
        simp only [Option.map_none', Option.toList, List.append_nil]
        exact ⟨by rw [hkeys]; exact hinv.nodup, hkey, hmarked, hinv.issuedClaimed,
          hinv.claimedNodup⟩
      | some t =>
        obtain ⟨k0, t0, _, hget0, hready, hsame, hset⟩ := claimScan_some A order s s2 t hscan
        have hid : t.ID = k0 := by
          rw [Task.sameButArgs_ID hsame]
          exact (hinv.key k0 t0 hget0).1
        have hnot : k0 ∉ claimed := by
          intro hk
          have := hinv.marked k0 t0 hget0 hk
          rw [hready.1] at this
          simp at this
        simp only [Option.map_some', Option.toList, hid]
        refine ⟨by rw [hkeys]; exact hinv.nodup, hkey, ?_, ?_, ?_⟩
        · intro k t1 hget hk
          rcases List.mem_append.1 hk with hk | hk
          · exact hmarked k t1 hget hk
          · simp only [List.mem_singleton] at hk
            subst hk
            rw [hset] at hget
            simp only [Option.some.injEq] at hget
            rw [← hget]
        · intro i hi
          rcases List.mem_append.1 hi with hi | hi
          · exact hinv.issuedClaimed i hi
          · simp only [List.mem_singleton] at hi
            subst hi
            exact (hinv.key i t0 hget0).2
        · exact List.Nodup.append hinv.claimedNodup (by simp) (by simpa using hnot)

theorem run_claimed_nodup {α : Type} (A : Float64Ops α) (cfg : Config)
    (reqs : List (Request α)) : ∀ (s : Store α) (issued claimed : List String),
    RunInv s issued claimed → freshIDs A cfg issued reqs →
    (claimed ++ (run A cfg s reqs).2).Nodup := by
  induction reqs with
  | nil =>
    intro s issued claimed hinv _
    simpa [run] using hinv.claimedNodup
  | cons req rest ih =>
    intro s issued claimed hinv hfresh
    have h := ih (step A cfg s req).1 (issuedAfter A cfg issued req)
      (claimed ++ (step A cfg s req).2.toList)
      (runInv_step A cfg s issued claimed req rest hinv hfresh)
      (freshIDs_tail A cfg issued req rest hfresh)
    simpa [run, List.append_assoc] using h

theorem runInv_empty {α : Type} : RunInv (emptyStore : Store α) [] [] :=
  ⟨by simp [emptyStore, mapKeys], by simp [emptyStore, mapGet], by simp [emptyStore, mapGet],
    by simp, by simp⟩

/-- C8: in every run of submit, claim and complete requests from the empty
store in which the IDs of the tasks inserted by each submission are fresh, the
IDs of the tasks handed out by the claim requests are pairwise distinct: no
task is returned by the claim operation more than once. -/
theorem run_claims_distinct {α : Type} (A : Float64Ops α) (cfg : Config)
    (reqs : List (Request α)) (hfresh : freshIDs A cfg [] reqs) :
    (run A cfg emptyStore reqs).2.Nodup := by
  simpa using run_claimed_nodup A cfg reqs emptyStore [] [] runInv_empty hfresh

theorem run_claims_distinct_witness :
    freshIDs ratOps defaultConfig [] exampleRun ∧
    (run ratOps defaultConfig emptyStore exampleRun).2 = ["t3", "t4"] ∧
    (run ratOps defaultConfig emptyStore exampleRun).2.Nodup :=
  ⟨⟨by decide!, by decide!, trivial⟩, by decide!,
    run_claims_distinct ratOps defaultConfig exampleRun ⟨by decide!, by decide!, trivial⟩⟩

/-! ## Complete operation: rejected and repeated calls -/

/-- C11, refuted at a task whose expression is missing: task `t1` of
`orphanStore` is in the task map and its expression `gone` is not in the
expression map; the complete operation answers 404 but returns a store in which
`t1` has result 5 and is completed, so the store is not the one it was given. -/
theorem handleTaskPost_orphan :
    mapGet orphanStore.tasks "t1" = some ⟨"t1", "gone", 2, 3, "+", 1000, [], 0, false, false⟩ ∧
    mapGet orphanStore.expressions "gone" = none ∧
    handleTaskPost "t1" 5 orphanStore
      = (⟨[], [("t1", ⟨"t1", "gone", 2, 3, "+", 1000, [], 5, true, false⟩)]⟩, 404) ∧
    (handleTaskPost "t1" 5 orphanStore).1 ≠ orphanStore := by
  decide!

/-- C11, amended: when the complete operation is called with the id of a task
that is in the store and whose owning expression is not in the expression map,
it answers 404; the expression map is unchanged, and the task map is changed at
that one task only, whose result is set to the reported value and whose
completed flag is set (its other fields, every other task and the set of keys
are as before). -/
theorem handleTaskPost_missing_expression {α : Type} (id : String) (r : α) (s : Store α)
    (task : Task α) (ht : mapGet s.tasks id = some task)
    (he : mapGet s.expressions task.ExpressionID = none) :
    (handleTaskPost id r s).2 = 404 ∧
    (handleTaskPost id r s).1.expressions = s.expressions ∧
    mapGet (handleTaskPost id r s).1.tasks id
      = some { task with Result := r, Completed := true } ∧
    (∀ k, k ≠ id → mapGet (handleTaskPost id r s).1.tasks k = mapGet s.tasks k) ∧
    mapKeys (handleTaskPost id r s).1.tasks = mapKeys s.tasks := by
  have hs : handleTaskPost id r s
      = ({ s with tasks := mapSet s.tasks id { task with Result := r, Completed := true } },
          404) := by
    unfold handleTaskPost
    simp only [ht]
    rw [he]
  rw [hs]
  refine ⟨rfl, rfl, ?_, ?_, ?_⟩
  · simp [mapGet_mapSet]
  · intro k hk
    simp [mapGet_mapSet, Ne.symm hk]
  · have hmem : id ∈ mapKeys s.tasks := (mapGet_isSome_iff s.tasks id).1 (by rw [ht]; rfl)
    show mapKeys (mapSet s.tasks id _) = mapKeys s.tasks
    rw [mapKeys_mapSet, if_pos hmem]

theorem handleTaskPost_missing_expression_witness :
    mapGet orphanStore.tasks "t1" = some ⟨"t1", "gone", 2, 3, "+", 1000, [], 0, false, false⟩ ∧
    mapGet orphanStore.expressions "gone" = none ∧
    ((handleTaskPost "t1" (5 : ℚ) orphanStore).2 = 404 ∧
    (handleTaskPost "t1" (5 : ℚ) orphanStore).1.expressions = orphanStore.expressions ∧
    mapGet (handleTaskPost "t1" (5 : ℚ) orphanStore).1.tasks "t1"
      = some ⟨"t1", "gone", 2, 3, "+", 1000, [], 5, true, false⟩ ∧
    (∀ k, k ≠ "t1" →
      mapGet (handleTaskPost "t1" (5 : ℚ) orphanStore).1.tasks k = mapGet orphanStore.tasks k) ∧
    mapKeys (handleTaskPost "t1" (5 : ℚ) orphanStore).1.tasks = mapKeys orphanStore.tasks) :=
  ⟨by decide!, by decide!,
    handleTaskPost_missing_expression "t1" 5 orphanStore
      ⟨"t1", "gone", 2, 3, "+", 1000, [], 0, false, false⟩ (by decide!) (by decide!)⟩

theorem mapGet_clear_none {α : Type} {m : List (String × Task α)} (hnd : (mapKeys m).Nodup)
    (id : String) (task : Task α) (h : mapGet m id = some task) :
    mapGet (clearExpressionTasks m task.ExpressionID) id = none := by
  cases hg : mapGet (clearExpressionTasks m task.ExpressionID) id with
  | none => rfl
  | some v =>
    unfold clearExpressionTasks at hg
    obtain ⟨h1, h2⟩ := (mapGet_filter _ hnd id v).1 hg
    rw [h] at h1
    simp only [Option.some.injEq] at h1
    subst h1
    simp at h2

/-- C12, refuted on the store of `TestHandleTask`: `task1` is in the store with
its expression `expr1`, the first `complete("task1", 5)` answers 200 and the
second `complete("task1", 6)` answers 404. -/
theorem handleTaskPost_twice_rejected :
    (mapGet testStore.tasks "task1").isSome = true ∧
    (mapGet testStore.expressions "expr1").isSome = true ∧ (5 : ℚ) ≠ 6 ∧
    (handleTaskPost "task1" 5 testStore).2 = 200 ∧
    (handleTaskPost "task1" 6 (handleTaskPost "task1" 5 testStore).1).2 = 404 := by
  decide!

/-- C12, amended: for a task in the store with its owning expression present,
`complete(id, r1)` answers 200; the following `complete(id, r2)` answers 200
when some task of the expression is still incomplete after the first call, and
404 when the first call completed the last incomplete task of the expression
(that call removed the task). -/
theorem handleTaskPost_twice {α : Type} (id : String) (r1 r2 : α) (s : Store α)
    (task : Task α) (expr : Expression α) (hwf : s.WF) (ht : mapGet s.tasks id = some task)
    (he : mapGet s.expressions task.ExpressionID = some expr) :
    (handleTaskPost id r1 s).2 = 200 ∧
    ((∃ k t, mapGet (setResult s.tasks id task r1) k = some t ∧
        t.ExpressionID = task.ExpressionID ∧ t.Completed = false) →
      (handleTaskPost id r2 (handleTaskPost id r1 s).1).2 = 200) ∧
    ((∀ k t, mapGet (setResult s.tasks id task r1) k = some t →
        t.ExpressionID = task.ExpressionID → t.Completed = true) →
      (handleTaskPost id r2 (handleTaskPost id r1 s).1).2 = 404) := by
  have hnd : (mapKeys (setResult s.tasks id task r1)).Nodup := nodup_mapSet _ _ hwf.2
  have hfin := isFinalTask_iff hnd task.ExpressionID
  have hget1 : mapGet (setResult s.tasks id task r1) id
      = some { task with Result := r1, Completed := true } := by
    simp [setResult, mapGet_mapSet]
  cases hf : isFinalTask (setResult s.tasks id task r1) task.ExpressionID with
  | true =>
    have hpost : handleTaskPost id r1 s =
        ({ expressions := mapSet s.expressions task.ExpressionID
              { expr with Result := r1, Status := "completed" }
           tasks := clearExpressionTasks (setResult s.tasks id task r1) task.ExpressionID },
          200) := by
      unfold handleTaskPost
      simp only [ht, he]
      unfold setResult at hf
      simp only [hf, if_true]
      rfl
    refine ⟨by rw [hpost], ?_, ?_⟩
    · rintro ⟨k, t, hk, he1, hc⟩
      have := hfin.1 hf k t hk he1
      rw [hc] at this
      simp at this
    · intro _
      rw [hpost]
      have hnone := mapGet_clear_none hnd id _ hget1
      unfold handleTaskPost
      simp only [] at hnone ⊢
      rw [hnone]
  | false =>
    have hpost : handleTaskPost id r1 s
        = ({ s with tasks := setResult s.tasks id task r1 }, 200) := by
      unfold handleTaskPost
      simp only [ht, he]
      unfold setResult at hf
      simp only [hf, Bool.false_eq_true, if_false]
      rfl
    refine ⟨by rw [hpost], ?_, ?_⟩
    · intro _
      rw [hpost]
      unfold handleTaskPost
      simp only [hget1, he]
      split <;> rfl
    · intro hall
      rw [hfin.2 hall] at hf
      simp at hf

theorem handleTaskPost_twice_witness :
    twoTaskStore.WF ∧
    (handleTaskPost "t2" (12 : ℚ) twoTaskStore).2 = 200 ∧
    ((∃ k t, mapGet (setResult twoTaskStore.tasks "t2"
          ⟨"t2", "e", 3, 4, "*", 2000, [], 0, false, false⟩ 12) k = some t ∧
        t.ExpressionID = "e" ∧ t.Completed = false) →
      (handleTaskPost "t2" 13 (handleTaskPost "t2" 12 twoTaskStore).1).2 = 200) ∧
    ((∀ k t, mapGet (setResult twoTaskStore.tasks "t2"
          ⟨"t2", "e", 3, 4, "*", 2000, [], 0, false, false⟩ 12) k = some t →
        t.ExpressionID = "e" → t.Completed = true) →
      (handleTaskPost "t2" 13 (handleTaskPost "t2" 12 twoTaskStore).1).2 = 404) ∧
    (handleTaskPost "t2" 13 (handleTaskPost "t2" 12 twoTaskStore).1).2 = 200 :=
  ⟨by decide, (handleTaskPost_twice "t2" 12 13 twoTaskStore
      ⟨"t2", "e", 3, 4, "*", 2000, [], 0, false, false⟩ ⟨"e", "2 + 3 * 4", "pending", 0⟩
      (by decide) (by decide!) (by decide!)).1,
    (handleTaskPost_twice "t2" 12 13 twoTaskStore
      ⟨"t2", "e", 3, 4, "*", 2000, [], 0, false, false⟩ ⟨"e", "2 + 3 * 4", "pending", 0⟩
      (by decide) (by decide!) (by decide!)).2.1,
    (handleTaskPost_twice "t2" 12 13 twoTaskStore
      ⟨"t2", "e", 3, 4, "*", 2000, [], 0, false, false⟩ ⟨"e", "2 + 3 * 4", "pending", 0⟩
      (by decide) (by decide!) (by decide!)).2.2,
    by decide!⟩

/-! ## Malformed input, submission, worker arithmetic -/

/-- C14, evaluated at malformed inputs: on `")"` the slice expression
`stack[:len(stack)-1]` of `infixToPostfix` is out of range, and on `"+"` and
`"2 +"` the index expressions of the operator case of `parseExpression` are out
of range; the submission handler then ends without a status, the expression
record already inserted. -/
theorem compile_out_of_range :
    tokenize ")" = [")"] ∧ infixToPostfix ")" = none ∧
    parseExpression ratOps defaultConfig genT ")" "e" = none ∧
    infixToPostfix "+" = some ["+"] ∧
    parseExpression ratOps defaultConfig genT "+" "e" = none ∧
    infixToPostfix "2 +" = some ["2", "+"] ∧
    parseExpression ratOps defaultConfig genT "2 +" "e" = none ∧
    handleCalculate ratOps defaultConfig "e" genT "POST" (some ")") emptyStore
      = (⟨[("e", ⟨"e", ")", "pending", 0⟩)], []⟩, none) := by
  decide!

theorem insertTasks_expressions {α : Type} (ts : List (Task α)) (s : Store α) :
    (insertTasks ts s).expressions = s.expressions := by
  induction ts generalizing s with
  | nil => rfl
  | cons t ts ih => rw [insertTasks, ih]; rfl

/-- C15: on a POST with a decoded body, `handleCalculate` answers 422 exactly
when the expression is empty after `strings.TrimSpace`, and then returns the
store unchanged; when it answers 201 the expression map holds at the drawn ID a
record with that ID, the trimmed text, status pending, every other key is
unchanged, and when the ID was not yet a key it is the one key added. -/
theorem handleCalculate_spec {α : Type} (A : Float64Ops α) (cfg : Config) (id : String)
    (gen : Nat → String) (expression : String) (s : Store α) :
    ((handleCalculate A cfg id gen "POST" (some expression) s).2 = some 422 ↔
      TrimSpace expression = "") ∧
    ((handleCalculate A cfg id gen "POST" (some expression) s).2 = some 422 →
      (handleCalculate A cfg id gen "POST" (some expression) s).1 = s) ∧
    ((handleCalculate A cfg id gen "POST" (some expression) s).2 = some 201 →
      mapGet (handleCalculate A cfg id gen "POST" (some expression) s).1.expressions id
        = some ⟨id, TrimSpace expression, "pending", A.zero⟩ ∧
      (∀ k, k ≠ id →
        mapGet (handleCalculate A cfg id gen "POST" (some expression) s).1.expressions k
          = mapGet s.expressions k) ∧
      (id ∉ mapKeys s.expressions →
        mapKeys (handleCalculate A cfg id gen "POST" (some expression) s).1.expressions
          = mapKeys s.expressions ++ [id])) := by
  unfold handleCalculate
  simp only [ne_eq, not_true_eq_false, if_false]
  by_cases hempty : TrimSpace expression = ""
  · simp [hempty]
  · simp only [hempty, if_false, iff_false]
    cases hp : parseExpression A cfg gen (TrimSpace expression) id with
    | none => simp
    | some ts =>
      simp only [Option.some.injEq, insertTasks_expressions, insertExpression]
      refine ⟨by decide, fun h => absurd h (by decide), fun _ => ⟨?_, ?_, ?_⟩⟩
      · simp [mapGet_mapSet]
      · intro k hk
        simp [mapGet_mapSet, Ne.symm hk]
      · intro hid
        simp [mapKeys_mapSet, hid]

theorem handleCalculate_spec_witness :
    handleCalculate ratOps defaultConfig "e" genT "POST" (some "  2 + 3 ") emptyStore
      = (⟨[("e", ⟨"e", "2 + 3", "pending", 0⟩)],
          [("t2", ⟨"t2", "e", 2, 3, "+", 1000, [], 0, false, false⟩)]⟩, some 201) ∧
    handleCalculate ratOps defaultConfig "e" genT "POST" (some "   ") testStore
      = (testStore, some 422) ∧
    ((handleCalculate ratOps defaultConfig "e" genT "POST" (some "   ") testStore).2 = some 422 ↔
      TrimSpace "   " = "") :=
  ⟨by decide!, by decide!, (handleCalculate_spec ratOps defaultConfig "e" genT "   " testStore).1⟩

/-- C16: `computeTask` returns the sum, difference, product and quotient of
`Arg1` and `Arg2` for the operations `+`, `-`, `*` and `/`, and the zero value
for every other operation string; it is a total function, no error is
signalled. -/
theorem computeTask_spec {α : Type} (A : Float64Ops α) (task : AgentTask α) :
    (task.Operation = "+" → computeTask A task = A.add task.Arg1 task.Arg2) ∧
    (task.Operation = "-" → computeTask A task = A.sub task.Arg1 task.Arg2) ∧
    (task.Operation = "*" → computeTask A task = A.mul task.Arg1 task.Arg2) ∧
    (task.Operation = "/" → computeTask A task = A.div task.Arg1 task.Arg2) ∧
    (task.Operation ≠ "+" → task.Operation ≠ "-" → task.Operation ≠ "*" →
      task.Operation ≠ "/" → computeTask A task = A.zero) := by
  unfold computeTask applyOperation
  refine ⟨?_, ?_, ?_, ?_, ?_⟩
  · intro h; simp [h]
  · intro h; simp [h]
  · intro h; simp [h]
  · intro h; simp [h]
  · intro h1 h2 h3 h4; simp [h1, h2, h3, h4]

theorem computeTask_spec_witness :
    computeTask ratOps ⟨"", 10, 5, "+", 0⟩ = 15 ∧ computeTask ratOps ⟨"", 10, 5, "-", 0⟩ = 5 ∧
    computeTask ratOps ⟨"", 10, 5, "*", 0⟩ = 50 ∧ computeTask ratOps ⟨"", 10, 5, "/", 0⟩ = 2 ∧
    computeTask ratOps ⟨"", 10, 5, "invalid", 0⟩ = 0 ∧
    computeTask ratOps ⟨"", 10, 5, "invalid", 0⟩ = ratOps.zero :=
  ⟨by decide!, by decide!, by decide!, by decide!, by decide!,
    (computeTask_spec ratOps ⟨"", 10, 5, "invalid", 0⟩).2.2.2.2
      (by decide) (by decide) (by decide) (by decide)⟩

/-! ## Operand slots at hand-out -/

/-- C18, evaluated at `(2 + 3) - 0`: `parseExpression` builds the subtraction
`t4` with the single dependency `t2` (the sum) and both slots 0; once `t2` is
reported as 5 the claim operation hands `t4` out with `Arg1 = 0` and
`Arg2 = 5`, where the expression requires `Arg1 = 5` and `Arg2 = 0`. -/
theorem claim_subtraction_slots :
    parseExpression ratOps defaultConfig genT "(2 + 3) - 0" "e"
      = some [⟨"t2", "e", 2, 3, "+", 1000, [], 0, false, false⟩,
          ⟨"t4", "e", 0, 0, "-", 1000, ["t2"], 0, false, false⟩] ∧
    (run ratOps defaultConfig emptyStore subtractionRun).2 = ["t2"] ∧
    (handleTaskGet ratOps ["t2", "t4"] (run ratOps defaultConfig emptyStore subtractionRun).1).2
      = (200, some ⟨"t4", "e", 0, 5, "-", 1000, ["t2"], 0, false, false⟩) := by
  decide!

/-! ## Monotonicity of the task flags -/

theorem Task.completedFrom_refl {α : Type} (t : Task α) : Task.completedFrom t t := by
  cases t; exact ⟨rfl, fun h => h⟩

theorem handleTaskPost_rel {α : Type} (id : String) (r : α) (s : Store α)
    (hnd : (mapKeys s.tasks).Nodup) :
    ∀ k t1, mapGet (handleTaskPost id r s).1.tasks k = some t1 →
      ∃ t, mapGet s.tasks k = some t ∧ Task.completedFrom t t1 := by
  have hmid : ∀ task, mapGet s.tasks id = some task → ∀ k t1,
      mapGet (mapSet s.tasks id { task with Result := r, Completed := true }) k = some t1 →
      ∃ t, mapGet s.tasks k = some t ∧ Task.completedFrom t t1 := by
    intro task ht k t1 h
    rw [mapGet_mapSet] at h
    by_cases hk : id = k
    · subst hk
      simp only [if_true, Option.some.injEq] at h
      subst h
      exact ⟨task, ht, rfl, fun _ => rfl⟩
    · simp only [hk, if_false] at h
      exact ⟨t1, h, Task.completedFrom_refl t1⟩
  unfold handleTaskPost
  cases ht : mapGet s.tasks id with
  | none => exact fun k t1 h => ⟨t1, h, Task.completedFrom_refl t1⟩
  | some task =>
    simp only []
    cases he : mapGet s.expressions task.ExpressionID with
    | none => exact hmid task ht
    | some expr =>
      simp only []
      split
      · intro k t1 h
        unfold clearExpressionTasks at h
        exact hmid task ht k t1 ((mapGet_filter _ (nodup_mapSet _ _ hnd) k t1).1 h).1
      · exact hmid task ht

/-- C20: for a store without duplicate keys and a request that is a claim, a
completion, or a submission whose new task IDs are not keys of the task map,
every task that is in the store before and after the request is completed
after it if it was before, and claimed after it if it was before. -/
theorem step_flags_monotone {α : Type} (A : Float64Ops α) (cfg : Config) (s : Store α)
    (req : Request α) (hwf : s.WF) (hfresh : freshFor A cfg s req) (k : String)
    (t t1 : Task α) (hbefore : mapGet s.tasks k = some t)
    (hafter : mapGet (step A cfg s req).1.tasks k = some t1) :
    (t.Completed = true → t1.Completed = true) ∧
    (t.IsProcessing = true → t1.IsProcessing = true) := by
  cases req with
  | submit id gen expression =>
    simp only [step] at hafter
    rcases (handleCalculate_tasks A cfg id gen expression s hwf.2).2 k t1 hafter with
      ⟨_, hk⟩ | hold
    · exact absurd ((mapGet_isSome_iff s.tasks k).1 (by simp [hbefore])) (hfresh k hk)
    · rw [hbefore] at hold
      simp only [Option.some.injEq] at hold
      subst hold
      exact ⟨fun h => h, fun h => h⟩
  | claim order =>
    have hstep : (step A cfg s (.claim order)).1 = (claimScan A order s).1 := by
      simp only [step, handleTaskGet]
      cases claimScan A order s with
      | mk s2 res => cases res <;> rfl
    rw [hstep] at hafter
    obtain ⟨t0, hget0, hsc⟩ := (claimScan_frame A order s).2.2.2 k t1 hafter
    rw [hbefore] at hget0
    simp only [Option.some.injEq] at hget0
    subst hget0
    refine ⟨?_, hsc.2⟩
    intro h
    rw [hsc.1]
    exact h
  | complete id result =>
    simp only [step] at hafter
    obtain ⟨t0, hget0, hc⟩ := handleTaskPost_rel id result s hwf.2 k t1 hafter
    rw [hbefore] at hget0
    simp only [Option.some.injEq] at hget0
    subst hget0
    refine ⟨hc.2, ?_⟩
    intro h
    rw [hc.1]
    exact h

theorem step_flags_monotone_witness :
    progressStore.WF ∧ freshFor ratOps defaultConfig progressStore (.claim ["t2", "t4"]) ∧
    mapGet progressStore.tasks "t2" = some ⟨"t2", "e", 3, 4, "*", 2000, [], 12, true, true⟩ ∧
    mapGet (step ratOps defaultConfig progressStore (.claim ["t2", "t4"])).1.tasks "t2"
      = some ⟨"t2", "e", 3, 4, "*", 2000, [], 12, true, true⟩ ∧
    (step ratOps defaultConfig progressStore (.claim ["t2", "t4"])).2 = some "t4" ∧
    ((true = true → true = true) ∧ (true = true → true = true)) :=
  ⟨by decide, trivial, by decide!, by decide!, by decide!,
    step_flags_monotone ratOps defaultConfig progressStore (.claim ["t2", "t4"]) (by decide)
      trivial "t2" ⟨"t2", "e", 3, 4, "*", 2000, [], 12, true, true⟩
      ⟨"t2", "e", 3, 4, "*", 2000, [], 12, true, true⟩ (by decide!) (by decide!)⟩

/-! ## Tasks with two dependencies -/

theorem updateTaskByDependency_two {α : Type} (A : Float64Ops α) (task : Task α)
    (h2 : task.Dependencies.length = 2) (hz : A.isZero task.Arg2 = true) (v0 v1 : α) :
    updateTaskByDependency A task 0 v0 = { task with Arg1 := v0 } ∧
    updateTaskByDependency A { task with Arg1 := v0 } 1 v1
      = { task with Arg1 := v0, Arg2 := v1 } := by
  constructor
  · simp [updateTaskByDependency, h2]
  · simp [updateTaskByDependency, h2, hz]

theorem areDependenciesCompleted_two {α : Type} (A : Float64Ops α)
    (tasks : List (String × Task α)) (task : Task α) (d0 d1 : String)
    (hd : task.Dependencies = [d0, d1]) (hz : A.isZero task.Arg2 = true)
    (hr : (areDependenciesCompleted A tasks task).2 = true) :
    ∃ t0 t1, mapGet tasks d0 = some t0 ∧ mapGet tasks d1 = some t1 ∧
      t0.Completed = true ∧ t1.Completed = true ∧
      (areDependenciesCompleted A tasks task).1.Arg1 = t0.Result ∧
      (areDependenciesCompleted A tasks task).1.Arg2 = t1.Result := by
  have h2 : task.Dependencies.length = 2 := by rw [hd]; rfl
  have hall := (areDependenciesCompleted_ready A tasks task).1 hr
  obtain ⟨t0, hg0, hc0⟩ := hall d0 (by rw [hd]; simp)
  obtain ⟨t1, hg1, hc1⟩ := hall d1 (by rw [hd]; simp)
  refine ⟨t0, t1, hg0, hg1, hc0, hc1, ?_⟩
  obtain ⟨hu0, hu1⟩ := updateTaskByDependency_two A task h2 hz t0.Result t1.Result
  unfold areDependenciesCompleted
  rw [hd]
  simp only [depsLoop, hg0, hc0, hg1, hc1, Bool.not_true, Bool.false_eq_true, if_false, hu0,
    Nat.zero_add, hu1, and_self]

theorem areDependenciesCompleted_blocked_two {α : Type} (A : Float64Ops α)
    (tasks : List (String × Task α)) (task : Task α)
    (h2 : task.Dependencies.length = 2)
    (hr : (areDependenciesCompleted A tasks task).2 = false) :
    (areDependenciesCompleted A tasks task).1.Arg2 = task.Arg2 := by
  match hd : task.Dependencies, h2 with
  | [d0, d1], _ =>
    unfold areDependenciesCompleted at hr ⊢
    rw [hd] at hr ⊢
    have hlen : task.Dependencies.length = 2 := by rw [hd]; rfl
    cases hg0 : mapGet tasks d0 with
    | none => simp [depsLoop, hg0]
    | some t0 =>
      cases hc0 : t0.Completed with
      | false => simp [depsLoop, hg0, hc0]
      | true =>
        have hu0 : updateTaskByDependency A task 0 t0.Result = { task with Arg1 := t0.Result } := by
          simp [updateTaskByDependency, hlen]
        cases hg1 : mapGet tasks d1 with
        | none => simp [depsLoop, hg0, hc0, hg1, hu0]
        | some t1 =>
          cases hc1 : t1.Completed with
          | false => simp [depsLoop, hg0, hc0, hg1, hc1, hu0]
          | true => simp [depsLoop, hg0, hc0, hg1, hc1] at hr

theorem slotInv_blocked {α : Type} (A : Float64Ops α) (k : String) (s : Store α) (t : Task α)
    (hinv : slotInv A s) (hget : mapGet s.tasks k = some t)
    (hr : (areDependenciesCompleted A s.tasks t).2 = false) :
    slotInv A { s with tasks := (mapSet s.tasks k (areDependenciesCompleted A s.tasks t).1) } := by
  intro k1 t1 h
  simp only [mapGet_mapSet] at h
  by_cases hk : k = k1
  · simp only [hk, if_true, Option.some.injEq] at h
    subst h
    have hsame := areDependenciesCompleted_same A s.tasks t
    unfold Task.sameButArgs at hsame
    intro h2 hp
    have h2t : t.Dependencies.length = 2 := by rw [hsame] at h2; exact h2
    have hpt : t.IsProcessing = false := by rw [hsame] at hp; exact hp
    rw [areDependenciesCompleted_blocked_two A s.tasks t h2t hr]
    exact hinv k t hget h2t hpt
  · simp only [hk, if_false] at h
    exact hinv k1 t1 h

theorem slotInv_claimScan {α : Type} (A : Float64Ops α) (order : List String) :
    ∀ s : Store α, slotInv A s → slotInv A (claimScan A order s).1 := by
  induction order with
  | nil => intro s h; exact h
  | cons k order ih =>
    intro s hinv
    rcases claimScan_cases k s with hskip | ⟨t0, hget, hp, hc⟩
    · rw [claimScan_skip A k order s hskip]
      exact ih s hinv
    · cases hr : (areDependenciesCompleted A s.tasks t0).2 with
      | true =>
        rw [claimScan_ready A k order s t0 hget hp hc hr]
        intro k1 t1 h
        simp only [mapGet_mapSet] at h
        by_cases hk : k = k1
        · simp only [hk, if_true, Option.some.injEq] at h
          subst h
          intro _ hp1
          simp at hp1
        · simp only [hk, if_false] at h
          exact hinv k1 t1 h
      | false =>
        rw [claimScan_blocked A k order s t0 hget hp hc hr]
        exact ih _ (slotInv_blocked A k s t0 hinv hget hr)

/-- On a store in which unclaimed tasks with two dependencies have a free
second slot, a task with dependencies `[d0, d1]` is handed out with the result
of `d0` in `Arg1` and the result of `d1` in `Arg2`. -/
theorem claimScan_two {α : Type} (A : Float64Ops α) (order : List String) :
    ∀ (s s1 : Store α) (t : Task α) (d0 d1 : String), slotInv A s →
    claimScan A order s = (s1, some t) → t.Dependencies = [d0, d1] →
    ∃ t0 t1, mapGet s.tasks d0 = some t0 ∧ mapGet s.tasks d1 = some t1 ∧
      t0.Completed = true ∧ t1.Completed = true ∧
      t.Arg1 = t0.Result ∧ t.Arg2 = t1.Result := by
  induction order with
  | nil => intro s s1 t d0 d1 _ h; simp [claimScan] at h
  | cons k order ih =>
    intro s s1 t d0 d1 hinv h hd
    rcases claimScan_cases k s with hskip | ⟨t0, hget, hp, hc⟩
    · rw [claimScan_skip A k order s hskip] at h
      exact ih s s1 t d0 d1 hinv h hd
    · cases hr : (areDependenciesCompleted A s.tasks t0).2 with
      | true =>
        rw [claimScan_ready A k order s t0 hget hp hc hr] at h
        simp only [Prod.mk.injEq, Option.some.injEq] at h
        obtain ⟨_, ht⟩ := h
        have hsame := areDependenciesCompleted_same A s.tasks t0
        unfold Task.sameButArgs at hsame
        have hd0 : t0.Dependencies = [d0, d1] := by
          rw [← ht, hsame] at hd
          exact hd
        have hz := hinv k t0 hget (by rw [hd0]; rfl) hp
        rw [← ht]
        exact areDependenciesCompleted_two A s.tasks t0 d0 d1 hd0 hz hr
      | false =>
        rw [claimScan_blocked A k order s t0 hget hp hc hr] at h
        obtain ⟨u0, u1, hg0, hg1, hc0, hc1, ha1, ha2⟩ :=
          ih _ s1 t d0 d1 (slotInv_blocked A k s t0 hinv hget hr) h hd
        have hrel := blocked_mapRel A k s t0 hget
        obtain ⟨v0, hv0, hs0⟩ := hrel.2 d0 u0 hg0
        obtain ⟨v1, hv1, hs1⟩ := hrel.2 d1 u1 hg1
        unfold Task.sameButArgs at hs0 hs1
        refine ⟨v0, v1, hv0, hv1, ?_, ?_, ?_, ?_⟩
        · rw [hs0] at hc0; exact hc0
        · rw [hs1] at hc1; exact hc1
        · rw [ha1, hs0]
        · rw [ha2, hs1]

theorem parseStep_inv {α : Type} (A : Float64Ops α) (cfg : Config) (gen : Nat → String)
    (eid : String) {st st1 : ParseState α} {token : String} (hinv : ParseInv A st)
    (h : parseStep A cfg gen eid st token = some st1) : ParseInv A st1 := by
  unfold parseStep at h
  by_cases hop : isOperator token = true
  · simp only [hop, if_true] at h
    split at h
    · rename_i arg2Task arg1Task rest hstack
      simp only [Option.some.injEq] at h
      subst h
      have h2 := hinv.stack arg2Task (by rw [hstack]; simp)
      constructor
      · intro x hx hc
        simp only [List.mem_cons] at hx
        rcases hx with hx | hx
        · subst hx; rfl
        · exact hinv.stack x (by rw [hstack]; simp [hx]) hc
      · intro x hx hlen
        simp only [List.mem_append, List.mem_singleton] at hx
        rcases hx with hx | hx
        · exact hinv.tasks x hx hlen
        · subst hx
          simp only [] at hlen ⊢
          apply h2
          cases hc2 : arg2Task.Completed with
          | false => rfl
          | true =>
            rw [hc2] at hlen
            cases hc1 : arg1Task.Completed <;> rw [hc1] at hlen <;> simp at hlen
    · simp at h
  · simp only [hop, Bool.false_eq_true, if_false, Option.some.injEq] at h
    subst h
    constructor
    · intro x hx hc
      simp only [List.mem_cons] at hx
      rcases hx with hx | hx
      · subst hx; simp at hc
      · exact hinv.stack x hx hc
    · exact hinv.tasks

theorem parseLoop_inv {α : Type} (A : Float64Ops α) (cfg : Config) (gen : Nat → String)
    (eid : String) (toks : List String) : ∀ (st st1 : ParseState α), ParseInv A st →
    parseLoop A cfg gen eid toks st = some st1 → ParseInv A st1 := by
  induction toks with
  | nil =>
    intro st st1 hinv h
    simp only [parseLoop, Option.some.injEq] at h
    subst h
    exact hinv
  | cons tok rest ih =>
    intro st st1 hinv h
    unfold parseLoop at h
    cases hs : parseStep A cfg gen eid st tok with
    | none => rw [hs] at h; simp at h
    | some st2 =>
      rw [hs] at h
      exact ih st2 st1 (parseStep_inv A cfg gen eid hinv hs) h

theorem parseExpression_slot {α : Type} (A : Float64Ops α) (cfg : Config) (gen : Nat → String)
    (expr eid : String) (tasks : List (Task α))
    (h : parseExpression A cfg gen expr eid = some tasks) :
    ∀ t ∈ tasks, t.Dependencies.length = 2 → t.Arg2 = A.zero := by
  unfold parseExpression at h
  cases hp : infixToPostfix expr with
  | none => rw [hp] at h; simp at h
  | some toks =>
    rw [hp] at h
    simp only [] at h
    cases hl : parseLoop A cfg gen eid toks ⟨[], [], 0⟩ with
    | none => rw [hl] at h; simp at h
    | some st =>
      rw [hl] at h
      simp only [Option.some.injEq] at h
      subst h
      exact (parseLoop_inv A cfg gen eid toks _ st ⟨by simp, by simp⟩ hl).tasks

/-- The tasks of the store after a submission: those returned by
`parseExpression`, at their IDs, and the tasks that were there. -/
theorem handleCalculate_new {α : Type} (A : Float64Ops α) (cfg : Config) (id : String)
    (gen : Nat → String) (expression : String) (s : Store α) (hnd : (mapKeys s.tasks).Nodup) :
    ∀ k t1, mapGet (handleCalculate A cfg id gen "POST" (some expression) s).1.tasks k = some t1 →
      (∃ ts, parseExpression A cfg gen (TrimSpace expression) id = some ts ∧ t1 ∈ ts ∧
        t1.ID = k) ∨ mapGet s.tasks k = some t1 := by
  unfold handleCalculate
  simp only [ne_eq, not_true_eq_false, if_false]
  by_cases hempty : TrimSpace expression = ""
  · simp only [hempty, if_true]
    exact fun k t1 h => Or.inr h
  · simp only [hempty, if_false]
    cases hp : parseExpression A cfg gen (TrimSpace expression) id with
    | none => exact fun k t1 h => Or.inr h
    | some ts =>
      simp only []
      obtain ⟨_, _, h3⟩ := insertTasks_tasks ts
        (insertExpression
          { ID := id, Expr := TrimSpace expression, Status := "pending", Result := A.zero } s) hnd
      intro k t1 h
      rcases h3 k t1 h with ⟨hm, hid⟩ | hold
      · exact Or.inl ⟨ts, rfl, hm, hid⟩
      · exact Or.inr hold

theorem slotInv_step {α : Type} (A : Float64Ops α) (cfg : Config)
    (hzero : A.isZero A.zero = true) (s : Store α) (req : Request α)
    (hnd : (mapKeys s.tasks).Nodup) (hinv : slotInv A s) :
    (mapKeys (step A cfg s req).1.tasks).Nodup ∧ slotInv A (step A cfg s req).1 := by
  cases req with
  | submit id gen expression =>
    refine ⟨(handleCalculate_tasks A cfg id gen expression s hnd).1, ?_⟩
    intro k t1 h
    rcases handleCalculate_new A cfg id gen expression s hnd k t1 h with ⟨ts, hp, hm, _⟩ | hold
    · intro h2 _
      rw [parseExpression_slot A cfg gen _ id ts hp t1 hm h2]
      exact hzero
    · exact hinv k t1 hold
  | claim order =>
    have hstep : (step A cfg s (.claim order)).1 = (claimScan A order s).1 := by
      simp only [step, handleTaskGet]
      cases claimScan A order s with
      | mk s2 res => cases res <;> rfl
    rw [hstep]
    refine ⟨by rw [(claimScan_frame A order s).2.1]; exact hnd, slotInv_claimScan A order s hinv⟩
  | complete id result =>
    refine ⟨(handleTaskPost_tasks id result s hnd).1, ?_⟩
    intro k t1 h
    obtain ⟨t0, hget0, hc⟩ := handleTaskPost_rel id result s hnd k t1 h
    intro h2 hp
    rw [hc.1] at h2 hp ⊢
    exact hinv k t0 hget0 h2 hp

theorem slotInv_run {α : Type} (A : Float64Ops α) (cfg : Config)
    (hzero : A.isZero A.zero = true) (reqs : List (Request α)) : ∀ s : Store α,
    (mapKeys s.tasks).Nodup → slotInv A s →
    (mapKeys (run A cfg s reqs).1.tasks).Nodup ∧ slotInv A (run A cfg s reqs).1 := by
  induction reqs with
  | nil => intro s hnd hinv; exact ⟨hnd, hinv⟩
  | cons req rest ih =>
    intro s hnd hinv
    obtain ⟨h1, h2⟩ := slotInv_step A cfg hzero s req hnd hinv
    exact ih _ h1 h2

/-- C19: in the state reached from the empty store by any run of submit, claim
and complete requests, when the claim operation hands out a task whose
dependency list is `[d0, d1]`, both dependencies are in the store and
completed, `Arg1` is the result recorded for `d0` and `Arg2` the result
recorded for `d1`, whatever scans inspected the task before. The arithmetic is
any one in which the zero value compares equal to 0. -/
theorem claim_two_dependencies {α : Type} (A : Float64Ops α) (cfg : Config)
    (hzero : A.isZero A.zero = true) (reqs : List (Request α)) (order : List String)
    (s1 : Store α) (t : Task α) (d0 d1 : String)
    (hclaim : handleTaskGet A order (run A cfg emptyStore reqs).1 = (s1, 200, some t))
    (hdeps : t.Dependencies = [d0, d1]) :
    ∃ t0 t1, mapGet (run A cfg emptyStore reqs).1.tasks d0 = some t0 ∧
      mapGet (run A cfg emptyStore reqs).1.tasks d1 = some t1 ∧
      t0.Completed = true ∧ t1.Completed = true ∧
      t.Arg1 = t0.Result ∧ t.Arg2 = t1.Result := by
  have hinv := (slotInv_run A cfg hzero reqs emptyStore (by simp [emptyStore, mapKeys])
    (by intro k t h; simp [emptyStore, mapGet] at h)).2
  have hscan : claimScan A order (run A cfg emptyStore reqs).1 = (s1, some t) := by
    unfold handleTaskGet at hclaim
    cases hs : claimScan A order (run A cfg emptyStore reqs).1 with
    | mk s2 res =>
      rw [hs] at hclaim
      cases res with
      | none => simp at hclaim
      | some t2 =>
        simp only [Prod.mk.injEq, Option.some.injEq, true_and] at hclaim
        rw [hclaim.1, hclaim.2]
  exact claimScan_two A order _ s1 t d0 d1 hinv hscan hdeps

theorem claim_two_dependencies_witness :
    ratOps.isZero ratOps.zero = true ∧
    (handleTaskGet ratOps ["t6"] (run ratOps defaultConfig emptyStore productRun).1).2
      = (200, some ⟨"t6", "e", 3, 7, "*", 2000, ["t2", "t5"], 0, false, false⟩) ∧
    ∃ t0 t1, mapGet (run ratOps defaultConfig emptyStore productRun).1.tasks "t2" = some t0 ∧
      mapGet (run ratOps defaultConfig emptyStore productRun).1.tasks "t5" = some t1 ∧
      t0.Completed = true ∧ t1.Completed = true ∧
      (3 : ℚ) = t0.Result ∧ (7 : ℚ) = t1.Result :=
  ⟨by decide!, by decide!,
    claim_two_dependencies ratOps defaultConfig (by decide!) productRun ["t6"]
      (handleTaskGet ratOps ["t6"] (run ratOps defaultConfig emptyStore productRun).1).1
      ⟨"t6", "e", 3, 7, "*", 2000, ["t2", "t5"], 0, false, false⟩ "t2" "t5"
      (by decide!) rfl⟩

/-! ## Expression records in runs -/

theorem handleTaskPost_cases {α : Type} (id : String) (r : α) (s : Store α) :
    (mapGet s.tasks id = none ∧ (handleTaskPost id r s).1 = s) ∨
    ∃ task, mapGet s.tasks id = some task ∧
      ((mapGet s.expressions task.ExpressionID = none ∧
          (handleTaskPost id r s).1 = { s with tasks := setResult s.tasks id task r }) ∨
       ∃ expr, mapGet s.expressions task.ExpressionID = some expr ∧
        ((isFinalTask (setResult s.tasks id task r) task.ExpressionID = false ∧
            (handleTaskPost id r s).1 = { s with tasks := setResult s.tasks id task r }) ∨
         (isFinalTask (setResult s.tasks id task r) task.ExpressionID = true ∧
            (handleTaskPost id r s).1 =
              { expressions := mapSet s.expressions task.ExpressionID
                  { expr with Result := r, Status := "completed" }
                tasks := clearExpressionTasks (setResult s.tasks id task r)
                  task.ExpressionID }))) := by
  unfold handleTaskPost
  cases ht : mapGet s.tasks id with
  | none => exact Or.inl ⟨rfl, rfl⟩
  | some task =>
    right
    refine ⟨task, rfl, ?_⟩
    simp only []
    cases he : mapGet s.expressions task.ExpressionID with
    | none => exact Or.inl ⟨rfl, rfl⟩
    | some expr =>
      right
      refine ⟨expr, rfl, ?_⟩
      simp only []
      cases hf : isFinalTask (setResult s.tasks id task r) task.ExpressionID with
      | false =>
        left
        unfold setResult at hf
        simp only [hf, Bool.false_eq_true, if_false, true_and]
        rfl
      | true =>
        right
        unfold setResult at hf
        simp only [hf, if_true, true_and]
        rfl

theorem handleCalculate_cases {α : Type} (A : Float64Ops α) (cfg : Config) (id : String)
    (gen : Nat → String) (expression : String) (s : Store α) :
    (TrimSpace expression = "" ∧
      (handleCalculate A cfg id gen "POST" (some expression) s).1 = s) ∨
    (TrimSpace expression ≠ "" ∧
      parseExpression A cfg gen (TrimSpace expression) id = none ∧
      (handleCalculate A cfg id gen "POST" (some expression) s).1
        = insertExpression ⟨id, TrimSpace expression, "pending", A.zero⟩ s) ∨
    (TrimSpace expression ≠ "" ∧
      ∃ ts, parseExpression A cfg gen (TrimSpace expression) id = some ts ∧
        (handleCalculate A cfg id gen "POST" (some expression) s).1
          = insertTasks ts (insertExpression ⟨id, TrimSpace expression, "pending", A.zero⟩ s)) := by
  unfold handleCalculate
  simp only [ne_eq, not_true_eq_false, if_false]
  by_cases hempty : TrimSpace expression = ""
  · left
    simp [hempty]
  · right
    simp only [hempty, if_false, not_false_eq_true, true_and]
    cases hp : parseExpression A cfg gen (TrimSpace expression) id with
    | none => left; exact ⟨rfl, rfl⟩
    | some ts => right; exact ⟨ts, rfl, rfl⟩

theorem parseLoop_owner {α : Type} (A : Float64Ops α) (cfg : Config) (gen : Nat → String)
    (eid : String) (toks : List String) : ∀ (st st1 : ParseState α),
    (∀ t ∈ st.tasks, t.ExpressionID = eid ∧ t.Completed = false ∧ t.IsProcessing = false) →
    parseLoop A cfg gen eid toks st = some st1 →
    ∀ t ∈ st1.tasks, t.ExpressionID = eid ∧ t.Completed = false ∧ t.IsProcessing = false := by
  induction toks with
  | nil =>
    intro st st1 hinv h
    simp only [parseLoop, Option.some.injEq] at h
    subst h
    exact hinv
  | cons tok rest ih =>
    intro st st1 hinv h
    unfold parseLoop at h
    cases hs : parseStep A cfg gen eid st tok with
    | none => rw [hs] at h; simp at h
    | some st2 =>
      rw [hs] at h
      apply ih st2 st1 _ h
      unfold parseStep at hs
      by_cases hop : isOperator tok = true
      · simp only [hop, if_true] at hs
        split at hs
        · simp only [Option.some.injEq] at hs
          subst hs
          intro x hx
          simp only [List.mem_append, List.mem_singleton] at hx
          rcases hx with hx | hx
          · exact hinv x hx
          · subst hx; exact ⟨rfl, rfl, rfl⟩
        · simp at hs
      · simp only [hop, Bool.false_eq_true, if_false, Option.some.injEq] at hs
        subst hs
        exact hinv

theorem parseExpression_owner {α : Type} (A : Float64Ops α) (cfg : Config)
    (gen : Nat → String) (expr eid : String) (tasks : List (Task α))
    (h : parseExpression A cfg gen expr eid = some tasks) :
    ∀ t ∈ tasks, t.ExpressionID = eid ∧ t.Completed = false ∧ t.IsProcessing = false := by
  unfold parseExpression at h
  cases hp : infixToPostfix expr with
  | none => rw [hp] at h; simp at h
  | some toks =>
    rw [hp] at h
    simp only [] at h
    cases hl : parseLoop A cfg gen eid toks ⟨[], [], 0⟩ with
    | none => rw [hl] at h; simp at h
    | some st =>
      rw [hl] at h
      simp only [Option.some.injEq] at h
      subst h
      exact parseLoop_owner A cfg gen eid toks _ st (by simp) hl

theorem Task.scanned_ExpressionID {α : Type} {t t1 : Task α} (h : Task.scanned t t1) :
    t1.ExpressionID = t.ExpressionID := by
  rw [h.1]

theorem Task.completedFrom_ExpressionID {α : Type} {t t1 : Task α}
    (h : Task.completedFrom t t1) : t1.ExpressionID = t.ExpressionID := by
  rw [h.1]

theorem exprKept_refl {α : Type} (s : Store α) : ExprKept s s :=
  fun _ x h => ⟨x, h, fun _ => rfl⟩

theorem exprKept_trans {α : Type} {s s1 s2 : Store α} (h1 : ExprKept s s1)
    (h2 : ExprKept s1 s2) : ExprKept s s2 := by
  intro e x hx
  obtain ⟨y, hy, hxy⟩ := h1 e x hx
  obtain ⟨z, hz, hyz⟩ := h2 e y hy
  refine ⟨z, hz, fun hc => ?_⟩
  have := hxy hc
  subst this
  exact hyz hc

theorem exprKept_of_eq {α : Type} {s s1 : Store α} (h : s1.expressions = s.expressions) :
    ExprKept s s1 := by
  intro e x hx
  exact ⟨x, by rw [h]; exact hx, fun _ => rfl⟩

theorem exprInv_insert {α : Type} (s s1 : Store α) (issued new : List String) (id : String)
    (x : Expression α) (hinv : ExprInv s issued) (hid : id ∉ issued)
    (hx : x.Status = "pending") (hnd : (mapKeys s1.tasks).Nodup)
    (hexp : s1.expressions = mapSet s.expressions id x)
    (htasks : ∀ k t1, mapGet s1.tasks k = some t1 →
      t1.ExpressionID = id ∨ mapGet s.tasks k = some t1) :
    ExprInv s1 (issued ++ id :: new) ∧ ExprKept s s1 := by
  have hold : ∀ e y, mapGet s.expressions e = some y → mapGet s1.expressions e = some y := by
    intro e y hy
    have hne : id ≠ e := fun h => hid (h ▸ hinv.exprKey e y hy)
    rw [hexp, mapGet_mapSet]
    simp [hne, hy]
  refine ⟨⟨hnd, ?_, ?_, ?_⟩, fun e y hy => ⟨y, hold e y hy, fun _ => rfl⟩⟩
  · intro e y hy
    rw [hexp, mapGet_mapSet] at hy
    by_cases he : id = e
    · subst he; simp
    · simp only [he, if_false] at hy
      exact List.mem_append_left _ (hinv.exprKey e y hy)
  · intro e y hy
    rw [hexp, mapGet_mapSet] at hy
    by_cases he : id = e
    · simp only [he, if_true, Option.some.injEq] at hy
      subst hy
      exact Or.inl hx
    · simp only [he, if_false] at hy
      exact hinv.status e y hy
  · intro k t1 ht1
    rcases htasks k t1 ht1 with h | h
    · refine ⟨x, ?_, hx⟩
      rw [hexp, mapGet_mapSet, h]
      simp
    · obtain ⟨y, hy, hp⟩ := hinv.owner k t1 h
      exact ⟨y, hold _ y hy, hp⟩

theorem exprInv_mono {α : Type} {s : Store α} {issued : List String} (extra : List String)
    (hinv : ExprInv s issued) : ExprInv s (issued ++ extra) :=
  ⟨hinv.tasksNodup, fun e x h => List.mem_append_left _ (hinv.exprKey e x h), hinv.status,
    hinv.owner⟩

theorem exprInv_step {α : Type} (A : Float64Ops α) (cfg : Config) (s : Store α)
    (issued : List String) (req : Request α) (hinv : ExprInv s issued)
    (hfresh : ∀ id gen expression, req = .submit id gen expression → id ∉ issued) :
    ExprInv (step A cfg s req).1 (issuedWith A cfg issued req) ∧
      ExprKept s (step A cfg s req).1 := by
  cases req with
  | submit id gen expression =>
    have hid := hfresh id gen expression rfl
    simp only [step, issuedWith]
    rcases handleCalculate_cases A cfg id gen expression s with
      ⟨_, hs⟩ | ⟨_, _, hs⟩ | ⟨_, ts, hp, hs⟩
    · rw [hs]
      exact ⟨exprInv_mono _ hinv, exprKept_refl s⟩
    · rw [hs]
      exact exprInv_insert s _ issued _ id _ hinv hid rfl hinv.tasksNodup rfl
        (fun k t1 h => Or.inr h)
    · rw [hs]
      obtain ⟨h1, h2, h3⟩ := insertTasks_tasks ts
        (insertExpression ⟨id, TrimSpace expression, "pending", A.zero⟩ s) hinv.tasksNodup
      refine exprInv_insert s _ issued _ id _ hinv hid rfl h1 (by rw [h2]; rfl) ?_
      intro k t1 h
      rcases h3 k t1 h with ⟨hm, _⟩ | hold
      · exact Or.inl (parseExpression_owner A cfg gen _ id ts hp t1 hm).1
      · exact Or.inr hold
  | claim order =>
    have hstep : (step A cfg s (.claim order)).1 = (claimScan A order s).1 := by
      simp only [step, handleTaskGet]
      cases claimScan A order s with
      | mk s2 res => cases res <;> rfl
    rw [hstep]
    obtain ⟨hexp, hkeys, hrel⟩ := claimScan_frame A order s
    simp only [issuedWith]
    refine ⟨⟨by rw [hkeys]; exact hinv.tasksNodup, ?_, ?_, ?_⟩, exprKept_of_eq hexp⟩
    · intro e x hx; rw [hexp] at hx; exact hinv.exprKey e x hx
    · intro e x hx; rw [hexp] at hx; exact hinv.status e x hx
    · intro k t1 ht1
      obtain ⟨t, ht, hsc⟩ := hrel.2 k t1 ht1
      rw [hexp, Task.scanned_ExpressionID hsc]
      exact hinv.owner k t ht
  | complete id result =>
    simp only [step, issuedWith]
    have hnd := (handleTaskPost_tasks id result s hinv.tasksNodup).1
    have hrel := handleTaskPost_rel id result s hinv.tasksNodup
    have hsame : (handleTaskPost id result s).1.expressions = s.expressions →
        ExprInv (handleTaskPost id result s).1 issued ∧
          ExprKept s (handleTaskPost id result s).1 := by
      intro hexp
      refine ⟨⟨hnd, ?_, ?_, ?_⟩, exprKept_of_eq hexp⟩
      · intro e x hx; rw [hexp] at hx; exact hinv.exprKey e x hx
      · intro e x hx; rw [hexp] at hx; exact hinv.status e x hx
      · intro k t1 ht1
        obtain ⟨t, ht, hc⟩ := hrel k t1 ht1
        rw [hexp, Task.completedFrom_ExpressionID hc]
        exact hinv.owner k t ht
    rcases handleTaskPost_cases id result s with
      ⟨_, hs⟩ | ⟨task, ht, ⟨_, hs⟩ | ⟨expr, he, ⟨_, hs⟩ | ⟨_, hs⟩⟩⟩
    · exact hsame (by rw [hs])
    · exact hsame (by rw [hs])
    · exact hsame (by rw [hs])
    · obtain ⟨x0, hx0, hpend⟩ := hinv.owner id task ht
      rw [he] at hx0
      simp only [Option.some.injEq] at hx0
      subst hx0
      have hexp : (handleTaskPost id result s).1.expressions
          = mapSet s.expressions task.ExpressionID
              { expr with Result := result, Status := "completed" } := by rw [hs]
      have htasks : (handleTaskPost id result s).1.tasks
          = clearExpressionTasks (setResult s.tasks id task result) task.ExpressionID := by
        rw [hs]
      refine ⟨⟨hnd, ?_, ?_, ?_⟩, ?_⟩
      · intro e x hx
        rw [hexp, mapGet_mapSet] at hx
        by_cases hee : task.ExpressionID = e
        · rw [← hee]; exact hinv.exprKey _ expr he
        · simp only [hee, if_false] at hx
          exact hinv.exprKey e x hx
      · intro e x hx
        rw [hexp, mapGet_mapSet] at hx
        by_cases hee : task.ExpressionID = e
        · simp only [hee, if_true, Option.some.injEq] at hx
          subst hx
          exact Or.inr rfl
        · simp only [hee, if_false] at hx
          exact hinv.status e x hx
      · intro k t1 ht1
        obtain ⟨t, htk, hc⟩ := hrel k t1 ht1
        have hne : t1.ExpressionID ≠ task.ExpressionID := by
          rw [htasks] at ht1
          unfold clearExpressionTasks at ht1
          have := ((mapGet_filter _ (nodup_mapSet _ _ hinv.tasksNodup) k t1).1 ht1).2
          simpa using this
        obtain ⟨x, hx, hp⟩ := hinv.owner k t htk
        refine ⟨x, ?_, hp⟩
        rw [hexp, mapGet_mapSet, Task.completedFrom_ExpressionID hc]
        rw [Task.completedFrom_ExpressionID hc] at hne
        simp [Ne.symm hne, hx]
      · intro e x hx
        rw [hexp, mapGet_mapSet]
        by_cases hee : task.ExpressionID = e
        · subst hee
          rw [he] at hx
          simp only [Option.some.injEq] at hx
          subst hx
          refine ⟨{ expr with Result := result, Status := "completed" }, by simp, ?_⟩
          intro hc
          rw [hpend] at hc
          exact absurd hc (by decide)
        · exact ⟨x, by simp [hee, hx], fun _ => rfl⟩

theorem freshRun_head {α : Type} (A : Float64Ops α) (cfg : Config) (issued : List String)
    (req : Request α) (rest : List (Request α)) (h : freshRun A cfg issued (req :: rest)) :
    (∀ id gen expression, req = .submit id gen expression → id ∉ issued) ∧
    freshRun A cfg (issuedWith A cfg issued req) rest := by
  cases req with
  | submit id gen expression =>
    refine ⟨?_, h.2.2.2⟩
    intro id1 gen1 e1 heq
    simp only [Request.submit.injEq] at heq
    rw [← heq.1]
    exact h.1
  | claim order => exact ⟨fun _ _ _ heq => by simp at heq, h⟩
  | complete id result => exact ⟨fun _ _ _ heq => by simp at heq, h⟩

theorem run_append {α : Type} (A : Float64Ops α) (cfg : Config) (reqs1 reqs2 : List (Request α)) :
    ∀ s : Store α, (run A cfg s (reqs1 ++ reqs2)).1 = (run A cfg (run A cfg s reqs1).1 reqs2).1 := by
  induction reqs1 with
  | nil => intro s; rfl
  | cons req rest ih =>
    intro s
    show (run A cfg (step A cfg s req).1 (rest ++ reqs2)).1 = _
    rw [ih]
    rfl

theorem exprInv_run {α : Type} (A : Float64Ops α) (cfg : Config) (reqs : List (Request α)) :
    ∀ (s : Store α) (issued : List String), ExprInv s issued → freshRun A cfg issued reqs →
    ∃ issued1, ExprInv (run A cfg s reqs).1 issued1 ∧ ExprKept s (run A cfg s reqs).1 := by
  induction reqs with
  | nil => intro s issued hinv _; exact ⟨issued, hinv, exprKept_refl s⟩
  | cons req rest ih =>
    intro s issued hinv hfresh
    obtain ⟨hhead, htail⟩ := freshRun_head A cfg issued req rest hfresh
    obtain ⟨h1, h2⟩ := exprInv_step A cfg s issued req hinv hhead
    obtain ⟨issued1, h3, h4⟩ := ih _ _ h1 htail
    exact ⟨issued1, h3, exprKept_trans h2 h4⟩

theorem freshRun_append {α : Type} (A : Float64Ops α) (cfg : Config)
    (reqs1 reqs2 : List (Request α)) : ∀ issued : List String,
    freshRun A cfg issued (reqs1 ++ reqs2) →
    freshRun A cfg issued reqs1 ∧
      ∃ issued1, freshRun A cfg issued1 reqs2 ∧ ∀ i ∈ issued, i ∈ issued1 := by
  induction reqs1 with
  | nil => intro issued h; exact ⟨trivial, issued, h, fun _ hi => hi⟩
  | cons req rest ih =>
    intro issued h
    cases req with
    | submit id gen expression =>
      obtain ⟨h1, h2, h3, h4⟩ := h
      obtain ⟨h5, issued1, h6, h7⟩ := ih _ h4
      exact ⟨⟨h1, h2, h3, h5⟩, issued1, h6, fun i hi => h7 i (List.mem_append_left _ hi)⟩
    | claim order => exact ih issued h
    | complete id result => exact ih issued h

theorem exprInv_empty {α : Type} : ExprInv (emptyStore : Store α) [] :=
  ⟨by simp [emptyStore, mapKeys], by simp [emptyStore, mapGet], by simp [emptyStore, mapGet],
    by simp [emptyStore, mapGet]⟩

/-- In a run from the empty store with fresh IDs every task in the store is
owned by an expression that is in the store and pending: the complete operation
is never called there on a task whose expression is missing. -/
theorem run_owner_present {α : Type} (A : Float64Ops α) (cfg : Config)
    (reqs : List (Request α)) (hfresh : freshRun A cfg [] reqs) (k : String) (t : Task α)
    (h : mapGet (run A cfg emptyStore reqs).1.tasks k = some t) :
    ∃ x, mapGet (run A cfg emptyStore reqs).1.expressions t.ExpressionID = some x ∧
      x.Status = "pending" := by
  obtain ⟨_, hinv, _⟩ := exprInv_run A cfg reqs emptyStore [] exprInv_empty hfresh
  exact hinv.owner k t h

theorem expressions_persist_from {α : Type} (A : Float64Ops α) (cfg : Config)
    (reqs1 reqs2 : List (Request α)) : ∀ (s : Store α) (issued : List String),
    ExprInv s issued → freshRun A cfg issued (reqs1 ++ reqs2) →
    ∀ e x, mapGet (run A cfg s reqs1).1.expressions e = some x →
      (x.Status = "pending" ∨ x.Status = "completed") ∧
      ∃ y, mapGet (run A cfg s (reqs1 ++ reqs2)).1.expressions e = some y ∧
        (x.Status = "completed" → y = x) := by
  induction reqs1 with
  | nil =>
    intro s issued hinv hfresh e x hx
    obtain ⟨_, _, hkept⟩ := exprInv_run A cfg reqs2 s issued hinv hfresh
    exact ⟨hinv.status e x hx, hkept e x hx⟩
  | cons req rest ih =>
    intro s issued hinv hfresh e x hx
    obtain ⟨hhead, htail⟩ := freshRun_head A cfg issued req (rest ++ reqs2) hfresh
    obtain ⟨h1, _⟩ := exprInv_step A cfg s issued req hinv hhead
    exact ih _ _ h1 htail e x hx

/-- C13: in a run of submit, claim and complete requests from the empty store
with fresh IDs, every expression record present after a prefix of the run has
status `pending` or `completed`, is still present after the rest of the run,
and, when it is completed after the prefix, is the same record (same status and
result) after the rest of the run. -/
theorem expressions_persist {α : Type} (A : Float64Ops α) (cfg : Config)
    (reqs1 reqs2 : List (Request α)) (hfresh : freshRun A cfg [] (reqs1 ++ reqs2))
    (e : String) (x : Expression α)
    (hx : mapGet (run A cfg emptyStore reqs1).1.expressions e = some x) :
    (x.Status = "pending" ∨ x.Status = "completed") ∧
    ∃ y, mapGet (run A cfg emptyStore (reqs1 ++ reqs2)).1.expressions e = some y ∧
      (x.Status = "completed" → y = x) :=
  expressions_persist_from A cfg reqs1 reqs2 emptyStore [] exprInv_empty hfresh e x hx

theorem expressions_persist_witness :
    freshRun ratOps defaultConfig [] (twoExpressionsPrefix ++ twoExpressionsSuffix) ∧
    (run ratOps defaultConfig emptyStore twoExpressionsPrefix).1.expressions
      = [("e1", ⟨"e1", "2 + 3", "completed", 5⟩)] ∧
    (run ratOps defaultConfig emptyStore (twoExpressionsPrefix ++ twoExpressionsSuffix)).1
      = ⟨[("e1", ⟨"e1", "2 + 3", "completed", 5⟩), ("e2", ⟨"e2", "4 * 5", "completed", 20⟩)],
          []⟩ ∧
    (("completed" = "pending" ∨ "completed" = "completed") ∧
    ∃ y, mapGet (run ratOps defaultConfig emptyStore
        (twoExpressionsPrefix ++ twoExpressionsSuffix)).1.expressions "e1" = some y ∧
      ("completed" = "completed" → y = ⟨"e1", "2 + 3", "completed", 5⟩)) :=
  ⟨⟨by decide!, by decide!, by decide!, by decide!, by decide!, by decide!, trivial⟩,
    by decide!, by decide!,
    expressions_persist ratOps defaultConfig twoExpressionsPrefix twoExpressionsSuffix
      ⟨by decide!, by decide!, by decide!, by decide!, by decide!, by decide!, trivial⟩
      "e1" ⟨"e1", "2 + 3", "completed", 5⟩ (by decide!)⟩

/-! ## The root task completes the expression -/

theorem Tree.nodeTasks_of_isLiteral {α : Type} (A : Float64Ops α) (cfg : Config)
    (gen : Nat → String) (eid : String) (u : Tree) (h : u.isLiteral = true) :
    ∀ n, u.nodeTasks A cfg gen eid n = [] := by
  induction u with
  | lit tok => intro n; rfl
  | bin op l r _ _ => simp [Tree.isLiteral] at h
  | paren v ih => intro n; exact ih h n

theorem Tree.handle_mem {α : Type} (A : Float64Ops α) (cfg : Config)
    (gen : Nat → String) (eid : String) (u : Tree) (h : u.isLiteral = false) :
    ∀ n, u.handle A cfg gen eid n ∈ u.nodeTasks A cfg gen eid n := by
  induction u with
  | lit tok => simp [Tree.isLiteral] at h
  | bin op l r _ _ =>
    intro n
    simp only [Tree.nodeTasks, Tree.handle]
    exact List.mem_append_right _ (List.mem_singleton.2 rfl)
  | paren v ih => intro n; exact ih h n

theorem Tree.nodeTasks_root {α : Type} (A : Float64Ops α) (cfg : Config)
    (gen : Nat → String) (eid : String) (u : Tree) (h : u.isLiteral = false) (n : Nat) :
    ∃ task ∈ u.nodeTasks A cfg gen eid n, task.ID = u.rootID gen n :=
  ⟨_, Tree.handle_mem A cfg gen eid u h n, Tree.handle_ID A cfg gen eid u n⟩

theorem Tree.nodeTasks_closed {α : Type} (A : Float64Ops α) (cfg : Config)
    (gen : Nat → String) (eid : String) (u : Tree) :
    ∀ n, depsClosed (u.nodeTasks A cfg gen eid n) := by
  induction u with
  | lit tok => intro n task h; simp [Tree.nodeTasks] at h
  | paren v ih => intro n; exact ih n
  | bin op l r ihl ihr =>
    intro n task h d hd
    simp only [Tree.nodeTasks, List.mem_append, List.mem_singleton] at h
    simp only [Tree.nodeTasks, List.map_append, List.mem_append]
    rcases h with (h | h) | h
    · exact Or.inl (Or.inl (ihl n task h d hd))
    · exact Or.inl (Or.inr (ihr _ task h d hd))
    · subst h
      simp only [Tree.childDeps, List.mem_append] at hd
      rcases hd with hd | hd
      · cases hl : l.isLiteral with
        | true => simp [hl] at hd
        | false =>
          simp only [hl, Bool.false_eq_true, if_false, List.mem_singleton] at hd
          obtain ⟨x, hx, hid⟩ := Tree.nodeTasks_root A cfg gen eid l hl n
          left; left
          exact List.mem_map.2 ⟨x, hx, by rw [hid, hd]⟩
      · cases hr : r.isLiteral with
        | true => simp [hr] at hd
        | false =>
          simp only [hr, Bool.false_eq_true, if_false, List.mem_singleton] at hd
          obtain ⟨x, hx, hid⟩ := Tree.nodeTasks_root A cfg gen eid r hr (n + l.size)
          left; right
          exact List.mem_map.2 ⟨x, hx, by rw [hid, hd]⟩

/-- In a tracked store in which completed tasks are claimed, when the task of
the root of a subtree is completed, so are all tasks of the subtree. -/
theorem Track.subtree_completed {α : Type} (A : Float64Ops α) (cfg : Config)
    (gen : Nat → String) (eid : String) (T : List (Task α)) (s : Store α)
    (htr : Track eid T s)
    (hdone : ∀ k t, mapGet s.tasks k = some t → t.Completed = true → t.IsProcessing = true)
    (u : Tree) : ∀ n, (∀ x ∈ u.nodeTasks A cfg gen eid n, x ∈ T) → u.isLiteral = false →
    (∃ st, mapGet s.tasks (u.rootID gen n) = some st ∧ st.Completed = true) →
    ∀ x ∈ u.nodeTasks A cfg gen eid n, ∃ st, mapGet s.tasks x.ID = some st ∧
      st.Completed = true := by
  induction u with
  | lit tok => intro n _ h; simp [Tree.isLiteral] at h
  | paren v ih => intro n hsub hlit hroot; exact ih n hsub hlit hroot
  | bin op l r ihl ihr =>
    intro n hsub _ hroot x hx
    obtain ⟨st, hst, hc⟩ := hroot
    have hsubl : ∀ y ∈ l.nodeTasks A cfg gen eid n, y ∈ T := fun y hy =>
      hsub y (by simp only [Tree.nodeTasks, List.mem_append]; exact Or.inl (Or.inl hy))
    have hsubr : ∀ y ∈ r.nodeTasks A cfg gen eid (n + l.size), y ∈ T := fun y hy =>
      hsub y (by simp only [Tree.nodeTasks, List.mem_append]; exact Or.inl (Or.inr hy))
    obtain ⟨st1, hst1, hown, hdeps⟩ := htr.present
      ((Tree.bin op l r).handle A cfg gen eid n)
      (hsub _ (Tree.handle_mem A cfg gen eid (Tree.bin op l r) rfl n))
    simp only [Tree.rootID] at hst
    simp only [Tree.handle] at hst1 hdeps
    rw [hst] at hst1
    simp only [Option.some.injEq] at hst1
    subst hst1
    have hall := htr.claimedDeps _ st hst hown (hdone _ st hst hc)
    simp only [Tree.nodeTasks, List.mem_append, List.mem_singleton] at hx
    rcases hx with (hx | hx) | hx
    · cases hl : l.isLiteral with
      | true => rw [Tree.nodeTasks_of_isLiteral A cfg gen eid l hl n] at hx; simp at hx
      | false =>
        apply ihl n hsubl hl _ x hx
        apply hall
        rw [hdeps]
        simp [Tree.childDeps, hl]
    · cases hr : r.isLiteral with
      | true =>
        rw [Tree.nodeTasks_of_isLiteral A cfg gen eid r hr (n + l.size)] at hx; simp at hx
      | false =>
        apply ihr (n + l.size) hsubr hr _ x hx
        apply hall
        rw [hdeps]
        simp [Tree.childDeps, hr]
    · subst hx
      exact ⟨st, hst, hc⟩

theorem insertTasks_old {α : Type} (ts : List (Task α)) : ∀ (s : Store α) (k : String)
    (t : Task α), mapGet s.tasks k = some t → k ∉ ts.map Task.ID →
    mapGet (insertTasks ts s).tasks k = some t := by
  induction ts with
  | nil => intro s k t h _; exact h
  | cons x ts ih =>
    intro s k t h hk
    simp only [List.map_cons, List.mem_cons, not_or] at hk
    apply ih (insertTask x s) k t _ hk.2
    simp only [insertTask, mapGet_mapSet]
    simp [Ne.symm hk.1, h]

theorem insertTasks_get {α : Type} (ts : List (Task α)) : ∀ (s : Store α),
    (ts.map Task.ID).Nodup → ∀ task ∈ ts, mapGet (insertTasks ts s).tasks task.ID = some task := by
  induction ts with
  | nil => intro s _ task h; simp at h
  | cons x ts ih =>
    intro s hnd task h
    simp only [List.map_cons, List.nodup_cons] at hnd
    rcases List.mem_cons.1 h with h | h
    · subst h
      apply insertTasks_old ts (insertTask task s) task.ID task _ hnd.1
      simp [insertTask, mapGet_mapSet]
    · exact ih (insertTask x s) hnd.2 task h

theorem claimScan_newly {α : Type} (A : Float64Ops α) (order : List String) :
    ∀ (s : Store α) (k : String) (st1 : Task α),
    mapGet (claimScan A order s).1.tasks k = some st1 → st1.IsProcessing = true →
    ∃ st, mapGet s.tasks k = some st ∧ st.Dependencies = st1.Dependencies ∧
      (st.IsProcessing = true ∨ Task.ready s.tasks st) := by
  induction order with
  | nil => intro s k st1 h hp; exact ⟨st1, h, rfl, Or.inl hp⟩
  | cons k0 order ih =>
    intro s k st1 h hp
    rcases claimScan_cases k0 s with hskip | ⟨t0, hget, hp0, hc0⟩
    · rw [claimScan_skip A k0 order s hskip] at h
      exact ih s k st1 h hp
    · have hsame := areDependenciesCompleted_same A s.tasks t0
      cases hr : (areDependenciesCompleted A s.tasks t0).2 with
      | true =>
        rw [claimScan_ready A k0 order s t0 hget hp0 hc0 hr] at h
        simp only [mapGet_mapSet] at h
        by_cases hk : k0 = k
        · simp only [hk, if_true, Option.some.injEq] at h
          subst hk
          refine ⟨t0, hget, ?_, Or.inr ⟨hp0, hc0,
            (areDependenciesCompleted_ready A s.tasks t0).1 hr⟩⟩
          rw [← h]
          unfold Task.sameButArgs at hsame
          simp only []
          rw [hsame]
        · simp only [hk, if_false] at h
          exact ⟨st1, h, rfl, Or.inl hp⟩
      | false =>
        rw [claimScan_blocked A k0 order s t0 hget hp0 hc0 hr] at h
        obtain ⟨st2, hst2, hd2, hor⟩ := ih _ k st1 h hp
        have hrel := blocked_mapRel A k0 s t0 hget
        obtain ⟨st, hst, hs⟩ := hrel.2 k st2 hst2
        refine ⟨st, hst, ?_, ?_⟩
        · rw [← hd2]
          unfold Task.sameButArgs at hs
          rw [hs]
        · rcases hor with h1 | h1
          · left
            unfold Task.sameButArgs at hs
            rw [hs] at h1
            exact h1
          · exact Or.inr ((Task.ready_congr hrel hs).2 h1)

theorem runInv_mono {α : Type} {s : Store α} {issued issued1 claimed : List String}
    (h : RunInv s issued claimed) (hsub : ∀ i ∈ issued, i ∈ issued1) :
    RunInv s issued1 claimed :=
  ⟨h.nodup, fun k t hk => ⟨(h.key k t hk).1, hsub k (h.key k t hk).2⟩, h.marked,
    fun i hi => hsub i (h.issuedClaimed i hi), h.claimedNodup⟩

theorem discInv_step {α : Type} (A : Float64Ops α) (cfg : Config) (s : Store α)
    (issued claimed : List String) (req : Request α) (rest : List (Request α))
    (hinv : DiscInv s issued claimed) (hfresh : freshRun A cfg issued (req :: rest))
    (hdisc : completesClaimed claimed req) :
    DiscInv (step A cfg s req).1 (issuedWith A cfg issued req)
      (claimed ++ (step A cfg s req).2.toList) := by
  obtain ⟨hhead, _⟩ := freshRun_head A cfg issued req rest hfresh
  have hexpr := (exprInv_step A cfg s issued req hinv.expr hhead).1
  have hrun : RunInv (step A cfg s req).1 (issuedWith A cfg issued req)
      (claimed ++ (step A cfg s req).2.toList) := by
    cases req with
    | submit id gen expression =>
      obtain ⟨_, h2, h3, _⟩ := hfresh
      have := runInv_step A cfg s issued claimed (.submit id gen expression) [] hinv.run
        ⟨h2, h3, trivial⟩
      apply runInv_mono this
      intro i hi
      simp only [issuedAfter, issuedWith, List.mem_append, List.mem_cons] at hi ⊢
      rcases hi with hi | hi
      · exact Or.inl hi
      · exact Or.inr (Or.inr hi)
    | claim order =>
      exact runInv_step A cfg s issued claimed (.claim order) [] hinv.run trivial
    | complete id result =>
      exact runInv_step A cfg s issued claimed (.complete id result) [] hinv.run trivial
  refine ⟨hrun, hexpr, ?_⟩
  cases req with
  | submit id gen expression =>
    intro k t1 h hc
    simp only [step] at h
    rcases handleCalculate_new A cfg id gen expression s hinv.run.nodup k t1 h with
      ⟨ts, hp, hm, _⟩ | hold
    · have := (parseExpression_owner A cfg gen _ id ts hp t1 hm).2.1
      rw [this] at hc
      simp at hc
    · exact hinv.done k t1 hold hc
  | claim order =>
    intro k t1 h hc
    have hstep : (step A cfg s (.claim order)).1 = (claimScan A order s).1 := by
      simp only [step, handleTaskGet]
      cases claimScan A order s with
      | mk s2 res => cases res <;> rfl
    rw [hstep] at h
    obtain ⟨t, ht, hsc⟩ := (claimScan_frame A order s).2.2.2 k t1 h
    apply hsc.2
    apply hinv.done k t ht
    rw [hsc.1] at hc
    exact hc
  | complete id result =>
    intro k t1 h hc
    simp only [step] at h
    obtain ⟨t, ht, _, hp⟩ := (handleTaskPost_tasks id result s hinv.run.nodup).2 k t1 h
    rw [hp]
    by_cases hk : k = id
    · subst hk
      exact hinv.run.marked k t ht hdisc
    · rcases handleTaskPost_cases id result s with
        ⟨_, hs⟩ | ⟨task, htask, ⟨_, hs⟩ | ⟨expr, _, ⟨_, hs⟩ | ⟨_, hs⟩⟩⟩
      · rw [hs, ht] at h
        simp only [Option.some.injEq] at h
        rw [← h] at hc
        exact hinv.done k t ht hc
      all_goals
        rw [hs] at h
        have h1 : mapGet (setResult s.tasks id task result) k = some t1 := by
          first
          | exact h
          | exact ((mapGet_filter _ (nodup_mapSet _ _ hinv.run.nodup) k t1).1 h).1
        simp only [setResult, mapGet_mapSet, Ne.symm hk, if_false] at h1
        rw [ht] at h1
        simp only [Option.some.injEq] at h1
        rw [← h1] at hc
        exact hinv.done k t ht hc

theorem Track.dep_owner {α : Type} {eid : String} {T : List (Task α)} {s : Store α}
    (htr : Track eid T s) (hcl : depsClosed T) {k d : String} {st dt : Task α}
    (hk : mapGet s.tasks k = some st) (he : st.ExpressionID = eid) (hd : d ∈ st.Dependencies)
    (hdt : mapGet s.tasks d = some dt) : dt.ExpressionID = eid := by
  obtain ⟨task0, hm0, hid0⟩ := List.mem_map.1 (htr.only k st hk he)
  obtain ⟨st0, hst0, _, hdeps0⟩ := htr.present task0 hm0
  rw [hid0, hk] at hst0
  simp only [Option.some.injEq] at hst0
  subst hst0
  rw [hdeps0] at hd
  obtain ⟨task1, hm1, hid1⟩ := List.mem_map.1 (hcl task0 hm0 d hd)
  obtain ⟨st1, hst1, hown1, _⟩ := htr.present task1 hm1
  rw [hid1, hdt] at hst1
  simp only [Option.some.injEq] at hst1
  subst hst1
  exact hown1

theorem Track.transfer {α : Type} {eid : String} {T : List (Task α)} {s s1 : Store α}
    (htr : Track eid T s) (hcl : depsClosed T)
    (h1 : ∀ k st, mapGet s.tasks k = some st → st.ExpressionID = eid →
      mapGet s1.tasks k = some st)
    (h2 : ∀ k st, mapGet s1.tasks k = some st → st.ExpressionID = eid →
      mapGet s.tasks k = some st) : Track eid T s1 := by
  refine ⟨?_, ?_, ?_, ?_⟩
  · intro task hm
    obtain ⟨st, hst, hown, hdeps⟩ := htr.present task hm
    exact ⟨st, h1 _ st hst hown, hown, hdeps⟩
  · intro k st hst hown
    exact htr.only k st (h2 k st hst hown) hown
  · obtain ⟨k, st, hst, hown, hc⟩ := htr.open_
    exact ⟨k, st, h1 k st hst hown, hown, hc⟩
  · intro k st hst hown hp d hd
    have hst0 := h2 k st hst hown
    obtain ⟨dt, hdt, hc⟩ := htr.claimedDeps k st hst0 hown hp d hd
    exact ⟨dt, h1 d dt hdt (htr.dep_owner hcl hst0 hown hd hdt), hc⟩

theorem setResult_forward {α : Type} (tasks : List (String × Task α)) (id : String)
    (task : Task α) (r : α) (ht : mapGet tasks id = some task) :
    ∀ k st, mapGet tasks k = some st →
      ∃ st1, mapGet (setResult tasks id task r) k = some st1 ∧ Task.completedFrom st st1 := by
  intro k st hst
  simp only [setResult, mapGet_mapSet]
  by_cases hk : id = k
  · subst hk
    rw [ht] at hst
    simp only [Option.some.injEq] at hst
    subst hst
    exact ⟨{ task with Result := r, Completed := true }, by simp, rfl, fun _ => rfl⟩
  · exact ⟨st, by simp [hk, hst], Task.completedFrom_refl st⟩

theorem setResult_backward {α : Type} (tasks : List (String × Task α)) (id : String)
    (task : Task α) (r : α) (ht : mapGet tasks id = some task) :
    ∀ k st1, mapGet (setResult tasks id task r) k = some st1 →
      ∃ st, mapGet tasks k = some st ∧ Task.completedFrom st st1 ∧ (k ≠ id → st1 = st) := by
  intro k st1 hst1
  simp only [setResult, mapGet_mapSet] at hst1
  by_cases hk : id = k
  · subst hk
    simp only [if_true, Option.some.injEq] at hst1
    subst hst1
    exact ⟨task, ht, ⟨rfl, fun _ => rfl⟩, fun h => absurd rfl h⟩
  · simp only [hk, if_false] at hst1
    exact ⟨st1, hst1, Task.completedFrom_refl st1, fun _ => rfl⟩

theorem Track.claimScan {α : Type} (A : Float64Ops α) (order : List String) {eid : String}
    {T : List (Task α)} {s : Store α} (htr : Track eid T s) :
    Track eid T (claimScan A order s).1 := by
  obtain ⟨_, _, hrel⟩ := claimScan_frame A order s
  refine ⟨?_, ?_, ?_, ?_⟩
  · intro task hm
    obtain ⟨st, hst, hown, hdeps⟩ := htr.present task hm
    obtain ⟨st1, hst1, hsc⟩ := hrel.1 _ st hst
    refine ⟨st1, hst1, ?_, ?_⟩
    · rw [hsc.1]; exact hown
    · rw [hsc.1]; exact hdeps
  · intro k st1 hst1 hown
    obtain ⟨st, hst, hsc⟩ := hrel.2 k st1 hst1
    rw [hsc.1] at hown
    exact htr.only k st hst hown
  · obtain ⟨k, st, hst, hown, hc⟩ := htr.open_
    obtain ⟨st1, hst1, hsc⟩ := hrel.1 k st hst
    refine ⟨k, st1, hst1, ?_, ?_⟩
    · rw [hsc.1]; exact hown
    · rw [hsc.1]; exact hc
  · intro k st1 hst1 hown hp d hd
    obtain ⟨st, hst, hdeps, hor⟩ := claimScan_newly A order s k st1 hst1 hp
    obtain ⟨st0, hst0, hsc0⟩ := hrel.2 k st1 hst1
    rw [hst] at hst0
    simp only [Option.some.injEq] at hst0
    subst hst0
    have hown0 : st.ExpressionID = eid := by rw [hsc0.1] at hown; exact hown
    rw [← hdeps] at hd
    have hdt : ∃ dt, mapGet s.tasks d = some dt ∧ dt.Completed = true := by
      rcases hor with h | h
      · exact htr.claimedDeps k st hst hown0 h d hd
      · exact h.2.2 d hd
    obtain ⟨dt, hdt, hc⟩ := hdt
    obtain ⟨dt1, hdt1, hsc1⟩ := hrel.1 d dt hdt
    refine ⟨dt1, hdt1, ?_⟩
    rw [hsc1.1]; exact hc

theorem Track.setResult_same {α : Type} {eid : String} {T : List (Task α)} {s : Store α}
    (htr : Track eid T s) (hnd : (mapKeys s.tasks).Nodup) (id : String) (task : Task α) (r : α)
    (ht : mapGet s.tasks id = some task)
    (hopen : isFinalTask (setResult s.tasks id task r) eid = false) :
    Track eid T { s with tasks := setResult s.tasks id task r } := by
  have hf := setResult_forward s.tasks id task r ht
  have hb := setResult_backward s.tasks id task r ht
  refine ⟨?_, ?_, ?_, ?_⟩
  · intro task0 hm
    obtain ⟨st, hst, hown, hdeps⟩ := htr.present task0 hm
    obtain ⟨st1, hst1, hc⟩ := hf _ st hst
    refine ⟨st1, hst1, ?_, ?_⟩
    · rw [hc.1]; exact hown
    · rw [hc.1]; exact hdeps
  · intro k st1 hst1 hown
    obtain ⟨st, hst, hc, _⟩ := hb k st1 hst1
    rw [hc.1] at hown
    exact htr.only k st hst hown
  · by_contra hno
    have hall : ∀ k t, mapGet (setResult s.tasks id task r) k = some t →
        t.ExpressionID = eid → t.Completed = true := by
      intro k t hk he
      cases hc : t.Completed with
      | true => rfl
      | false => exact absurd ⟨k, t, hk, he, hc⟩ hno
    have hfin : isFinalTask (setResult s.tasks id task r) eid = true :=
      (isFinalTask_iff (nodup_mapSet _ _ hnd) eid).2 hall
    rw [hfin] at hopen
    simp at hopen
  · intro k st1 hst1 hown hp d hd
    obtain ⟨st, hst, hc, _⟩ := hb k st1 hst1
    rw [hc.1] at hown hp hd
    obtain ⟨dt, hdt, hcd⟩ := htr.claimedDeps k st hst hown hp d hd
    obtain ⟨dt1, hdt1, hc1⟩ := hf d dt hdt
    exact ⟨dt1, hdt1, hc1.2 hcd⟩

theorem setResult_other {α : Type} {eid : String} {s : Store α} (id : String)
    (task : Task α) (r : α) (ht : mapGet s.tasks id = some task)
    (hE : task.ExpressionID ≠ eid) :
    (∀ k st, mapGet s.tasks k = some st → st.ExpressionID = eid →
      mapGet (setResult s.tasks id task r) k = some st) ∧
    (∀ k st, mapGet (setResult s.tasks id task r) k = some st → st.ExpressionID = eid →
      mapGet s.tasks k = some st) := by
  constructor
  · intro k st h hown
    have hk : id ≠ k := by
      intro hk
      subst hk
      rw [ht] at h
      simp only [Option.some.injEq] at h
      subst h
      exact hE hown
    simp [setResult, mapGet_mapSet, hk, h]
  · intro k st h hown
    obtain ⟨st0, hst0, hc, hsame⟩ := setResult_backward s.tasks id task r ht k st h
    by_cases hk : k = id
    · subst hk
      rw [ht] at hst0
      simp only [Option.some.injEq] at hst0
      subst hst0
      rw [hc.1] at hown
      exact absurd hown hE
    · rw [hsame hk]
      exact hst0

theorem phaseInv_step {α : Type} (A : Float64Ops α) (cfg : Config) (eid : String)
    (T : List (Task α)) (s : Store α) (issued claimed : List String) (req : Request α)
    (rest : List (Request α)) (hinv : DiscInv s issued claimed) (hcl : depsClosed T)
    (hph : PhaseInv eid T s) (hfresh : freshRun A cfg issued (req :: rest)) :
    PhaseInv eid T (step A cfg s req).1 := by
  obtain ⟨x, hx, htr⟩ := hph
  obtain ⟨hhead, _⟩ := freshRun_head A cfg issued req rest hfresh
  obtain ⟨_, hkept⟩ := exprInv_step A cfg s issued req hinv.expr hhead
  obtain ⟨y, hy, hxy⟩ := hkept eid x hx
  refine ⟨y, hy, fun hpy => ?_⟩
  rcases hinv.expr.status eid x hx with hpend | hcomp
  swap
  · have := hxy hcomp
    subst this
    rw [hcomp] at hpy
    exact absurd hpy (by decide)
  have tr := htr hpend
  have heid : eid ∈ issued := hinv.expr.exprKey eid x hx
  cases req with
  | submit id gen expression =>
    obtain ⟨hid, _, hnew, _⟩ := hfresh
    simp only [step]
    rcases handleCalculate_cases A cfg id gen expression s with
      ⟨_, hs⟩ | ⟨_, _, hs⟩ | ⟨hne, ts, hp, hs⟩
    · rw [hs]; exact tr
    · rw [hs]
      exact tr.transfer hcl (fun k st h _ => h) (fun k st h _ => h)
    · rw [hs]
      have hids : newTaskIDs A cfg id gen expression = ts.map Task.ID := by
        simp [newTaskIDs, hne, hp]
      obtain ⟨_, _, h3⟩ := insertTasks_tasks ts
        (insertExpression ⟨id, TrimSpace expression, "pending", A.zero⟩ s) hinv.run.nodup
      apply tr.transfer hcl
      · intro k st h _
        refine insertTasks_old ts
          (insertExpression ⟨id, TrimSpace expression, "pending", A.zero⟩ s) k st h ?_
        intro hk
        rw [← hids] at hk
        exact hnew k hk (hinv.run.key k st h).2
      · intro k st h hown
        rcases h3 k st h with ⟨hm, _⟩ | hold
        · have := (parseExpression_owner A cfg gen _ id ts hp st hm).1
          rw [this] at hown
          rw [hown] at hid
          exact absurd heid hid
        · exact hold
  | claim order =>
    have hstep : (step A cfg s (.claim order)).1 = (claimScan A order s).1 := by
      simp only [step, handleTaskGet]
      cases claimScan A order s with
      | mk s2 res => cases res <;> rfl
    rw [hstep]
    exact tr.claimScan A order
  | complete id result =>
    simp only [step] at hy ⊢
    rcases handleTaskPost_cases id result s with
      ⟨_, hs⟩ | ⟨task, ht, ⟨hnone, hs⟩ | ⟨expr, he, ⟨hf, hs⟩ | ⟨hf, hs⟩⟩⟩
    · rw [hs]; exact tr
    · obtain ⟨x0, hx0, _⟩ := hinv.expr.owner id task ht
      rw [hnone] at hx0
      simp at hx0
    · rw [hs]
      by_cases hE : task.ExpressionID = eid
      · rw [hE] at hf
        exact tr.setResult_same hinv.run.nodup id task result ht hf
      · obtain ⟨h1, h2⟩ := setResult_other id task result ht hE
        exact tr.transfer hcl h1 h2
    · by_cases hE : task.ExpressionID = eid
      · rw [hs] at hy
        simp only [mapGet_mapSet, hE, if_true, Option.some.injEq] at hy
        rw [← hy] at hpy
        simp at hpy
      · rw [hs]
        obtain ⟨h1, h2⟩ := setResult_other id task result ht hE
        have hnd : (mapKeys (setResult s.tasks id task result)).Nodup :=
          nodup_mapSet _ _ hinv.run.nodup
        apply tr.transfer hcl
        · intro k st h hown
          show mapGet (clearExpressionTasks (setResult s.tasks id task result)
            task.ExpressionID) k = some st
          unfold clearExpressionTasks
          rw [mapGet_filter _ hnd]
          refine ⟨h1 k st h hown, ?_⟩
          rw [hown]
          simp [Ne.symm hE]
        · intro k st h hown
          have h' : mapGet (clearExpressionTasks (setResult s.tasks id task result)
            task.ExpressionID) k = some st := h
          unfold clearExpressionTasks at h'
          exact h2 k st ((mapGet_filter _ hnd k st).1 h').1 hown

/-- After the submission of a well-formed expression with an operator, with
fresh IDs, the expression is tracked with the tasks `T` that `parseExpression`
returned. -/
theorem phaseInv_init {α : Type} (A : Float64Ops α) (cfg : Config) (eid : String)
    (gen : Nat → String) (expression : String) (T : List (Task α)) (s : Store α)
    (issued claimed : List String) (rest : List (Request α))
    (hinv : DiscInv s issued claimed) (hne : TrimSpace expression ≠ "")
    (hp : parseExpression A cfg gen (TrimSpace expression) eid = some T) (hT : T ≠ [])
    (hfresh : freshRun A cfg issued (.submit eid gen expression :: rest)) :
    PhaseInv eid T (step A cfg s (.submit eid gen expression)).1 := by
  obtain ⟨hid, hnd, _, _⟩ := hfresh
  have hids : newTaskIDs A cfg eid gen expression = T.map Task.ID := by
    simp [newTaskIDs, hne, hp]
  rw [hids] at hnd
  have hs : (step A cfg s (.submit eid gen expression)).1
      = insertTasks T (insertExpression ⟨eid, TrimSpace expression, "pending", A.zero⟩ s) := by
    simp only [step]
    rcases handleCalculate_cases A cfg eid gen expression s with
      ⟨h0, _⟩ | ⟨_, h0, _⟩ | ⟨_, ts, hp1, hs⟩
    · exact absurd h0 hne
    · rw [hp] at h0; simp at h0
    · rw [hp] at hp1
      simp only [Option.some.injEq] at hp1
      rw [hs, hp1]
  rw [hs]
  obtain ⟨_, h2, h3⟩ := insertTasks_tasks T
    (insertExpression ⟨eid, TrimSpace expression, "pending", A.zero⟩ s) hinv.run.nodup
  have hold : ∀ k st, mapGet s.tasks k = some st → st.ExpressionID ≠ eid := by
    intro k st h hown
    obtain ⟨x, hx, _⟩ := hinv.expr.owner k st h
    rw [hown] at hx
    exact hid (hinv.expr.exprKey eid x hx)
  have hnew : ∀ k st, mapGet (insertTasks T
      (insertExpression ⟨eid, TrimSpace expression, "pending", A.zero⟩ s)).tasks k = some st →
      st.ExpressionID = eid → st ∈ T ∧ st.ID = k := by
    intro k st h hown
    rcases h3 k st h with hm | h0
    · exact hm
    · exact absurd hown (hold k st h0)
  refine ⟨⟨eid, TrimSpace expression, "pending", A.zero⟩, ?_, fun _ => ⟨?_, ?_, ?_, ?_⟩⟩
  · rw [h2]
    simp [insertExpression, mapGet_mapSet]
  · intro task hm
    exact ⟨task, insertTasks_get T _ hnd task hm,
      (parseExpression_owner A cfg gen _ eid T hp task hm).1, rfl⟩
  · intro k st h hown
    obtain ⟨hm, hk⟩ := hnew k st h hown
    exact List.mem_map.2 ⟨st, hm, hk⟩
  · cases T with
    | nil => exact absurd rfl hT
    | cons task T1 =>
      exact ⟨task.ID, task, insertTasks_get _ _ hnd task (by simp),
        (parseExpression_owner A cfg gen _ eid _ hp task (by simp)).1,
        (parseExpression_owner A cfg gen _ eid _ hp task (by simp)).2.1⟩
  · intro k st h hown hproc
    obtain ⟨hm, _⟩ := hnew k st h hown
    have := (parseExpression_owner A cfg gen _ eid T hp st hm).2.2
    rw [this] at hproc
    simp at hproc

theorem parseExpression_nodeTasks {α : Type} (A : Float64Ops α) (cfg : Config)
    (gen : Nat → String) (expr eid : String) (t : Tree) (hwf : t.wellFormed = true)
    (htok : tokenize expr = t.tokens) :
    parseExpression A cfg gen expr eid = some (t.nodeTasks A cfg gen eid 0) := by
  have h := parseLoop_tree A cfg gen eid t hwf [] [] [] 0
  simp only [List.append_nil, List.nil_append, parseLoop] at h
  unfold parseExpression
  rw [infixToPostfix_tree expr t hwf htok]
  simp only [h]

theorem Tree.tokens_ne_nil (t : Tree) : t.tokens ≠ [] := by
  cases t with
  | lit tok => simp [Tree.tokens]
  | bin op l r => simp [Tree.tokens]
  | paren v => simp [Tree.tokens]

/-- The step that completes a tracked pending expression is the completion of
its root task, with all other tasks completed before. -/
theorem flip_is_root {α : Type} (A : Float64Ops α) (cfg : Config) (gen : Nat → String)
    (eid : String) (t : Tree) (s : Store α) (issued claimed : List String) (tid : String)
    (r : α) (hinv : DiscInv s issued claimed)
    (hph : PhaseInv eid (t.nodeTasks A cfg gen eid 0) s) (hlit : t.isLiteral = false)
    (x y : Expression α) (hx : mapGet s.expressions eid = some x)
    (hpend : x.Status = "pending")
    (hy : mapGet (step A cfg s (.complete tid r)).1.expressions eid = some y)
    (hcomp : y.Status = "completed") :
    tid = t.rootID gen 0 ∧ y.Result = r ∧
    ∀ task ∈ t.nodeTasks A cfg gen eid 0, task.ID ≠ tid →
      ∃ st, mapGet s.tasks task.ID = some st ∧ st.Completed = true := by
  obtain ⟨x1, hx1, htr⟩ := hph
  rw [hx] at hx1
  simp only [Option.some.injEq] at hx1
  subst hx1
  have tr := htr hpend
  have hsame : (handleTaskPost tid r s).1.expressions = s.expressions → False := by
    intro h
    simp only [step] at hy
    rw [h, hx] at hy
    simp only [Option.some.injEq] at hy
    rw [← hy, hpend] at hcomp
    exact absurd hcomp (by decide)
  rcases handleTaskPost_cases tid r s with
    ⟨_, hs⟩ | ⟨task, ht, ⟨_, hs⟩ | ⟨expr, he, ⟨_, hs⟩ | ⟨hf, hs⟩⟩⟩
  · exact absurd (by rw [hs]) hsame
  · exact absurd (by rw [hs]) hsame
  · exact absurd (by rw [hs]) hsame
  · simp only [step] at hy
    rw [hs] at hy
    simp only [mapGet_mapSet] at hy
    by_cases hE : task.ExpressionID = eid
    swap
    · simp only [hE, if_false] at hy
      rw [hx] at hy
      simp only [Option.some.injEq] at hy
      rw [← hy, hpend] at hcomp
      exact absurd hcomp (by decide)
    simp only [hE, if_true, Option.some.injEq] at hy
    have hres : y.Result = r := by rw [← hy]
    rw [hE] at hf
    have hfin := (isFinalTask_iff (nodup_mapSet _ _ hinv.run.nodup) eid).1 hf
    have hothers : ∀ task0 ∈ t.nodeTasks A cfg gen eid 0, task0.ID ≠ tid →
        ∃ st, mapGet s.tasks task0.ID = some st ∧ st.Completed = true := by
      intro task0 hm hne
      obtain ⟨st, hst, hown, _⟩ := tr.present task0 hm
      refine ⟨st, hst, ?_⟩
      apply hfin task0.ID st _ hown
      simp [setResult, mapGet_mapSet, Ne.symm hne, hst]
    refine ⟨?_, hres, hothers⟩
    by_contra hne
    obtain ⟨τ, hτ, hidτ⟩ := Tree.nodeTasks_root A cfg gen eid t hlit 0
    obtain ⟨st, hst, hc⟩ := hothers τ hτ (by rw [hidτ]; exact fun h => hne h.symm)
    rw [hidτ] at hst
    have hall := Track.subtree_completed A cfg gen eid _ s tr hinv.done t 0
      (fun _ h => h) hlit ⟨st, hst, hc⟩
    obtain ⟨k, st1, hst1, hown1, hc1⟩ := tr.open_
    obtain ⟨task1, hm1, hid1⟩ := List.mem_map.1 (tr.only k st1 hst1 hown1)
    obtain ⟨st2, hst2, hc2⟩ := hall task1 hm1
    rw [hid1, hst1] at hst2
    simp only [Option.some.injEq] at hst2
    rw [← hst2, hc1] at hc2
    simp at hc2

theorem root_flip_mid {α : Type} (A : Float64Ops α) (cfg : Config) (gen : Nat → String)
    (eid : String) (t : Tree) (tid : String) (r : α) (hlit : t.isLiteral = false)
    (mid : List (Request α)) : ∀ (s : Store α) (issued claimed : List String),
    DiscInv s issued claimed → PhaseInv eid (t.nodeTasks A cfg gen eid 0) s →
    freshRun A cfg issued (mid ++ [.complete tid r]) →
    disciplined A cfg s claimed (mid ++ [.complete tid r]) →
    ∀ x y : Expression α, mapGet (run A cfg s mid).1.expressions eid = some x →
    x.Status = "pending" →
    mapGet (run A cfg s (mid ++ [.complete tid r])).1.expressions eid = some y →
    y.Status = "completed" →
    tid = t.rootID gen 0 ∧ y.Result = r ∧
    ∀ task ∈ t.nodeTasks A cfg gen eid 0, task.ID ≠ tid →
      ∃ st, mapGet (run A cfg s mid).1.tasks task.ID = some st ∧ st.Completed = true := by
  induction mid with
  | nil =>
    intro s issued claimed hinv hph _ _ x y hx hpend hy hcomp
    exact flip_is_root A cfg gen eid t s issued claimed tid r hinv hph hlit x y hx hpend hy hcomp
  | cons req rest ih =>
    intro s issued claimed hinv hph hfresh hdisc x y hx hpend hy hcomp
    have hfresh1 : freshRun A cfg issued (req :: (rest ++ [Request.complete tid r])) := hfresh
    have hdisc1 : disciplined A cfg s claimed (req :: (rest ++ [Request.complete tid r])) :=
      hdisc
    have hinv1 := discInv_step A cfg s issued claimed req _ hinv hfresh1 hdisc1.1
    have hph1 := phaseInv_step A cfg eid _ s issued claimed req _
      hinv (Tree.nodeTasks_closed A cfg gen eid t 0) hph hfresh1
    exact ih _ _ _ hinv1 hph1 (freshRun_head A cfg issued req _ hfresh1).2 hdisc1.2 x y hx
      hpend hy hcomp

theorem root_flip_pre {α : Type} (A : Float64Ops α) (cfg : Config) (gen : Nat → String)
    (eid expression : String) (t : Tree) (tid : String) (r : α)
    (hwf : t.wellFormed = true) (hlit : t.isLiteral = false)
    (htok : tokenize (TrimSpace expression) = t.tokens)
    (mid : List (Request α)) (pre : List (Request α)) :
    ∀ (s : Store α) (issued claimed : List String), DiscInv s issued claimed →
    freshRun A cfg issued (pre ++ .submit eid gen expression :: (mid ++ [.complete tid r])) →
    disciplined A cfg s claimed
      (pre ++ .submit eid gen expression :: (mid ++ [.complete tid r])) →
    ∀ x y : Expression α,
    mapGet (run A cfg s (pre ++ .submit eid gen expression :: mid)).1.expressions eid = some x →
    x.Status = "pending" →
    mapGet (run A cfg s
      (pre ++ .submit eid gen expression :: (mid ++ [.complete tid r]))).1.expressions eid
        = some y →
    y.Status = "completed" →
    tid = t.rootID gen 0 ∧ y.Result = r ∧
    ∀ task ∈ t.nodeTasks A cfg gen eid 0, task.ID ≠ tid →
      ∃ st, mapGet (run A cfg s (pre ++ .submit eid gen expression :: mid)).1.tasks task.ID
          = some st ∧ st.Completed = true := by
  induction pre with
  | nil =>
    intro s issued claimed hinv hfresh hdisc x y hx hpend hy hcomp
    have hne : TrimSpace expression ≠ "" := by
      intro h
      rw [h] at htok
      exact Tree.tokens_ne_nil t htok.symm
    have hp := parseExpression_nodeTasks A cfg gen (TrimSpace expression) eid t hwf htok
    have hT : t.nodeTasks A cfg gen eid 0 ≠ [] := by
      obtain ⟨τ, hτ, _⟩ := Tree.nodeTasks_root A cfg gen eid t hlit 0
      intro h
      rw [h] at hτ
      simp at hτ
    have hfresh1 : freshRun A cfg issued
        (Request.submit eid gen expression :: (mid ++ [Request.complete tid r])) := hfresh
    have hdisc1 : disciplined A cfg s claimed
        (Request.submit eid gen expression :: (mid ++ [Request.complete tid r])) := hdisc
    have hinv1 := discInv_step A cfg s issued claimed (.submit eid gen expression) _ hinv
      hfresh1 hdisc1.1
    have hph1 := phaseInv_init A cfg eid gen expression _ s issued claimed _ hinv hne hp hT
      hfresh1
    exact root_flip_mid A cfg gen eid t tid r hlit mid _ _ _ hinv1 hph1
      (freshRun_head A cfg issued _ _ hfresh1).2 hdisc1.2 x y hx hpend hy hcomp
  | cons req rest ih =>
    intro s issued claimed hinv hfresh hdisc x y hx hpend hy hcomp
    have hfresh1 : freshRun A cfg issued (req :: (rest ++
        Request.submit eid gen expression :: (mid ++ [Request.complete tid r]))) := hfresh
    have hdisc1 : disciplined A cfg s claimed (req :: (rest ++
        Request.submit eid gen expression :: (mid ++ [Request.complete tid r]))) := hdisc
    have hinv1 := discInv_step A cfg s issued claimed req _ hinv hfresh1 hdisc1.1
    exact ih _ _ _ hinv1 (freshRun_head A cfg issued req _ hfresh1).2 hdisc1.2 x y hx hpend
      hy hcomp

theorem discInv_empty {α : Type} : DiscInv (emptyStore : Store α) [] [] :=
  ⟨runInv_empty, exprInv_empty, by simp [emptyStore, mapGet]⟩

/-- C17: take a run from the empty store with fresh IDs in which `complete` is
called only for tasks that a claim has handed out, and in which a well-formed
expression with at least one operator (parse tree `t`) is submitted under the
ID `eid`. If a later `complete(tid, r)` finds the expression pending and leaves
it completed, then `tid` is the ID of the root task (the last task returned by
`parseExpression`), the result of the expression is `r`, and every other task
of the expression was in the store and completed before that call. -/
theorem root_task_completes_expression {α : Type} (A : Float64Ops α) (cfg : Config)
    (gen : Nat → String) (eid expression : String) (t : Tree) (tid : String) (r : α)
    (pre mid : List (Request α)) (x y : Expression α)
    (hwf : t.wellFormed = true) (hop : t.isLiteral = false)
    (htok : tokenize (TrimSpace expression) = t.tokens)
    (hfresh : freshRun A cfg []
      (pre ++ .submit eid gen expression :: (mid ++ [.complete tid r])))
    (hdisc : disciplined A cfg emptyStore []
      (pre ++ .submit eid gen expression :: (mid ++ [.complete tid r])))
    (hbefore : mapGet (run A cfg emptyStore
      (pre ++ .submit eid gen expression :: mid)).1.expressions eid = some x)
    (hpending : x.Status = "pending")
    (hafter : mapGet (run A cfg emptyStore
      (pre ++ .submit eid gen expression :: (mid ++ [.complete tid r]))).1.expressions eid
        = some y)
    (hcompleted : y.Status = "completed") :
    tid = t.rootID gen 0 ∧
    ((t.nodeTasks A cfg gen eid 0).getLast?).map Task.ID = some tid ∧
    y.Result = r ∧
    ∀ task ∈ t.nodeTasks A cfg gen eid 0, task.ID ≠ tid →
      ∃ st, mapGet (run A cfg emptyStore
          (pre ++ .submit eid gen expression :: mid)).1.tasks task.ID = some st ∧
        st.Completed = true := by
  obtain ⟨h1, h2, h3⟩ := root_flip_pre A cfg gen eid expression t tid r hwf hop htok mid pre
    emptyStore [] [] discInv_empty hfresh hdisc x y hbefore hpending hafter hcompleted
  refine ⟨h1, ?_, h2, h3⟩
  rw [h1]
  clear hfresh hdisc hbefore hafter h3 h1 htok hwf
  generalize 0 = n
  induction t generalizing n with
  | lit tok => simp [Tree.isLiteral] at hop
  | paren v ih => exact ih hop n
  | bin op l r _ _ => simp [Tree.nodeTasks, Tree.rootID]

theorem root_task_completes_expression_witness :
    exAddMul.wellFormed = true ∧ exAddMul.isLiteral = false ∧
    tokenize (TrimSpace "2 + 3 * 4") = exAddMul.tokens ∧
    freshRun ratOps defaultConfig []
      ([] ++ .submit "e" genT "2 + 3 * 4" :: (rootRunMiddle ++ [.complete "t4" 14])) ∧
    disciplined ratOps defaultConfig emptyStore []
      ([] ++ .submit "e" genT "2 + 3 * 4" :: (rootRunMiddle ++ [.complete "t4" 14])) ∧
    (run ratOps defaultConfig emptyStore
      ([] ++ .submit "e" genT "2 + 3 * 4" :: rootRunMiddle)).1.expressions
        = [("e", ⟨"e", "2 + 3 * 4", "pending", 0⟩)] ∧
    (run ratOps defaultConfig emptyStore
      ([] ++ .submit "e" genT "2 + 3 * 4" :: (rootRunMiddle ++ [.complete "t4" 14]))).1
        = ⟨[("e", ⟨"e", "2 + 3 * 4", "completed", 14⟩)], []⟩ ∧
    ("t4" = exAddMul.rootID genT 0 ∧
    ((exAddMul.nodeTasks ratOps defaultConfig genT "e" 0).getLast?).map Task.ID = some "t4" ∧
    (⟨"e", "2 + 3 * 4", "completed", 14⟩ : Expression ℚ).Result = 14 ∧
    ∀ task ∈ exAddMul.nodeTasks ratOps defaultConfig genT "e" 0, task.ID ≠ "t4" →
      ∃ st, mapGet (run ratOps defaultConfig emptyStore
          ([] ++ .submit "e" genT "2 + 3 * 4" :: rootRunMiddle)).1.tasks task.ID = some st ∧
        st.Completed = true) :=
  ⟨by decide, by decide, by decide!,
    ⟨by decide!, by decide!, by decide!, trivial⟩,
    ⟨by decide!, by decide!, by decide!, by decide!, by decide!, trivial⟩,
    by decide!, by decide!,
    root_task_completes_expression ratOps defaultConfig genT "e" "2 + 3 * 4" exAddMul "t4" 14
      [] rootRunMiddle ⟨"e", "2 + 3 * 4", "pending", 0⟩ ⟨"e", "2 + 3 * 4", "completed", 14⟩
      (by decide) (by decide) (by decide!)
      ⟨by decide!, by decide!, by decide!, trivial⟩
      ⟨by decide!, by decide!, by decide!, by decide!, by decide!, trivial⟩
      (by decide!) rfl (by decide!) rfl⟩

/-! ## Stack safety on well-formed expressions -/

theorem postfixStep_none_iff (st : PfState) (token : String) :
    postfixStep st token = none ↔
      token = ")" ∧ (popUntilParen st.output st.stack).stack = [] := by
  unfold postfixStep
  by_cases hop : isOperator token = true
  · have hne := (isOperator_ne_paren hop).2
    simp [hop, hne]
  · simp only [hop, Bool.false_eq_true, if_false]
    by_cases h1 : token = "("
    · subst h1
      simp
    · simp only [h1, if_false]
      by_cases h2 : token = ")"
      · subst h2
        simp only [if_true, true_and]
        cases (popUntilParen st.output st.stack).stack <;> simp
      · simp [h2]

theorem parseStep_none_iff {α : Type} (A : Float64Ops α) (cfg : Config) (gen : Nat → String)
    (eid : String) (st : ParseState α) (token : String) :
    parseStep A cfg gen eid st token = none ↔
      isOperator token = true ∧ st.stack.length < 2 := by
  unfold parseStep
  by_cases hop : isOperator token = true
  · simp only [hop, if_true, true_and]
    match hs : st.stack with
    | [] => simp
    | [a] => simp
    | a :: b :: rest => simp
  · simp [hop]

theorem Tree.postorder_no_paren (t : Tree) (hwf : t.wellFormed = true) :
    ∀ tok ∈ t.postorder, tok ≠ "(" ∧ tok ≠ ")" := by
  induction t with
  | lit tok =>
    intro x hx
    simp only [Tree.postorder, List.mem_singleton] at hx
    subst hx
    exact (isLiteralToken_not_special hwf).2
  | paren v ih => exact ih hwf
  | bin op l r ihl ihr =>
    simp only [Tree.wellFormed, Bool.and_eq_true, decide_eq_true_eq] at hwf
    obtain ⟨⟨⟨⟨hop, hwl⟩, hwr⟩, _⟩, _⟩ := hwf
    intro x hx
    simp only [Tree.postorder, List.mem_append, List.mem_singleton] at hx
    rcases hx with (hx | hx) | hx
    · exact ihl hwl x hx
    · exact ihr hwr x hx
    · subst hx
      exact isOperator_ne_paren hop

/-- C22: when the tokens of `expr` are those of a well-formed parse tree `t`,
`infixToPostfix` returns (it never takes an element from an empty stack, which
the model reports as `none`), its output is the post-order of `t` and contains
no parenthesis token, and the loop of `parseExpression` runs to its end on that
output (at every operator token it finds at least two handles, otherwise the
model reports `none`) with exactly one handle left on the working stack. -/
theorem compile_stack_safe {α : Type} (A : Float64Ops α) (cfg : Config) (gen : Nat → String)
    (expr eid : String) (t : Tree) (hwf : t.wellFormed = true)
    (htok : tokenize expr = t.tokens) :
    ∃ toks, infixToPostfix expr = some toks ∧
      (∀ tok ∈ toks, tok ≠ "(" ∧ tok ≠ ")") ∧
      ∃ st, parseLoop A cfg gen eid toks ⟨[], [], 0⟩ = some st ∧ st.stack.length = 1 ∧
        parseExpression A cfg gen expr eid = some st.tasks := by
  have h := parseLoop_tree A cfg gen eid t hwf [] [] [] 0
  simp only [List.append_nil, List.nil_append, parseLoop] at h
  refine ⟨t.postorder, infixToPostfix_tree expr t hwf htok, Tree.postorder_no_paren t hwf,
    _, h, rfl, ?_⟩
  unfold parseExpression
  rw [infixToPostfix_tree expr t hwf htok]
  simp only [h]

theorem compile_stack_safe_witness :
    exParenMul.wellFormed = true ∧ tokenize "(2 + 3) * 4" = exParenMul.tokens ∧
    infixToPostfix "(2 + 3) * 4" = some ["2", "3", "+", "4", "*"] ∧
    ∃ toks, infixToPostfix "(2 + 3) * 4" = some toks ∧
      (∀ tok ∈ toks, tok ≠ "(" ∧ tok ≠ ")") ∧
      ∃ st, parseLoop ratOps defaultConfig genT "e" toks ⟨[], [], 0⟩ = some st ∧
        st.stack.length = 1 ∧
        parseExpression ratOps defaultConfig genT "(2 + 3) * 4" "e" = some st.tasks :=
  ⟨by decide, by decide, by decide,
    compile_stack_safe ratOps defaultConfig genT "(2 + 3) * 4" "e" exParenMul
      (by decide) (by decide)⟩

/-! ## Frame of the complete operation -/

/-- C23: for a store without duplicate keys and a complete call on a task in
the store owned by expression `E`: a task whose `ExpressionID` differs from `E`
is in the store after the call exactly when it was before, unchanged; every
expression record at a key other than `E` is unchanged; and when the call
finalises `E` (its record is in the store and no task of `E` is incomplete once
the result is recorded) the tasks left are exactly the tasks that were in the
store with an `ExpressionID` other than `E`. -/
theorem handleTaskPost_frame {α : Type} (id : String) (r : α) (s : Store α) (task : Task α)
    (hwf : s.WF) (ht : mapGet s.tasks id = some task) :
    (∀ k t, t.ExpressionID ≠ task.ExpressionID →
      (mapGet (handleTaskPost id r s).1.tasks k = some t ↔ mapGet s.tasks k = some t)) ∧
    (∀ e, e ≠ task.ExpressionID →
      mapGet (handleTaskPost id r s).1.expressions e = mapGet s.expressions e) ∧
    (∀ expr, mapGet s.expressions task.ExpressionID = some expr →
      (∀ k t, mapGet (setResult s.tasks id task r) k = some t →
        t.ExpressionID = task.ExpressionID → t.Completed = true) →
      ∀ k t, mapGet (handleTaskPost id r s).1.tasks k = some t ↔
        (mapGet s.tasks k = some t ∧ t.ExpressionID ≠ task.ExpressionID)) := by
  have hnd : (mapKeys (setResult s.tasks id task r)).Nodup := nodup_mapSet _ _ hwf.2
  have hset : ∀ k t, t.ExpressionID ≠ task.ExpressionID →
      (mapGet (setResult s.tasks id task r) k = some t ↔ mapGet s.tasks k = some t) := by
    intro k t hne
    obtain ⟨h1, h2⟩ := @setResult_other α t.ExpressionID s id task r ht
      (fun h => hne h.symm)
    exact ⟨fun h => h2 k t h rfl, fun h => h1 k t h rfl⟩
  have hclear : ∀ k t, mapGet (clearExpressionTasks (setResult s.tasks id task r)
      task.ExpressionID) k = some t ↔
      (mapGet s.tasks k = some t ∧ t.ExpressionID ≠ task.ExpressionID) := by
    intro k t
    unfold clearExpressionTasks
    rw [mapGet_filter _ hnd]
    constructor
    · rintro ⟨h1, h2⟩
      have hne : t.ExpressionID ≠ task.ExpressionID := by simpa using h2
      exact ⟨(hset k t hne).1 h1, hne⟩
    · rintro ⟨h1, hne⟩
      exact ⟨(hset k t hne).2 h1, by simpa using hne⟩
  rcases handleTaskPost_cases id r s with
    ⟨hnone, _⟩ | ⟨task1, ht1, ⟨he1, hs⟩ | ⟨expr1, he1, ⟨hf, hs⟩ | ⟨hf, hs⟩⟩⟩
  · rw [hnone] at ht
    simp at ht
  all_goals
    rw [ht] at ht1
    simp only [Option.some.injEq] at ht1
    subst ht1
  · rw [hs]
    refine ⟨hset, fun e _ => rfl, ?_⟩
    intro expr he
    rw [he1] at he
    simp at he
  · rw [hs]
    refine ⟨hset, fun e _ => rfl, ?_⟩
    intro expr _ hall
    rw [(isFinalTask_iff hnd task.ExpressionID).2 hall] at hf
    simp at hf
  · rw [hs]
    refine ⟨?_, ?_, fun _ _ _ => hclear⟩
    · intro k t hne
      rw [hclear k t]
      exact ⟨fun h => h.1, fun h => ⟨h, hne⟩⟩
    · intro e hne
      simp [mapGet_mapSet, Ne.symm hne]

theorem handleTaskPost_frame_witness :
    mixedStore.WF ∧
    handleTaskPost "a1" 5 mixedStore
      = (⟨[("e1", ⟨"e1", "2 + 3", "completed", 5⟩), ("e2", ⟨"e2", "4 * 5", "pending", 0⟩)],
          [("b1", ⟨"b1", "e2", 4, 5, "*", 2000, [], 0, false, false⟩)]⟩, 200) ∧
    (∀ e, e ≠ "e1" →
      mapGet (handleTaskPost "a1" (5 : ℚ) mixedStore).1.expressions e
        = mapGet mixedStore.expressions e) :=
  ⟨by decide, by decide!,
    (handleTaskPost_frame "a1" 5 mixedStore ⟨"a1", "e1", 2, 3, "+", 1000, [], 0, false, true⟩
      (by decide) (by decide!)).2.1⟩

/-! ## Submission is not one critical section -/

theorem runSections_insertTasks {α : Type} (A : Float64Ops α) (ts : List (Task α)) :
    ∀ s : Store α, runSections A s (ts.map CriticalSection.insertTask) = insertTasks ts s := by
  induction ts with
  | nil => intro s; rfl
  | cons t ts ih =>
    intro s
    simp only [List.map_cons, runSections, runSection, insertTasks]
    exact ih _

/-- Run without interruption, the critical sections of a submission produce
the store of `handleCalculate`. -/
theorem runSections_submit {α : Type} (A : Float64Ops α) (cfg : Config) (id : String)
    (gen : Nat → String) (expression : String) (s : Store α) :
    runSections A s (submitSections A cfg id gen expression)
      = (handleCalculate A cfg id gen "POST" (some expression) s).1 := by
  unfold submitSections handleCalculate
  simp only [ne_eq, not_true_eq_false, if_false]
  by_cases hempty : TrimSpace expression = ""
  · simp [hempty, runSections]
  · simp only [hempty, if_false, runSections, runSection]
    cases hp : parseExpression A cfg gen (TrimSpace expression) id with
    | none => rfl
    | some ts => exact runSections_insertTasks A ts _

/-- C21, evaluated on a schedule of critical sections: the submission of
`2 + 3 * 4` consists of three critical sections (the record, the product `t3`,
the sum `t4`); when a claim and the completion of `t3` acquire the lock between
the insertions of `t3` and `t4`, the expression is completed with result 12
while its compiled task `t4` has not been inserted; `t4` is inserted afterwards
and is never handed out. Without interruption the result is 14. -/
theorem submission_interleaved :
    submitSections ratOps defaultConfig "e" genT "2 + 3 * 4"
      = [.insertExpression ⟨"e", "2 + 3 * 4", "pending", 0⟩,
          .insertTask ⟨"t3", "e", 3, 4, "*", 2000, [], 0, false, false⟩,
          .insertTask ⟨"t4", "e", 2, 0, "+", 1000, ["t3"], 0, false, false⟩] ∧
    runSections ratOps emptyStore (interleavedSubmission.take 4)
      = ⟨[("e", ⟨"e", "2 + 3 * 4", "completed", 12⟩)], []⟩ ∧
    runSections ratOps emptyStore interleavedSubmission
      = ⟨[("e", ⟨"e", "2 + 3 * 4", "completed", 12⟩)],
          [("t4", ⟨"t4", "e", 2, 0, "+", 1000, ["t3"], 0, false, false⟩)]⟩ ∧
    (handleTaskGet ratOps ["t4"] (runSections ratOps emptyStore interleavedSubmission)).2
      = (404, none) ∧
    (submitAndRun ratOps defaultConfig "e" genT id 10 "2 + 3 * 4").expressions
      = [("e", ⟨"e", "2 + 3 * 4", "completed", 14⟩)] := by
  refine ⟨?_, ?_, ?_, ?_, ?_⟩ <;> decide!

end CalcMicro
